import Mathlib

/-!
Shallow embedding of the page-cache / copy-on-write backing-store subsystem
of `src/mizu/lib/kmem/src/phys.rs`.

Modelling conventions:
* Machine integers (`usize`) are `Nat`; where the Rust code can overflow or
  underflow (`checked_add`, unchecked `-`), the model either performs the
  check (returning `Err.EINVAL`) or signals a crash (`Err.crash`, standing
  for a Rust panic such as the debug-mode usize subtraction overflow or the
  `unreachable!()` arm).
* `Arc<Frame>` is a frame id (`Nat`) into a global frame store; frame id 0 is
  the canonical `ZERO` frame, whose bytes are never written.  `Arc<Phys>` is
  a node id into a global node store.  Mutation through `Mutex`/atomics is
  explicit state passing on a `World`.  The code is cooperatively scheduled
  and every claim is about a single task, so operations are sequential
  functions `World → World × Except Err α`.
* The backend (`Arc<dyn Io>`, an external collaborator per the spec) is a
  byte array: `read_at` yields `min(capacity, len - offset)` bytes (short
  reads allowed, 0 at EOF), `write_all_at` stores bytes and extends the
  length, `stream_len` is the length.  There is one backend per world.
* The frame allocator may fail: `allocFail` is an oracle consulted on the id
  the allocation would get, modelling `ENOMEM`.
* Recursion over parent chains (which the Rust borrow checker cannot make
  cyclic, but an arbitrary heap could) uses an explicit fuel parameter;
  running out of fuel is the distinguished error `Err.fuelOut`.
-/

namespace Umi

def PAGE_SHIFT : Nat := 12

def PAGE_SIZE : Nat := 2 ^ PAGE_SHIFT

/-- Error kinds of `ksc_core::Error` as used by `phys.rs`, plus the two
model-level markers described in the header. -/
inductive Err where
  | ENOMEM
  | ENOENT
  | EINVAL
  | crash
  | fuelOut
deriving DecidableEq, Repr

deriving instance DecidableEq for Except

/-- FrameState from `phys.rs`: the frame handle together with its valid
length. -/
inductive FrameState where
  | shared (fid len : Nat)
  | unique (fid len : Nat)
deriving DecidableEq, Repr

def FrameState.fid : FrameState → Nat
  | .shared f _ => f
  | .unique f _ => f

def FrameState.len : FrameState → Nat
  | .shared _ l => l
  | .unique _ l => l

/-- FrameState::frame: raise the valid length on a write and return the
frame handle and the (possibly raised) length together with the updated
state. -/
def FrameState.frame (s : FrameState) (write : Option Nat) : FrameState × Nat × Nat :=
  match s, write with
  | .shared f l, none => (.shared f l, f, l)
  | .shared f l, some n => (.shared f (max l n), f, max l n)
  | .unique f l, none => (.unique f l, f, l)
  | .unique f l, some n => (.unique f (max l n), f, max l n)

/-- FrameInfo from `phys.rs`. -/
structure FrameInfo where
  state : Option FrameState
  dirty : Bool
  pin : Nat
deriving DecidableEq, Repr

/-- FrameInfo::new. -/
def FrameInfo.new (fid len : Nat) : FrameInfo :=
  { state := some (.shared fid len), dirty := false, pin := 0 }

/-- Commit from `phys.rs`: shared frame handle versus a FrameInfo to be
installed locally by the caller. -/
inductive Commit where
  | sharedC (fid len : Nat)
  | uniqueC (fi : FrameInfo)
deriving DecidableEq, Repr

/-- Parent from `phys.rs`.  `backend` refers to the world's single backend. -/
inductive Parent where
  | phys (pid start : Nat) (stop : Option Nat)
  | backend
deriving DecidableEq, Repr

/-- One Phys object (the struct `Phys` in `phys.rs`); `flusher` is
`some offset` when the Phys holds a flusher handle. -/
structure PhysNode where
  branch : Bool
  parent : Option Parent
  frames : List (Nat × FrameInfo)
  position : Nat
  cow : Bool
  flusher : Option Nat
deriving DecidableEq, Repr

/-- FlushData from `phys.rs`; each triple is (page index, frame id, valid
length). -/
inductive FlushData where
  | single (d : Nat × Nat × Nat)
  | multiple (ds : List (Nat × Nat × Nat))
deriving DecidableEq, Repr

/-- The world: the node heap, the frame store, the allocator oracle, the
backend, and the flusher channel contents. -/
structure World where
  physs : List (Nat × PhysNode)
  nextPhys : Nat
  frames : Nat → Nat → Nat
  nextFrame : Nat
  allocFail : Nat → Bool
  backend : Nat → Nat
  backendLen : Nat
  flushQueue : List FlushData

/-! Association list helpers (hashbrown `HashMap` with the access patterns
`phys.rs` uses: lookup, replacing insert, remove, iterate). -/

def lookupA {α : Type} : List (Nat × α) → Nat → Option α
  | [], _ => none
  | (k, v) :: t, k' => if k = k' then some v else lookupA t k'

def insertA {α : Type} : List (Nat × α) → Nat → α → List (Nat × α)
  | [], k, v => [(k, v)]
  | (k', v') :: t, k, v => if k' = k then (k, v) :: t else (k', v') :: insertA t k v

def eraseA {α : Type} : List (Nat × α) → Nat → List (Nat × α)
  | [], _ => []
  | (k', v') :: t, k => if k' = k then t else (k', v') :: eraseA t k

/-! World accessors and updaters. -/

def World.node (w : World) (pid : Nat) : Option PhysNode :=
  lookupA w.physs pid

def World.entry (w : World) (pid idx : Nat) : Option FrameInfo :=
  (w.node pid).bind fun n => lookupA n.frames idx

/-- Replace the page table of node `pid`. -/
def World.setFrames (w : World) (pid : Nat) (fs : List (Nat × FrameInfo)) : World :=
  { w with
    physs :=
      match lookupA w.physs pid with
      | none => w.physs
      | some n => insertA w.physs pid { n with frames := fs } }

/-- Insert (or replace) one page-table entry of node `pid`. -/
def World.setEntry (w : World) (pid idx : Nat) (fi : FrameInfo) : World :=
  match lookupA w.physs pid with
  | none => w
  | some n => { w with physs := insertA w.physs pid { n with frames := insertA n.frames idx fi } }

/-- Remove one page-table entry of node `pid`. -/
def World.eraseEntry (w : World) (pid idx : Nat) : World :=
  match lookupA w.physs pid with
  | none => w
  | some n => { w with physs := insertA w.physs pid { n with frames := eraseA n.frames idx } }

/-- Append one FlushData to the flusher channel. -/
def World.pushQueue (w : World) (d : FlushData) : World :=
  { w with flushQueue := w.flushQueue ++ [d] }

/-! Frame allocation and copying (`Frame::new`, `Frame::copy`).  A fresh
frame is zero-filled; the allocator fails (ENOMEM) exactly when the oracle
says so for the id being handed out. -/

/-- Frame::new. -/
def frameNew (w : World) : Except Err (Nat × World) :=
  if w.allocFail w.nextFrame then .error .ENOMEM
  else
    .ok (w.nextFrame,
      { w with
        frames := fun g => if g = w.nextFrame then (fun _ => 0) else w.frames g,
        nextFrame := w.nextFrame + 1 })

/-- Frame::copy: a fresh frame whose first `len` bytes are copied from
`src` and whose remainder is zero. -/
def frameCopy (w : World) (src len : Nat) : Except Err (Nat × World) :=
  match frameNew w with
  | .error e => .error e
  | .ok (fid, w1) =>
    .ok (fid,
      { w1 with
        frames := fun g =>
          if g = fid then (fun k => if k < len then w.frames src k else 0) else w1.frames g })

/-! FrameInfo operations.  The Rust methods mutate `self` through the map
entry even on the error paths (notably `branch` has taken `self.state` out
before the fallible `frame.copy`), so the model returns the updated
FrameInfo alongside the result in every case. -/

/-- FrameInfo::branch: resolve a lookup in a branch (interior) Phys.  The
second component of the result is the updated entry (to be written back by
`FrameInfo.get`), the Bool in the success payload is the `remove` flag. -/
def FrameInfo.branch (w : World) (fi : FrameInfo) (write : Option Nat) (pin cow : Bool) :
    World × FrameInfo × Except Err (Commit × Bool) :=
  match fi.state with
  | some (.shared fid len) =>
    match write with
    | none =>
      (w, { fi with state := some (.shared fid len), pin := fi.pin + (if pin then 1 else 0) },
        .ok (.sharedC fid len, false))
    | some newLen =>
      if cow then
        let l := max len newLen
        match frameCopy w fid l with
        | .error e => (w, { fi with state := none }, .error e)
        | .ok (nf, w1) =>
          (w1, { fi with state := some (.unique fid l) }, .ok (.uniqueC (FrameInfo.new nf l), false))
      else
        let l := max len newLen
        (w, { fi with state := some (.shared fid l), pin := fi.pin + (if pin then 1 else 0) },
          .ok (.sharedC fid l, false))
  | some (.unique fid len) =>
    (w, { fi with state := none },
      .ok (.uniqueC { FrameInfo.new fid len with pin := fi.pin }, true))
  | none => (w, fi, .error .ENOENT)

/-- FrameInfo::leaf: resolve a read or write hit for a non-branch Phys. -/
def FrameInfo.leaf (w : World) (fi : FrameInfo) (write : Option Nat) (pin : Bool) :
    World × FrameInfo × Except Err (Nat × Nat) :=
  let fi1 : FrameInfo :=
    { fi with dirty := fi.dirty || write.isSome, pin := fi.pin + (if pin then 1 else 0) }
  match fi1.state with
  | some s =>
    let (s', f, l) := s.frame write
    (w, { fi1 with state := some s' }, .ok (f, l))
  | none =>
    match write with
    | some newLen =>
      match frameNew w with
      | .error e => (w, fi1, .error e)
      | .ok (f, w1) => (w1, { fi1 with state := some (.shared f newLen) }, .ok (f, newLen))
    | none => (w, fi1, .ok (0, 0))

/-- FrameInfo::get: dispatch an occupied entry `(pid, idx)` (whose current
value is `fi`) through `branch` or `leaf` and write the mutated entry back
(or remove it when `branch` says so). -/
def FrameInfo.get (w : World) (pid idx : Nat) (fi : FrameInfo) (branch : Bool)
    (write : Option Nat) (pin cow : Bool) : World × Except Err Commit :=
  if branch then
    let (w1, fi', r) := FrameInfo.branch w fi write pin cow
    match r with
    | .error e => (w1.setEntry pid idx fi', .error e)
    | .ok (c, remove) =>
      if remove then (w1.eraseEntry pid idx, .ok c)
      else (w1.setEntry pid idx fi', .ok c)
  else
    let (w1, fi', r) := FrameInfo.leaf w fi write pin
    match r with
    | .error e => (w1.setEntry pid idx fi', .error e)
    | .ok (f, l) => (w1.setEntry pid idx fi', .ok (.sharedC f l))

/-! The backend read loop of `Phys::commit_impl` (the `Parent::Backend`
arm): repeatedly `read_at` into the remaining part of the frame until the
frame is full or the backend reports EOF.  One model `read_at` delivers
`min(capacity, backendLen - offset)` bytes. -/

def backendFillLoop (w : World) (f : Nat) : Nat → Nat → Nat → Nat → World × Nat
  | 0, _, readLen, _ => (w, readLen)
  | fuel + 1, offset, readLen, bufPos =>
    if PAGE_SIZE ≤ bufPos then (w, readLen)
    else
      let len := min (PAGE_SIZE - bufPos) (w.backendLen - offset)
      if len = 0 then (w, readLen)
      else
        let w1 : World :=
          { w with
            frames := fun g =>
              if g = f then
                (fun k =>
                  if bufPos ≤ k ∧ k < bufPos + len then w.backend (offset + (k - bufPos))
                  else w.frames f k)
              else w.frames g }
        backendFillLoop w1 f fuel (offset + len) (readLen + len) (bufPos + len)

/-- The full backend page fetch: fill frame `f` from backend offset
`index << PAGE_SHIFT`, returning the number of bytes read. -/
def backendFill (w : World) (f base : Nat) : World × Nat :=
  backendFillLoop w f (PAGE_SIZE + 1) base 0 0

/-! Phys::commit_impl.  `fuel` bounds the parent-chain recursion depth. -/

def Phys.commitImpl (w : World) : Nat → Nat → Nat → Option Nat → Bool → Bool →
    World × Except Err Commit
  | 0, _, _, _, _, _ => (w, .error .fuelOut)
  | fuel + 1, pid, index, write, pin, cow0 =>
    match w.node pid with
    | none => (w, .error .crash)
    | some node =>
      let cow := node.cow || cow0
      match lookupA node.frames index with
      | some fi => FrameInfo.get w pid index fi node.branch write pin cow
      | none =>
        -- the no-parent / out-of-window fallback at the bottom of commit_impl
        let fallback : World → World × Except Err Commit := fun w =>
          match write with
          | none => (w, .ok (.sharedC 0 0))
          | some newLen =>
            match frameNew w with
            | .error e => (w, .error e)
            | .ok (f, w1) =>
              let fi := FrameInfo.new f newLen
              FrameInfo.get (w1.setEntry pid index fi) pid index fi node.branch write pin cow
        match node.parent with
        | some (.phys ppid start stop) =>
          if stop.elim true (fun s => decide (index < s - start)) then
            match Phys.commitImpl w fuel ppid (start + index) write pin cow with
            | (w1, .ok (.sharedC f l)) => (w1, .ok (.sharedC f l))
            | (w1, .ok (.uniqueC fi)) =>
              FrameInfo.get (w1.setEntry pid index fi) pid index fi node.branch write pin cow
            | (w1, .error e) => (w1, .error e)
          else fallback w
        | some .backend =>
          match frameNew w with
          | .error e => (w, .error e)
          | .ok (f, w1) =>
            let (w2, len) := backendFill w1 f (index <<< PAGE_SHIFT)
            let fi := FrameInfo.new f len
            FrameInfo.get (w2.setEntry pid index fi) pid index fi node.branch write pin cow
        | none => fallback w

/-- Phys::commit: the public wrapper.  `assert!(!self.branch)` and the
`unreachable!()` arm on a `Unique` result are modelled as `Err.crash`. -/
def Phys.commit (w : World) (fuel pid index : Nat) (writable : Option Nat) (pin : Bool) :
    World × Except Err (Nat × Nat) :=
  match w.node pid with
  | none => (w, .error .crash)
  | some node =>
    if node.branch then (w, .error .crash)
    else
      match Phys.commitImpl w fuel pid index writable pin node.cow with
      | (w1, .ok (.sharedC f l)) => (w1, .ok (f, l))
      | (w1, .ok (.uniqueC _)) => (w1, .error .crash)
      | (w1, .error e) => (w1, .error e)

/-! Constructors: Phys::new, Phys::new_anon, Phys::clone_as. -/

/-- Phys::new over the world's backend; returns the new node id.  The
flusher channel handle is kept only when `cow` holds (`cow.then_some`). -/
def Phys.new (w : World) (initial_pos : Nat) (cow : Bool) : World × Nat :=
  let node : PhysNode :=
    { branch := false
      parent := some .backend
      frames := []
      position := initial_pos
      cow := cow
      flusher := if cow then some 0 else none }
  ({ w with physs := insertA w.physs w.nextPhys node, nextPhys := w.nextPhys + 1 }, w.nextPhys)

/-- Phys::new_anon. -/
def Phys.new_anon (w : World) (cow : Bool) : World × Nat :=
  let node : PhysNode :=
    { branch := false
      parent := none
      frames := []
      position := 0
      cow := cow
      flusher := none }
  ({ w with physs := insertA w.physs w.nextPhys node, nextPhys := w.nextPhys + 1 }, w.nextPhys)

/-- Phys::clone_as on node `pid`: push the current leaf into a fresh branch
(which adopts the parent and the whole page table), reset the leaf onto the
branch, and return a new leaf windowed at `index_offset`.  The branch gets
id `w.nextPhys`, the new leaf id `w.nextPhys + 1`. -/
def Phys.clone_as (w : World) (pid : Nat) (cow : Bool) (index_offset : Nat)
    (fixed_count : Option Nat) : World × Nat :=
  match w.node pid with
  | none => (w, 0)
  | some node =>
    let bid := w.nextPhys
    let qid := w.nextPhys + 1
    let branchNode : PhysNode :=
      { branch := true
        parent := node.parent
        frames := node.frames
        position := 0
        cow := false
        flusher := none }
    let self' : PhysNode :=
      { node with parent := some (.phys bid 0 none), frames := [] }
    let leafNode : PhysNode :=
      { branch := false
        parent := some (.phys bid index_offset (fixed_count.map (· + index_offset)))
        frames := []
        position := 0
        cow := cow
        flusher := node.flusher.bind fun off => if cow then some (off + index_offset) else none }
    ({ w with
        physs := insertA (insertA (insertA w.physs pid self') bid branchNode) qid leafNode,
        nextPhys := w.nextPhys + 2 }, qid)

/-! Flushing.  `Arc::strong_count(&phys)` is the number of stored parent
links to the branch plus one for the clone the loop itself just took. -/

/-- Number of parent links in the world that reference node `pid`. -/
def linkCount (w : World) (pid : Nat) : Nat :=
  (w.physs.filter fun p =>
    match p.2.parent with
    | some (.phys q _ _) => q == pid
    | _ => false).length

/-- The loop body of Phys::flush, walking up the parent chain; `offset` is
the running `flusher.offset`. -/
def Phys.flushLoop : Nat → World → Nat → Nat → Nat → Option Bool → Bool →
    World × Except Err Unit
  | 0, w, _, _, _, _, _ => (w, .error .fuelOut)
  | fuel + 1, w, pid, index, offset, force_dirty, unpin =>
    match w.node pid with
    | none => (w, .error .crash)
    | some node =>
      let step : World × Option (Nat × Nat) :=
        match lookupA node.frames index with
        | none => (w, none)
        | some fi =>
          let fi1 := { fi with pin := fi.pin - (if unpin then 1 else 0) }
          let dirty0 := fi1.dirty
          let fi2 := { fi1 with dirty := false }
          let d := force_dirty.getD dirty0
          (w.setEntry pid index fi2,
            if d then fi2.state.map (fun s => (s.fid, s.len)) else none)
      let (w1, data) := step
      match data with
      | some (f, len) => (w1.pushQueue (.single (index + offset, f, len)), .ok ())
      | none =>
        match (w1.node pid).bind (·.parent) with
        | some (.phys ppid start stop) =>
          if linkCount w1 ppid + 1 > 1 then (w1, .ok ())
          else
            if start + index ≤ stop.getD (2 ^ 64 - 1) then
              if start ≤ offset then
                Phys.flushLoop fuel w1 ppid (start + index) (offset - start) force_dirty unpin
              else (w1, .error .crash)
            else (w1, .ok ())
        | _ => (w1, .ok ())

/-- Phys::flush: best-effort single-page writeback; a Phys without a
flusher returns immediately. -/
def Phys.flush (w : World) (fuel pid index : Nat) (force_dirty : Option Bool) (unpin : Bool) :
    World × Except Err Unit :=
  match w.node pid with
  | none => (w, .error .crash)
  | some node =>
    match node.flusher with
    | none => (w, .ok ())
    | some off => Phys.flushLoop fuel w pid index off force_dirty unpin

/-- The loop body of Phys::flush_all: at each level take every dirty page
as a batch, then climb only through an exclusively reachable branch. -/
def Phys.flushAllLoop : Nat → World → Nat → Nat → World × Except Err Unit
  | 0, w, _, _ => (w, .error .fuelOut)
  | fuel + 1, w, pid, offset =>
    match w.node pid with
    | none => (w, .error .crash)
    | some node =>
      let data : List (Nat × Nat × Nat) :=
        node.frames.filterMap fun p =>
          if p.2.dirty then p.2.state.map (fun s => (p.1 + offset, s.fid, s.len)) else none
      let w1 := w.setFrames pid (node.frames.map fun p => (p.1, { p.2 with dirty := false }))
      let w2 := w1.pushQueue (.multiple data)
      match (w2.node pid).bind (·.parent) with
      | some (.phys ppid start _) =>
        if linkCount w2 ppid + 1 > 1 then (w2, .ok ())
        else
          if start ≤ offset then Phys.flushAllLoop fuel w2 ppid (offset - start)
          else (w2, .error .crash)
      | _ => (w2, .ok ())

/-- Phys::flush_all. -/
def Phys.flush_all (w : World) (fuel pid : Nat) : World × Except Err Unit :=
  match w.node pid with
  | none => (w, .error .crash)
  | some node =>
    match node.flusher with
    | none => (w, .ok ())
    | some off => Phys.flushAllLoop fuel w pid off

/-! The flusher task (`async fn flusher`): drain the channel, writing each
`(index, frame, len)` through `Backend::write_all_at(index << PAGE_SHIFT,
frame[..len])`. -/

/-- Modelled from the spec: `umio::IoExt::stream_len` for a Phys is not in
the sources; per spec section 4.5 the underlying length resolves to
`max(local cursor, parent length)`, recursively through Phys parents. -/
def Phys.streamLenAux : Nat → World → Nat → Except Err Nat
  | 0, _, _ => .error .fuelOut
  | fuel + 1, w, pid =>
    match w.node pid with
    | none => .error .crash
    | some node =>
      match node.parent with
      | none => .ok node.position
      | some .backend => .ok (max node.position w.backendLen)
      | some (.phys ppid start _) =>
        match Phys.streamLenAux fuel w ppid with
        | .error e => .error e
        | .ok l => .ok (max node.position (l - start))

/-- Parent::stream_len: a Phys parent's length `saturating_sub start`, or
the backend's length. -/
def Parent.streamLen (fuel : Nat) (w : World) : Parent → Except Err Nat
  | .phys ppid start _ =>
    match Phys.streamLenAux fuel w ppid with
    | .error e => .error e
    | .ok l => .ok (l - start)
  | .backend => .ok w.backendLen

/-- SeekFrom of `umio`. -/
inductive SeekFrom where
  | start (pos : Nat)
  | fromEnd (pos : Int)
  | current (pos : Int)
deriving DecidableEq, Repr

/-- Shared arithmetic of the End/Current arms of Phys::seek:
`pos.checked_add(len.try_into()?).ok_or(EINVAL)?.try_into()?` with
`isize`/`usize` conversion failures surfacing as EINVAL. -/
def seekResolve (pos : Int) (len : Nat) : Except Err Nat :=
  if 2 ^ 63 - 1 < (len : Int) then .error .EINVAL
  else
    let s := pos + (len : Int)
    if s < -(2 ^ 63) ∨ 2 ^ 63 - 1 < s then .error .EINVAL
    else if s < 0 then .error .EINVAL
    else .ok s.toNat

/-- Phys::seek. -/
def Phys.seek (w : World) (fuel pid : Nat) (whence : SeekFrom) : World × Except Err Nat :=
  match w.node pid with
  | none => (w, .error .crash)
  | some node =>
    let res : Except Err Nat :=
      match whence with
      | .start pos => .ok pos
      | .fromEnd pos =>
        match node.parent with
        | none => seekResolve pos node.position
        | some par =>
          match Parent.streamLen fuel w par with
          | .error e => .error e
          | .ok pl => seekResolve pos (max node.position pl)
      | .current pos => seekResolve pos node.position
    match res with
    | .error e => (w, .error e)
    | .ok p =>
      ({ w with physs := insertA w.physs pid { node with position := p } }, .ok p)

/-! The scatter-gather copy helpers and the byte-oriented read/write
facade.  The claims quantify over a single byte sequence, so the `IoSlice`
buffers are instantiated with one slice: an `IoSliceMut` list is its
remaining capacity, an `IoSlice` list is the remaining bytes.  In
`copy_from_frame`/`copy_to_frame` a call with `end < start` models the Rust
usize subtraction overflow panic in `end - start`. -/

/-- The loop of copy_from_frame; the fuel is structural only, the top call
provides `e - start + 1`, enough because every iteration consumes at least
one byte of `[start, e)`. -/
def copyFromFrameLoop (w : World) (f : Nat) : Nat → Nat → Nat → Nat →
    Except Err (List Nat × Nat)
  | 0, _, _, _ => .error .fuelOut
  | fuel + 1, cap, start, e =>
    if cap = 0 ∨ e = start then .ok ([], cap)
    else if e < start then .error .crash
    else
      let len := min cap (e - start)
      let bytes := (List.range len).map fun k => w.frames f (start + k)
      match copyFromFrameLoop w f fuel (cap - len) (start + len) e with
      | .error er => .error er
      | .ok (rest, cap') => .ok (bytes ++ rest, cap')

/-- copy_from_frame: read `min(capacity, end - start)` bytes of frame `f`
starting at `start`, returning the bytes and the remaining capacity. -/
def copyFromFrame (w : World) (f cap start e : Nat) : Except Err (List Nat × Nat) :=
  copyFromFrameLoop w f (e - start + 1) cap start e

/-- The loop of copy_to_frame; fuel as in `copyFromFrameLoop`. -/
def copyToFrameLoop (f : Nat) : Nat → World → List Nat → Nat → Nat →
    Except Err (World × List Nat × Nat)
  | 0, _, _, _, _ => .error .fuelOut
  | fuel + 1, w, buf, start, e =>
    if buf.isEmpty ∨ e = start then .ok (w, buf, 0)
    else if e < start then .error .crash
    else
      let len := min buf.length (e - start)
      let w1 : World :=
        { w with
          frames := fun g =>
            if g = f then
              (fun k =>
                if start ≤ k ∧ k < start + len then buf.getD (k - start) 0 else w.frames f k)
            else w.frames g }
      match copyToFrameLoop f fuel w1 (buf.drop len) (start + len) e with
      | .error er => .error er
      | .ok (w2, rest, n) => .ok (w2, rest, len + n)

/-- copy_to_frame: write `min(buffer length, end - start)` bytes into frame
`f` at `start`, returning the world, the unconsumed buffer and the written
count. -/
def copyToFrame (f : Nat) (w : World) (buf : List Nat) (start e : Nat) :
    Except Err (World × List Nat × Nat) :=
  copyToFrameLoop f (e - start + 1) w buf start e

/-- The offsets helper of `phys.rs`: page/in-page decomposition of a byte
range, normalising an exact page boundary at the end. -/
def offsets (start e : Nat) : (Nat × Nat) × (Nat × Nat) :=
  let startPage := start >>> PAGE_SHIFT
  let startOffset := start - (startPage <<< PAGE_SHIFT)
  let endPage0 := e >>> PAGE_SHIFT
  let endOffset0 := e - (endPage0 <<< PAGE_SHIFT)
  ((startPage, startOffset),
    if endOffset0 = 0 then (endPage0 - 1, PAGE_SIZE) else (endPage0, endOffset0))

/-- The tail of Phys::read_at for multi-page reads: `cnt` remaining middle
pages, then the final page `read` with `min(end_offset, valid_len)`. -/
def Phys.readRest (fuel pid endOffset : Nat) : World → Nat → Nat → Nat → List Nat →
    World × Except Err (List Nat)
  | w, idx, 0, cap, acc =>
    match Phys.commit w fuel pid idx none false with
    | (w1, .error e) => (w1, .error e)
    | (w1, .ok (f, len)) =>
      match copyFromFrame w1 f cap 0 (min endOffset len) with
      | .error e => (w1, .error e)
      | .ok (bs, _) => (w1, .ok (acc ++ bs))
  | w, idx, cnt + 1, cap, acc =>
    match Phys.commit w fuel pid idx none false with
    | (w1, .error e) => (w1, .error e)
    | (w1, .ok (f, len)) =>
      match copyFromFrame w1 f cap 0 len with
      | .error e => (w1, .error e)
      | .ok (bs, cap') =>
        if len < PAGE_SIZE ∨ cap' = 0 then (w1, .ok (acc ++ bs))
        else Phys.readRest fuel pid endOffset w1 (idx + 1) cnt cap' (acc ++ bs)

/-- Phys::read_at with a single destination buffer of capacity `cap`;
returns the bytes read. -/
def Phys.read_at (w : World) (fuel pid offset cap : Nat) : World × Except Err (List Nat) :=
  if 2 ^ 64 ≤ offset + cap then (w, .error .EINVAL)
  else if cap = 0 then (w, .ok [])
  else
    let ((sp, so), (ep, eo)) := offsets offset (offset + cap)
    if sp = ep then
      match Phys.commit w fuel pid sp none false with
      | (w1, .error e) => (w1, .error e)
      | (w1, .ok (f, len)) =>
        match copyFromFrame w1 f cap so (min eo len) with
        | .error e => (w1, .error e)
        | .ok (bs, _) => (w1, .ok bs)
    else
      match Phys.commit w fuel pid sp none false with
      | (w1, .error e) => (w1, .error e)
      | (w1, .ok (f, len)) =>
        match copyFromFrame w1 f cap so len with
        | .error e => (w1, .error e)
        | .ok (bs, cap') =>
          if len < PAGE_SIZE ∨ cap' = 0 then (w1, .ok bs)
          else Phys.readRest fuel pid eo w1 (sp + 1) (ep - (sp + 1)) cap' bs

/-- The tail of Phys::write_at for multi-page writes. -/
def Phys.writeRest (fuel pid endOffset : Nat) : World → Nat → Nat → List Nat → Nat →
    World × Except Err Nat
  | w, idx, 0, buf, acc =>
    match Phys.commit w fuel pid idx (some endOffset) false with
    | (w1, .error e) => (w1, .error e)
    | (w1, .ok (f, _)) =>
      match copyToFrame f w1 buf 0 endOffset with
      | .error e => (w1, .error e)
      | .ok (w2, _, n) => (w2, .ok (acc + n))
  | w, idx, cnt + 1, buf, acc =>
    match Phys.commit w fuel pid idx (some PAGE_SIZE) false with
    | (w1, .error e) => (w1, .error e)
    | (w1, .ok (f, _)) =>
      match copyToFrame f w1 buf 0 PAGE_SIZE with
      | .error e => (w1, .error e)
      | .ok (w2, buf', n) =>
        if buf'.isEmpty then (w2, .ok (acc + n))
        else Phys.writeRest fuel pid endOffset w2 (idx + 1) cnt buf' (acc + n)

/-- Phys::write_at with a single source buffer `buf`; returns the number of
bytes written. -/
def Phys.write_at (w : World) (fuel pid offset : Nat) (buf : List Nat) : World × Except Err Nat :=
  if 2 ^ 64 ≤ offset + buf.length then (w, .error .EINVAL)
  else if buf.length = 0 then (w, .ok 0)
  else
    let ((sp, so), (ep, eo)) := offsets offset (offset + buf.length)
    if sp = ep then
      match Phys.commit w fuel pid sp (some eo) false with
      | (w1, .error e) => (w1, .error e)
      | (w1, .ok (f, _)) =>
        match copyToFrame f w1 buf so eo with
        | .error e => (w1, .error e)
        | .ok (w2, _, n) => (w2, .ok n)
    else
      match Phys.commit w fuel pid sp (some PAGE_SIZE) false with
      | (w1, .error e) => (w1, .error e)
      | (w1, .ok (f, _)) =>
        match copyToFrame f w1 buf so PAGE_SIZE with
        | .error e => (w1, .error e)
        | .ok (w2, buf', n) =>
          if buf'.isEmpty then (w2, .ok n)
          else Phys.writeRest fuel pid eo w2 (sp + 1) (ep - (sp + 1)) buf' n

/-- An initial world: no Phys objects yet, frame 0 is the canonical ZERO
frame, the backend holds `blen` bytes given by `bfun`, and the frame
allocator fails exactly on the ids `afail` selects. -/
def World.init (bfun : Nat → Nat) (blen : Nat) (afail : Nat → Bool) : World :=
  { physs := []
    nextPhys := 0
    frames := fun _ _ => 0
    nextFrame := 1
    allocFail := afail
    backend := bfun
    backendLen := blen
    flushQueue := [] }

/-- Allocate the next frame id with the given contents (used to state the
combined effect of `Frame::new` plus a subsequent fill). -/
def World.allocFrame (w : World) (data : Nat → Nat) : World :=
  { w with
    frames := fun g => if g = w.nextFrame then data else w.frames g,
    nextFrame := w.nextFrame + 1 }

/-- Overwrite `len` bytes of frame `f` starting at `start` with
`buf.getD (k - start) 0` (the effect of one `copy_to_frame` step). -/
def World.blit (w : World) (f : Nat) (buf : List Nat) (start len : Nat) : World :=
  { w with
    frames := fun g =>
      if g = f then
        (fun k => if start ≤ k ∧ k < start + len then buf.getD (k - start) 0 else w.frames f k)
      else w.frames g }

/-! Concrete scenario worlds used by witnesses and counterexamples.
`testW` has an empty backend and an allocator that never fails. -/

def testW : World := World.init (fun _ => 0) 0 (fun _ => false)

/-- A cow Phys over the (empty) backend with one written (dirty) page:
`new(backend, 0, cow=true)` then `write_at(0, [0xAA])`. -/
def flushW : World := (Phys.write_at (Phys.new testW 0 true).1 5 0 0 [170]).1

/-- An anonymous Phys world (node 0 is `new_anon(cow=true)`). -/
def anonW : World := (Phys.new_anon testW true).1

/-- Scenario for the commit-atomicity claim, first stage: an anonymous cow
Phys (node 0) whose allocator will fail on frame id 2 — exactly the id a
later cow fork will try to copy into. -/
def atomW0 : World := (Phys.new_anon (World.init (fun _ => 0) 0 (fun n => n == 2)) true).1

/-- Atomicity scenario after `write_at(0, [0xAA])` on node 0 (allocates
frame 1). -/
def atomW1 : World := (Phys.write_at atomW0 5 0 0 [170]).1

/-- Atomicity scenario after `clone_as(cow=true, 0, None)`: branch node 1
holds the written page, node 2 is the new leaf. -/
def atomW2 : World := (Phys.clone_as atomW1 0 true 0 none).1

/-- The failing call of the atomicity scenario: `write_at(0, [0xBB])` on
leaf 2 forces a cow fork in branch 1 whose frame copy hits ENOMEM. -/
def atomRes : World × Except Err Nat := Phys.write_at atomW2 5 2 0 [187]

/-- Scenario for the dirty-bit claim: a non-cow Phys over a one-byte
backend. -/
def dirtyW0 : World := (Phys.new (World.init (fun _ => 1) 1 (fun _ => false)) 0 false).1

/-- Dirty-bit scenario after `read_at(0, 1)`: page 0 is installed clean. -/
def dirtyW1 : World := (Phys.read_at dirtyW0 5 0 0 1).1

/-- Dirty-bit scenario after `clone_as(cow=false, 0, None)`: the clean page
now lives in branch node 1. -/
def dirtyW2 : World := (Phys.clone_as dirtyW1 0 false 0 none).1

/-- The probing call of the dirty-bit scenario: `write_at(0, [0x42])` on
leaf 0 resolves in the branch entry via the non-cow Shared path. -/
def dirtyRes : World × Except Err Nat := Phys.write_at dirtyW2 5 0 0 [66]

/-- Scenario for the stream-length claim: a non-cow Phys over the empty
backend. -/
def seekW0 : World := (Phys.new testW 0 false).1

/-- Stream-length scenario: `write_at(0, [1])` extends the content to
offset 1 (the high-water mark of writes). -/
def seekRes1 : World × Except Err Nat := Phys.write_at seekW0 5 0 0 [1]

/-- Stream-length scenario: the subsequent `seek(End(0))`. -/
def seekRes2 : World × Except Err Nat := Phys.seek seekRes1.1 5 0 (.fromEnd 0)

/-- Read of one byte at offset 0 of a fresh anonymous Phys. -/
def anonReadRes : World × Except Err (List Nat) := Phys.read_at anonW 5 0 0 1

/-- The S4 scenario of the spec: write 0x55 at offset 3·PAGE_SIZE + 7 on an
anonymous Phys. -/
def s4W : World := (Phys.write_at anonW 5 0 (3 * PAGE_SIZE + 7) [85]).1

/-- The S4 read from offset 0 over four pages. -/
def s4Read : World × Except Err (List Nat) := Phys.read_at s4W 5 0 0 (4 * PAGE_SIZE)

/-- A read of the single written byte of the S4 scenario. -/
def s4ReadAt : World × Except Err (List Nat) := Phys.read_at s4W 5 0 (3 * PAGE_SIZE + 7) 1

/-! The cow-isolation scenario over an arbitrary backend `b` of length `n`:
P = `new(backend, 0, cow=true)` is node 0; after `clone_as` the branch is
node 1 and Q is node 2. -/

/-- Cow-isolation scenario: the initial world. -/
def c2W0 (b : Nat → Nat) (n : Nat) : World := World.init b n (fun _ => false)

/-- Cow-isolation scenario: P created. -/
def c2W1 (b : Nat → Nat) (n : Nat) : World := (Phys.new (c2W0 b n) 0 true).1

/-- Cow-isolation scenario: `write_at(0, [0xAA])` on P. -/
def c2Write1 (b : Nat → Nat) (n : Nat) : World × Except Err Nat :=
  Phys.write_at (c2W1 b n) 5 0 0 [170]

/-- Cow-isolation scenario world after the 0xAA write. -/
def c2W2 (b : Nat → Nat) (n : Nat) : World := (c2Write1 b n).1

/-- Cow-isolation scenario: `Q = P.clone_as(cow=true, 0, None)`. -/
def c2W3 (b : Nat → Nat) (n : Nat) : World := (Phys.clone_as (c2W2 b n) 0 true 0 none).1

/-- Cow-isolation scenario: `write_at(0, [0xBB])` on Q. -/
def c2Write2 (b : Nat → Nat) (n : Nat) : World × Except Err Nat :=
  Phys.write_at (c2W3 b n) 5 2 0 [187]

/-- Cow-isolation scenario world after the 0xBB write. -/
def c2W4 (b : Nat → Nat) (n : Nat) : World := (c2Write2 b n).1

/-- Cow-isolation scenario: `read_at(0, 1)` on P. -/
def c2ReadP (b : Nat → Nat) (n : Nat) : World × Except Err (List Nat) :=
  Phys.read_at (c2W4 b n) 5 0 0 1

/-- Cow-isolation scenario world after reading P. -/
def c2W5 (b : Nat → Nat) (n : Nat) : World := (c2ReadP b n).1

/-- Cow-isolation scenario: a later `write_at(0, [0xCC])` on P. -/
def c2Write3 (b : Nat → Nat) (n : Nat) : World × Except Err Nat :=
  Phys.write_at (c2W5 b n) 5 0 0 [204]

/-- Cow-isolation scenario world after the 0xCC write. -/
def c2W6 (b : Nat → Nat) (n : Nat) : World := (c2Write3 b n).1

/-- Cow-isolation scenario: `read_at(0, 1)` on Q. -/
def c2ReadQ (b : Nat → Nat) (n : Nat) : World × Except Err (List Nat) :=
  Phys.read_at (c2W6 b n) 5 2 0 1

/-- Valid length of P's page 0 after the first (0xAA) write. -/
def c2L1 (n : Nat) : Nat := max (min PAGE_SIZE n) 1

/-- Valid length recorded by the COW fork in `FrameInfo::branch`. -/
def c2L2 (n : Nat) : Nat := max (c2L1 n) 1

/-- Valid length of a page-0 entry after a later one-byte write at 0. -/
def c2L3 (n : Nat) : Nat := max (c2L2 n) 1

/-- Explicit form of the world after the 0xAA write to P. -/
def c2X2 (b : Nat → Nat) (n : Nat) : World :=
  { physs := [(0,
      { branch := false, parent := some .backend,
        frames := [(0, { state := some (.shared 1 (c2L1 n)), dirty := true, pin := 0 })],
        position := 0, cow := true, flusher := some 0 })]
    nextPhys := 1
    frames := fun g =>
      if g = 1 then
        (fun k => if 0 ≤ k ∧ k < 0 + 1 then [170].getD (k - 0) 0
          else if k < min PAGE_SIZE n then b (0 + k) else 0)
      else if g = 1 then (fun k => if k < min PAGE_SIZE n then b (0 + k) else 0)
      else fun _ => 0
    nextFrame := 2
    allocFail := fun _ => false
    backend := b
    backendLen := n
    flushQueue := [] }

/-- Explicit form of the world after `Q = P.clone_as(cow=true, 0, None)`:
node 1 is the interposed branch, node 2 is Q. -/
def c2X3 (b : Nat → Nat) (n : Nat) : World :=
  { physs := [
      (0, { branch := false, parent := some (.phys 1 0 none), frames := [],
            position := 0, cow := true, flusher := some 0 }),
      (1, { branch := true, parent := some .backend,
            frames := [(0, { state := some (.shared 1 (c2L1 n)), dirty := true, pin := 0 })],
            position := 0, cow := false, flusher := none }),
      (2, { branch := false, parent := some (.phys 1 0 none), frames := [],
            position := 0, cow := true, flusher := some 0 })]
    nextPhys := 3
    frames := (c2X2 b n).frames
    nextFrame := 2
    allocFail := fun _ => false
    backend := b
    backendLen := n
    flushQueue := [] }

/-- Explicit form of the world after the 0xBB write to Q: the COW fork has
copied frame 1 into the fresh frame 2, left a `Unique` tombstone in the
branch, and written 0xBB into Q's private frame. -/
def c2X4 (b : Nat → Nat) (n : Nat) : World :=
  { physs := [
      (0, { branch := false, parent := some (.phys 1 0 none), frames := [],
            position := 0, cow := true, flusher := some 0 }),
      (1, { branch := true, parent := some .backend,
            frames := [(0, { state := some (.unique 1 (c2L2 n)), dirty := true, pin := 0 })],
            position := 0, cow := false, flusher := none }),
      (2, { branch := false, parent := some (.phys 1 0 none),
            frames := [(0, { state := some (.shared 2 (c2L3 n)), dirty := true, pin := 0 })],
            position := 0, cow := true, flusher := some 0 })]
    nextPhys := 3
    frames := fun g =>
      if g = 2 then
        (fun k => if 0 ≤ k ∧ k < 0 + 1 then [187].getD (k - 0) 0
          else if k < c2L2 n then (c2X3 b n).frames 1 k else 0)
      else if g = 2 then (fun k => if k < c2L2 n then (c2X3 b n).frames 1 k else 0)
      else if g = 2 then (fun _ => 0)
      else (c2X3 b n).frames g
    nextFrame := 3
    allocFail := fun _ => false
    backend := b
    backendLen := n
    flushQueue := [] }

/-- Explicit form of the world after P's read: the read commits P's page 0,
takes over the `Unique` tombstone (removing the branch entry) and installs
the original frame 1 in P's own table. -/
def c2X5 (b : Nat → Nat) (n : Nat) : World :=
  { physs := [
      (0, { branch := false, parent := some (.phys 1 0 none),
            frames := [(0, { state := some (.shared 1 (c2L2 n)), dirty := false, pin := 0 })],
            position := 0, cow := true, flusher := some 0 }),
      (1, { branch := true, parent := some .backend, frames := [],
            position := 0, cow := false, flusher := none }),
      (2, { branch := false, parent := some (.phys 1 0 none),
            frames := [(0, { state := some (.shared 2 (c2L3 n)), dirty := true, pin := 0 })],
            position := 0, cow := true, flusher := some 0 })]
    nextPhys := 3
    frames := (c2X4 b n).frames
    nextFrame := 3
    allocFail := fun _ => false
    backend := b
    backendLen := n
    flushQueue := [] }

/-- Explicit form of the world after the 0xCC write to P: a leaf hit on P's
own frame 1. -/
def c2X6 (b : Nat → Nat) (n : Nat) : World :=
  { physs := [
      (0, { branch := false, parent := some (.phys 1 0 none),
            frames := [(0, { state := some (.shared 1 (c2L3 n)), dirty := true, pin := 0 })],
            position := 0, cow := true, flusher := some 0 }),
      (1, { branch := true, parent := some .backend, frames := [],
            position := 0, cow := false, flusher := none }),
      (2, { branch := false, parent := some (.phys 1 0 none),
            frames := [(0, { state := some (.shared 2 (c2L3 n)), dirty := true, pin := 0 })],
            position := 0, cow := true, flusher := some 0 })]
    nextPhys := 3
    frames := fun g =>
      if g = 1 then
        (fun k => if 0 ≤ k ∧ k < 0 + 1 then [204].getD (k - 0) 0 else (c2X5 b n).frames 1 k)
      else (c2X5 b n).frames g
    nextFrame := 3
    allocFail := fun _ => false
    backend := b
    backendLen := n
    flushQueue := [] }

/-! The flush-writeback scenario.  With cow=false `Phys::new` keeps no
flusher handle (`cow.then_some`), so nothing is ever sent to the backend:
the concrete `c4c*` chain is the counterexample.  With cow=true the `c4*`
chain over an arbitrary backend is the amended property. -/

/-- The structural fields of a PhysNode — everything `commit_impl` never
changes (it only rewrites page tables). -/
def PhysNode.skel (n : PhysNode) : Bool × Option Parent × Bool × Nat × Option Nat :=
  (n.branch, n.parent, n.cow, n.position, n.flusher)

/-- The skeleton of the node heap at `pid`. -/
def skelOf (w : World) (pid : Nat) : Option (Bool × Option Parent × Bool × Nat × Option Nat) :=
  (w.node pid).map PhysNode.skel

/-- Accumulated page-index offset from a descendant `p` to an ancestor `q`
along the parent chain: if `ancOff fuel w p q = some d`, source index `i`
of `p` corresponds to table key `d + i` at `q`. -/
def ancOff : Nat → World → Nat → Nat → Option Nat
  | 0, _, _, _ => none
  | fuel + 1, w, p, q =>
    if p = q then some 0
    else
      match w.node p with
      | none => none
      | some n =>
        match n.parent with
        | some (.phys pp s _) => (ancOff fuel w pp q).map (· + s)
        | _ => none

/-- No page-table entry of any node resolves to frame `f`. -/
def entryFree (w : World) (f : Nat) : Prop :=
  ∀ p n i fi s, w.node p = some n → lookupA n.frames i = some fi →
    fi.state = some s → s.fid ≠ f

/-- Well-formedness of a world, relative to a rank function that decreases
along parent links (ruling out parent cycles): page-table keys are nodup,
every frame state has an in-range frame id and a page-bounded valid
length, and no frame is referenced by two distinct entries. -/
structure Wf (rank : Nat → Nat) (w : World) : Prop where
  keysF : ∀ p n, w.node p = some n → (n.frames.map Prod.fst).Nodup
  parentRank : ∀ p n pp s t, w.node p = some n → n.parent = some (.phys pp s t) →
    rank pp < rank p
  fidLt : ∀ p n i fi s, w.node p = some n → lookupA n.frames i = some fi →
    fi.state = some s → s.fid < w.nextFrame
  lenLe : ∀ p n i fi s, w.node p = some n → lookupA n.frames i = some fi →
    fi.state = some s → s.len ≤ PAGE_SIZE
  inj : ∀ p1 n1 i1 fi1 s1 p2 n2 i2 fi2 s2,
    w.node p1 = some n1 → lookupA n1.frames i1 = some fi1 → fi1.state = some s1 →
    w.node p2 = some n2 → lookupA n2.frames i2 = some fi2 → fi2.state = some s2 →
    ¬(p1 = p2 ∧ i1 = i2) → s1.fid ≠ s2.fid

/-- The resolution `(f, l)` of source index `idx` of node `pid` is recorded
in the world: either the node's own table holds an entry whose state
carries `(f, l)` (a Shared one if the node is a branch), or the entry is
absent, the parent window admits the index, and the resolution is recorded
at the parent. -/
def RecF : Nat → World → Nat → Nat → Nat → Nat → Prop
  | 0, _, _, _, _, _ => False
  | fuel + 1, w, pid, idx, f, l =>
    (∃ n fi s, w.node pid = some n ∧ lookupA n.frames idx = some fi ∧
      fi.state = some s ∧ s.fid = f ∧ s.len = l ∧
      (n.branch = false ∨ s = .shared f l)) ∨
    (w.entry pid idx = none ∧
      ∃ n pp s t, w.node pid = some n ∧ n.parent = some (.phys pp s t) ∧
        (t.elim True fun st => idx < st - s) ∧ RecF fuel w pp (s + idx) f l)

/-- Invariants between the worlds before and after one commit step. -/
structure StepOut (rank : Nat → Nat) (w w' : World) : Prop where
  wf : Wf rank w'
  skel : ∀ p, skelOf w' p = skelOf w p
  nfMono : w.nextFrame ≤ w'.nextFrame
  framesLt : ∀ g k, g < w.nextFrame → w'.frames g k = w.frames g k
  backend : w'.backend = w.backend
  backendLen : w'.backendLen = w.backendLen
  allocFail : w'.allocFail = w.allocFail

/-- What a successful write commit promises about its result payload. -/
def WriteOut (w' : World) (F pid idx e : Nat) : Commit → Prop
  | .sharedC f l => e ≤ l ∧ l ≤ PAGE_SIZE ∧ f < w'.nextFrame ∧ RecF F w' pid idx f l
  | .uniqueC fi => ∃ f l, fi.state = some (.shared f l) ∧ l ≤ PAGE_SIZE ∧
      f < w'.nextFrame ∧ entryFree w' f

/-- Phase-level world invariants: what a whole write pass preserves. -/
structure PhaseOut (rank : Nat → Nat) (w w' : World) : Prop where
  wf : Wf rank w'
  skel : ∀ p, skelOf w' p = skelOf w p
  nfMono : w.nextFrame ≤ w'.nextFrame
  backend : w'.backend = w.backend
  backendLen : w'.backendLen = w.backendLen
  allocFail : w'.allocFail = w.allocFail

/-! Lemmas about the association-list helpers. -/

@[simp] theorem lookupA_nil {α : Type} (k : Nat) : lookupA ([] : List (Nat × α)) k = none := rfl

@[simp] theorem lookupA_insertA_self {α : Type} (l : List (Nat × α)) (k : Nat) (v : α) :
    lookupA (insertA l k v) k = some v := by
  induction l with
  | nil => simp [insertA, lookupA]
  | cons h t ih =>
    obtain ⟨k', v'⟩ := h
    by_cases hk : k' = k
    · simp [insertA, lookupA, hk]
    · simp [insertA, lookupA, hk, ih]

@[simp] theorem lookupA_insertA_ne {α : Type} (l : List (Nat × α)) (k k' : Nat) (v : α)
    (h : k ≠ k') : lookupA (insertA l k v) k' = lookupA l k' := by
  induction l with
  | nil => simp [insertA, lookupA, h]
  | cons hd t ih =>
    obtain ⟨k0, v0⟩ := hd
    by_cases hk : k0 = k
    · subst hk
      simp [insertA, lookupA, h]
    · simp only [insertA, if_neg hk]
      by_cases hk' : k0 = k'
      · simp [lookupA, hk']
      · simp [lookupA, hk', ih]

theorem lookupA_eq_none {α : Type} (l : List (Nat × α)) (k : Nat)
    (h : k ∉ l.map Prod.fst) : lookupA l k = none := by
  induction l with
  | nil => rfl
  | cons hd t ih =>
    obtain ⟨k0, v0⟩ := hd
    simp only [List.map_cons, List.mem_cons] at h
    push_neg at h
    have hne : k0 ≠ k := fun hh => h.1 hh.symm
    simp [lookupA, hne, ih h.2]

theorem lookupA_eraseA_self {α : Type} (l : List (Nat × α)) (k : Nat)
    (hnd : (l.map Prod.fst).Nodup) : lookupA (eraseA l k) k = none := by
  induction l with
  | nil => rfl
  | cons hd t ih =>
    obtain ⟨k0, v0⟩ := hd
    simp only [List.map_cons, List.nodup_cons] at hnd
    by_cases hk : k0 = k
    · subst hk
      simpa [eraseA] using lookupA_eq_none t k0 hnd.1
    · simp [eraseA, hk, lookupA, ih hnd.2]

@[simp] theorem lookupA_eraseA_ne {α : Type} (l : List (Nat × α)) (k k' : Nat)
    (h : k ≠ k') : lookupA (eraseA l k) k' = lookupA l k' := by
  induction l with
  | nil => simp [eraseA]
  | cons hd t ih =>
    obtain ⟨k0, v0⟩ := hd
    by_cases hk : k0 = k
    · subst hk
      simp [eraseA, lookupA, if_neg h]
    · simp only [eraseA, if_neg hk]
      by_cases hk' : k0 = k'
      · simp [lookupA, hk']
      · simp [lookupA, hk', ih]

/-! Basic lemmas about the world accessors. -/

theorem lookupA_mem {α : Type} {l : List (Nat × α)} {k : Nat} {v : α}
    (h : lookupA l k = some v) : (k, v) ∈ l := by
  induction l with
  | nil => simp [lookupA] at h
  | cons hd t ih =>
    obtain ⟨k0, v0⟩ := hd
    simp only [lookupA] at h
    by_cases hk : k0 = k
    · subst hk
      rw [if_pos rfl] at h
      injection h with h
      subst h
      exact List.mem_cons_self ..
    · rw [if_neg hk] at h
      exact List.mem_cons_of_mem _ (ih h)

@[simp] theorem node_setEntry (w : World) (pid idx : Nat) (fi : FrameInfo) (pid' : Nat) :
    (w.setEntry pid idx fi).node pid' =
      match w.node pid with
      | none => w.node pid'
      | some n =>
        if pid = pid' then some { n with frames := insertA n.frames idx fi } else w.node pid' := by
  unfold World.setEntry World.node
  cases h : lookupA w.physs pid with
  | none => simp
  | some n =>
    by_cases hp : pid = pid'
    · subst hp
      simp [lookupA_insertA_self]
    · simp [lookupA_insertA_ne _ _ _ _ hp, hp]

@[simp] theorem node_eraseEntry (w : World) (pid : Nat) (idx : Nat) (pid' : Nat) :
    (w.eraseEntry pid idx).node pid' =
      match w.node pid with
      | none => w.node pid'
      | some n =>
        if pid = pid' then some { n with frames := eraseA n.frames idx } else w.node pid' := by
  unfold World.eraseEntry World.node
  cases h : lookupA w.physs pid with
  | none => simp
  | some n =>
    by_cases hp : pid = pid'
    · subst hp
      simp [lookupA_insertA_self]
    · simp [lookupA_insertA_ne _ _ _ _ hp, hp]

@[simp] theorem node_setFrames (w : World) (pid : Nat) (fs : List (Nat × FrameInfo))
    (pid' : Nat) :
    (w.setFrames pid fs).node pid' =
      match w.node pid with
      | none => w.node pid'
      | some n => if pid = pid' then some { n with frames := fs } else w.node pid' := by
  unfold World.setFrames World.node
  cases h : lookupA w.physs pid with
  | none => simp
  | some n =>
    by_cases hp : pid = pid'
    · subst hp
      simp [lookupA_insertA_self]
    · simp [lookupA_insertA_ne _ _ _ _ hp, hp]

@[simp] theorem flushQueue_setEntry (w : World) (pid idx : Nat) (fi : FrameInfo) :
    (w.setEntry pid idx fi).flushQueue = w.flushQueue := by
  unfold World.setEntry
  cases lookupA w.physs pid <;> rfl

@[simp] theorem backend_setEntry (w : World) (pid idx : Nat) (fi : FrameInfo) :
    (w.setEntry pid idx fi).backend = w.backend := by
  unfold World.setEntry
  cases lookupA w.physs pid <;> rfl

@[simp] theorem backendLen_setEntry (w : World) (pid idx : Nat) (fi : FrameInfo) :
    (w.setEntry pid idx fi).backendLen = w.backendLen := by
  unfold World.setEntry
  cases lookupA w.physs pid <;> rfl

@[simp] theorem frames_setEntry (w : World) (pid idx : Nat) (fi : FrameInfo) :
    (w.setEntry pid idx fi).frames = w.frames := by
  unfold World.setEntry
  cases lookupA w.physs pid <;> rfl

@[simp] theorem nextFrame_setEntry (w : World) (pid idx : Nat) (fi : FrameInfo) :
    (w.setEntry pid idx fi).nextFrame = w.nextFrame := by
  unfold World.setEntry
  cases lookupA w.physs pid <;> rfl

@[simp] theorem allocFail_setEntry (w : World) (pid idx : Nat) (fi : FrameInfo) :
    (w.setEntry pid idx fi).allocFail = w.allocFail := by
  unfold World.setEntry
  cases lookupA w.physs pid <;> rfl

@[simp] theorem node_pushQueue (w : World) (d : FlushData) (pid : Nat) :
    (w.pushQueue d).node pid = w.node pid := rfl

@[simp] theorem entry_pushQueue (w : World) (d : FlushData) (pid idx : Nat) :
    (w.pushQueue d).entry pid idx = w.entry pid idx := rfl

theorem entry_setEntry_self {w : World} {pid : Nat} {n : PhysNode} (idx : Nat)
    (fi : FrameInfo) (h : w.node pid = some n) :
    (w.setEntry pid idx fi).entry pid idx = some fi := by
  unfold World.entry
  rw [node_setEntry]
  simp [h]

theorem insertA_insertA {α : Type} (l : List (Nat × α)) (k : Nat) (a b : α) :
    insertA (insertA l k a) k b = insertA l k b := by
  induction l with
  | nil => simp [insertA]
  | cons hd t ih =>
    obtain ⟨k0, v0⟩ := hd
    by_cases hk : k0 = k
    · simp [insertA, hk]
    · simp [insertA, hk, ih]

theorem setEntry_setEntry {w : World} {pid : Nat} {n : PhysNode}
    (h : w.node pid = some n) (idx : Nat) (a b : FrameInfo) :
    (w.setEntry pid idx a).setEntry pid idx b = w.setEntry pid idx b := by
  unfold World.setEntry
  simp only [World.node] at h
  rw [h]
  simp only [lookupA_insertA_self, insertA_insertA]

/-- Two worlds differing only in pointwise-equal frame stores are equal. -/
theorem World.frames_ext {w : World} {F : Nat → Nat → Nat}
    (h : ∀ g k, w.frames g k = F g k) : w = { w with frames := F } := by
  have hF : w.frames = F := funext fun g => funext fun k => h g k
  rw [← hF]

/-- The backend fill loop of `commit_impl` reads exactly
`min(remaining buffer, backend length - offset)` bytes in total and writes
them at the buffer position. -/
theorem backendFillLoop_spec (f : Nat) :
    ∀ (fuel : Nat) (w : World) (offset readLen bufPos : Nat),
      PAGE_SIZE - bufPos < fuel →
      backendFillLoop w f fuel offset readLen bufPos =
        ({ w with
            frames := fun g =>
              if g = f then
                (fun k =>
                  if bufPos ≤ k ∧
                      k < bufPos + min (PAGE_SIZE - bufPos) (w.backendLen - offset) then
                    w.backend (offset + (k - bufPos))
                  else w.frames f k)
              else w.frames g },
          readLen + min (PAGE_SIZE - bufPos) (w.backendLen - offset)) := by
  intro fuel
  induction fuel with
  | zero => intro w offset readLen bufPos h; omega
  | succ fuel ih =>
    intro w offset readLen bufPos h
    unfold backendFillLoop
    by_cases hfull : PAGE_SIZE ≤ bufPos
    · rw [if_pos hfull]
      have hmin : min (PAGE_SIZE - bufPos) (w.backendLen - offset) = 0 := by omega
      rw [hmin]
      simp only [Prod.mk.injEq]
      refine ⟨World.frames_ext ?_, by omega⟩
      intro g k
      by_cases hg : g = f
      · subst hg
        rw [if_pos rfl, if_neg (by omega)]
      · rw [if_neg hg]
    · rw [if_neg hfull]
      simp only
      by_cases hlz : min (PAGE_SIZE - bufPos) (w.backendLen - offset) = 0
      · rw [if_pos hlz, hlz]
        simp only [Prod.mk.injEq]
        refine ⟨World.frames_ext ?_, by omega⟩
        intro g k
        by_cases hg : g = f
        · subst hg
          rw [if_pos rfl, if_neg (by omega)]
        · rw [if_neg hg]
      · rw [if_neg hlz]
        rw [ih _ _ _ _ (by omega)]
        simp only [Prod.mk.injEq]
        constructor
        · congr 1
          funext g
          by_cases hg : g = f
          · subst hg
            rw [if_pos rfl, if_pos rfl]
            funext k
            rw [if_neg (by omega)]
            simp
          · rw [if_neg hg, if_neg hg]
        · omega

/-- The whole backend page fetch in closed form: `min(PAGE_SIZE,
backendLen - base)` bytes land at the start of frame `f`. -/
theorem backendFill_spec (w : World) (f base : Nat) :
    backendFill w f base =
      ({ w with
          frames := fun g =>
            if g = f then
              (fun k =>
                if k < min PAGE_SIZE (w.backendLen - base) then w.backend (base + k)
                else w.frames f k)
            else w.frames g },
        min PAGE_SIZE (w.backendLen - base)) := by
  unfold backendFill
  rw [backendFillLoop_spec f (PAGE_SIZE + 1) w base 0 0 (by omega)]
  simp only [Prod.mk.injEq, Nat.sub_zero, Nat.zero_add]
  refine ⟨?_, trivial⟩
  congr 1
  funext g
  by_cases hg : g = f
  · subst hg
    rw [if_pos rfl, if_pos rfl]
    funext k
    simp
  · rw [if_neg hg, if_neg hg]

theorem copyToFrameLoop_all (f : Nat) :
    ∀ (fuel : Nat) (w : World) (buf : List Nat) (start e : Nat), buf ≠ [] →
      start + buf.length ≤ e → 0 < fuel →
      copyToFrameLoop f (fuel + 1) w buf start e =
        .ok (w.blit f buf start buf.length, [], buf.length) := by
  intro fuel w buf start e hne hle hf
  have hlen0 : 0 < buf.length := List.length_pos.2 hne
  unfold copyToFrameLoop
  rw [if_neg (not_or.mpr ⟨by simpa using hne, by omega⟩), if_neg (by omega)]
  simp only
  have hlen : min buf.length (e - start) = buf.length := by omega
  rw [hlen, List.drop_length]
  obtain ⟨fuel, rfl⟩ : ∃ m, fuel = m + 1 := ⟨fuel - 1, by omega⟩
  unfold copyToFrameLoop
  rw [if_pos (Or.inl (by simp))]
  simp [World.blit]

theorem copyToFrame_all (f : Nat) (w : World) (buf : List Nat) (start e : Nat)
    (hne : buf ≠ []) (hle : start + buf.length ≤ e) :
    copyToFrame f w buf start e = .ok (w.blit f buf start buf.length, [], buf.length) := by
  unfold copyToFrame
  exact copyToFrameLoop_all f (e - start) w buf start e hne hle
    (by have := List.length_pos.2 hne; omega)

theorem copyToFrameLoop_fill (f : Nat) :
    ∀ (fuel : Nat) (w : World) (buf : List Nat) (start e : Nat), start < e →
      e - start < buf.length → 0 < fuel →
      copyToFrameLoop f (fuel + 1) w buf start e =
        .ok (w.blit f buf start (e - start), buf.drop (e - start), e - start) := by
  intro fuel w buf start e hse hlt hf
  have hne : buf ≠ [] := by
    intro h
    rw [h] at hlt
    simp at hlt
  unfold copyToFrameLoop
  rw [if_neg (not_or.mpr ⟨by simpa using hne, by omega⟩), if_neg (by omega)]
  simp only
  have hlen : min buf.length (e - start) = e - start := by omega
  rw [hlen]
  obtain ⟨fuel, rfl⟩ : ∃ m, fuel = m + 1 := ⟨fuel - 1, by omega⟩
  unfold copyToFrameLoop
  rw [if_pos (Or.inr (by omega))]
  simp [World.blit]

theorem copyToFrame_fill (f : Nat) (w : World) (buf : List Nat) (start e : Nat)
    (hse : start < e) (hlt : e - start < buf.length) :
    copyToFrame f w buf start e =
      .ok (w.blit f buf start (e - start), buf.drop (e - start), e - start) := by
  unfold copyToFrame
  exact copyToFrameLoop_fill f (e - start) w buf start e hse hlt (by omega)

theorem copyFromFrameLoop_all (w : World) (f : Nat) :
    ∀ (fuel cap start e : Nat), cap ≠ 0 → start + cap ≤ e → 0 < fuel →
      copyFromFrameLoop w f (fuel + 1) cap start e =
        .ok ((List.range cap).map (fun k => w.frames f (start + k)), 0) := by
  intro fuel cap start e hcap hle hf
  unfold copyFromFrameLoop
  rw [if_neg (not_or.mpr ⟨hcap, by omega⟩), if_neg (by omega)]
  simp only
  have hlen : min cap (e - start) = cap := by omega
  rw [hlen, Nat.sub_self]
  obtain ⟨fuel, rfl⟩ : ∃ m, fuel = m + 1 := ⟨fuel - 1, by omega⟩
  unfold copyFromFrameLoop
  rw [if_pos (Or.inl rfl)]
  simp

theorem copyFromFrame_all (w : World) (f cap start e : Nat)
    (hcap : cap ≠ 0) (hle : start + cap ≤ e) :
    copyFromFrame w f cap start e =
      .ok ((List.range cap).map (fun k => w.frames f (start + k)), 0) := by
  unfold copyFromFrame
  exact copyFromFrameLoop_all w f (e - start) cap start e hcap hle (by omega)

theorem copyFromFrameLoop_fill (w : World) (f : Nat) :
    ∀ (fuel cap start e : Nat), start < e → e - start < cap → 0 < fuel →
      copyFromFrameLoop w f (fuel + 1) cap start e =
        .ok ((List.range (e - start)).map (fun k => w.frames f (start + k)),
          cap - (e - start)) := by
  intro fuel cap start e hse hlt hf
  unfold copyFromFrameLoop
  rw [if_neg (not_or.mpr ⟨by omega, by omega⟩), if_neg (by omega)]
  simp only
  have hlen : min cap (e - start) = e - start := by omega
  rw [hlen]
  obtain ⟨fuel, rfl⟩ : ∃ m, fuel = m + 1 := ⟨fuel - 1, by omega⟩
  unfold copyFromFrameLoop
  rw [if_pos (Or.inr (by omega))]
  simp

theorem copyFromFrame_fill (w : World) (f cap start e : Nat)
    (hse : start < e) (hlt : e - start < cap) :
    copyFromFrame w f cap start e =
      .ok ((List.range (e - start)).map (fun k => w.frames f (start + k)),
        cap - (e - start)) := by
  unfold copyFromFrame
  exact copyFromFrameLoop_fill w f (e - start) cap start e hse hlt (by omega)

@[simp] theorem node_allocFrame (w : World) (d : Nat → Nat) (pid : Nat) :
    (w.allocFrame d).node pid = w.node pid := rfl

@[simp] theorem node_blit (w : World) (f : Nat) (buf : List Nat) (start len pid : Nat) :
    (w.blit f buf start len).node pid = w.node pid := rfl

/-- FrameInfo::get through `leaf` on a freshly created Shared entry: the
valid length rises to the write length, dirty is set, pin incremented. -/
theorem get_leaf_eval (w : World) (pid idx f R e : Nat) (pin cow : Bool) :
    FrameInfo.get w pid idx (FrameInfo.new f R) false (some e) pin cow =
      (w.setEntry pid idx
        { state := some (.shared f (max R e)), dirty := true, pin := if pin then 1 else 0 },
      .ok (.sharedC f (max R e))) := by
  unfold FrameInfo.get FrameInfo.leaf FrameInfo.new FrameState.frame
  simp

/-- `backendFill` right after `Frame::new`: the composite world is an
`allocFrame` whose contents are the backend prefix padded with zeros. -/
theorem backendFill_after_new (w : World) (base : Nat) :
    backendFill
      { w with
        frames := fun g => if g = w.nextFrame then (fun _ => 0) else w.frames g,
        nextFrame := w.nextFrame + 1 } w.nextFrame base =
      ((w.allocFrame fun k =>
          if k < min PAGE_SIZE (w.backendLen - base) then w.backend (base + k) else 0),
        min PAGE_SIZE (w.backendLen - base)) := by
  rw [backendFill_spec]
  simp only [Prod.mk.injEq]
  refine ⟨?_, trivial⟩
  unfold World.allocFrame
  congr 1
  funext g
  by_cases hg : g = w.nextFrame
  · subst hg
    rw [if_pos rfl, if_pos rfl]
    funext k
    by_cases hk : k < min PAGE_SIZE (w.backendLen - base)
    · rw [if_pos hk]
      simp [hk]
    · rw [if_neg hk]
      simp [hk]
  · rw [if_neg hg, if_neg hg]
    simp [hg]

/-- A missed write commit on a leaf whose parent is the Backend: a fresh
frame is allocated, filled from the backend, installed as Shared and then
resolved through `leaf` (raising the valid length to the write length,
setting dirty, pinning on demand). -/
theorem commit_backend_leaf_miss {w : World} {fuel pid idx e : Nat} {node : PhysNode}
    (pin : Bool) (hn : w.node pid = some node) (hbr : node.branch = false)
    (hpar : node.parent = some .backend) (hmiss : lookupA node.frames idx = none)
    (hal : w.allocFail w.nextFrame = false) :
    Phys.commit w (fuel + 1) pid idx (some e) pin =
      ((w.allocFrame fun k =>
          if k < min PAGE_SIZE (w.backendLen - (idx <<< PAGE_SHIFT)) then
            w.backend ((idx <<< PAGE_SHIFT) + k)
          else 0).setEntry pid idx
        { state := some (.shared w.nextFrame
            (max (min PAGE_SIZE (w.backendLen - (idx <<< PAGE_SHIFT))) e)),
          dirty := true, pin := if pin then 1 else 0 },
      .ok (w.nextFrame, max (min PAGE_SIZE (w.backendLen - (idx <<< PAGE_SHIFT))) e)) := by
  have hfn : frameNew w = .ok (w.nextFrame,
      { w with
        frames := fun g => if g = w.nextFrame then (fun _ => 0) else w.frames g,
        nextFrame := w.nextFrame + 1 }) := by
    unfold frameNew
    rw [hal]
    simp
  unfold Phys.commit
  rw [hn]
  simp only [hbr, Bool.false_eq_true, if_false]
  unfold Phys.commitImpl
  rw [hn]
  simp only
  rw [hmiss]
  simp only
  rw [hpar]
  simp only
  rw [hfn]
  simp only
  rw [backendFill_after_new]
  simp only
  rw [hbr, get_leaf_eval]
  rw [setEntry_setEntry (show ((w.allocFrame fun k =>
      if k < min PAGE_SIZE (w.backendLen - (idx <<< PAGE_SHIFT)) then
        w.backend ((idx <<< PAGE_SHIFT) + k)
      else 0).node pid = some node) from hn) idx]

@[simp] theorem nextPhys_setEntry (w : World) (pid idx : Nat) (fi : FrameInfo) :
    (w.setEntry pid idx fi).nextPhys = w.nextPhys := by
  unfold World.setEntry
  cases lookupA w.physs pid <;> rfl

@[simp] theorem nextFrame_allocFrame (w : World) (d : Nat → Nat) :
    (w.allocFrame d).nextFrame = w.nextFrame + 1 := rfl

@[simp] theorem nextPhys_allocFrame (w : World) (d : Nat → Nat) :
    (w.allocFrame d).nextPhys = w.nextPhys := rfl

@[simp] theorem allocFail_allocFrame (w : World) (d : Nat → Nat) :
    (w.allocFrame d).allocFail = w.allocFail := rfl

@[simp] theorem backend_allocFrame (w : World) (d : Nat → Nat) :
    (w.allocFrame d).backend = w.backend := rfl

@[simp] theorem backendLen_allocFrame (w : World) (d : Nat → Nat) :
    (w.allocFrame d).backendLen = w.backendLen := rfl

@[simp] theorem flushQueue_allocFrame (w : World) (d : Nat → Nat) :
    (w.allocFrame d).flushQueue = w.flushQueue := rfl

@[simp] theorem frames_allocFrame (w : World) (d : Nat → Nat) (g k : Nat) :
    (w.allocFrame d).frames g k = if g = w.nextFrame then d k else w.frames g k := by
  unfold World.allocFrame
  by_cases hg : g = w.nextFrame <;> simp [hg]

@[simp] theorem nextFrame_blit (w : World) (f : Nat) (buf : List Nat) (start len : Nat) :
    (w.blit f buf start len).nextFrame = w.nextFrame := rfl

@[simp] theorem nextPhys_blit (w : World) (f : Nat) (buf : List Nat) (start len : Nat) :
    (w.blit f buf start len).nextPhys = w.nextPhys := rfl

@[simp] theorem allocFail_blit (w : World) (f : Nat) (buf : List Nat) (start len : Nat) :
    (w.blit f buf start len).allocFail = w.allocFail := rfl

@[simp] theorem backend_blit (w : World) (f : Nat) (buf : List Nat) (start len : Nat) :
    (w.blit f buf start len).backend = w.backend := rfl

@[simp] theorem backendLen_blit (w : World) (f : Nat) (buf : List Nat) (start len : Nat) :
    (w.blit f buf start len).backendLen = w.backendLen := rfl

@[simp] theorem flushQueue_blit (w : World) (f : Nat) (buf : List Nat) (start len : Nat) :
    (w.blit f buf start len).flushQueue = w.flushQueue := rfl

@[simp] theorem frames_blit (w : World) (f : Nat) (buf : List Nat) (start len g k : Nat) :
    (w.blit f buf start len).frames g k =
      if g = f ∧ start ≤ k ∧ k < start + len then buf.getD (k - start) 0 else w.frames g k := by
  unfold World.blit
  by_cases hg : g = f
  · subst hg
    by_cases hk : start ≤ k ∧ k < start + len
    · simp [hk]
    · simp [hk]
  · simp [hg]

@[simp] theorem nextFrame_eraseEntry (w : World) (pid idx : Nat) :
    (w.eraseEntry pid idx).nextFrame = w.nextFrame := by
  unfold World.eraseEntry
  cases lookupA w.physs pid <;> rfl

@[simp] theorem frames_eraseEntry (w : World) (pid idx : Nat) :
    (w.eraseEntry pid idx).frames = w.frames := by
  unfold World.eraseEntry
  cases lookupA w.physs pid <;> rfl

@[simp] theorem allocFail_eraseEntry (w : World) (pid idx : Nat) :
    (w.eraseEntry pid idx).allocFail = w.allocFail := by
  unfold World.eraseEntry
  cases lookupA w.physs pid <;> rfl

/-- FrameInfo::get through `leaf` on an arbitrary Shared entry with a write
length: dirty set, pin incremented, valid length raised. -/
theorem get_leaf_eval' (w : World) (pid idx : Nat) (fi : FrameInfo) {f R : Nat} (e : Nat)
    (pin cow : Bool) (hst : fi.state = some (.shared f R)) :
    FrameInfo.get w pid idx fi false (some e) pin cow =
      (w.setEntry pid idx
        { state := some (.shared f (max R e)), dirty := true,
          pin := fi.pin + (if pin then 1 else 0) },
      .ok (.sharedC f (max R e))) := by
  unfold FrameInfo.get FrameInfo.leaf
  simp only [hst, FrameState.frame, Option.isSome_some, Bool.or_true]
  rw [if_neg Bool.false_ne_true]

/-- FrameInfo::get through `leaf` on a Shared entry for a read: nothing
changes (the entry is written back as it was). -/
theorem get_leaf_eval_read (w : World) (pid idx : Nat) (fi : FrameInfo) {f R : Nat}
    (cow : Bool) (hst : fi.state = some (.shared f R)) :
    FrameInfo.get w pid idx fi false none false cow =
      (w.setEntry pid idx { state := some (.shared f R), dirty := fi.dirty, pin := fi.pin },
      .ok (.sharedC f R)) := by
  unfold FrameInfo.get FrameInfo.leaf
  simp only [hst, FrameState.frame, Option.isSome_none, Bool.or_false]
  rw [if_neg Bool.false_ne_true]
  simp

/-- Frame::copy in closed form (successful allocation). -/
theorem frameCopy_spec (w : World) (src len : Nat) (hal : w.allocFail w.nextFrame = false) :
    frameCopy w src len =
      .ok (w.nextFrame, w.allocFrame fun k => if k < len then w.frames src k else 0) := by
  unfold frameCopy frameNew World.allocFrame
  rw [hal]
  simp only [Bool.false_eq_true, if_false, Except.ok.injEq, Prod.mk.injEq]
  refine ⟨trivial, ?_⟩
  congr 1
  funext g
  by_cases hg : g = w.nextFrame
  · subst hg
    simp
  · simp [hg]

/-- A cow write commit that hits a Shared entry of a branch: the branch
forks — a private copy is allocated, the branch entry becomes the Unique
tombstone (keeping the original frame), and the copy is handed to the
caller for local installation. -/
theorem commitImpl_branch_fork {w : World} {fuel pid idx e : Nat} {node : PhysNode}
    {fi : FrameInfo} {f l : Nat} (pin : Bool) (cow0 : Bool) (hn : w.node pid = some node)
    (hbr : node.branch = true) (hhit : lookupA node.frames idx = some fi)
    (hst : fi.state = some (.shared f l)) (hc : (node.cow || cow0) = true)
    (hal : w.allocFail w.nextFrame = false) :
    Phys.commitImpl w (fuel + 1) pid idx (some e) pin cow0 =
      ((w.allocFrame fun k => if k < max l e then w.frames f k else 0).setEntry pid idx
        { fi with state := some (.unique f (max l e)) },
      .ok (.uniqueC (FrameInfo.new w.nextFrame (max l e)))) := by
  unfold Phys.commitImpl
  rw [hn]
  simp only
  rw [hhit]
  simp only
  rw [hbr]
  unfold FrameInfo.get FrameInfo.branch
  simp only [hst, hc, if_true]
  rw [frameCopy_spec w f (max l e) hal]
  simp

/-- Any commit that hits a Unique entry of a branch: the tombstone is taken
over — the entry is removed from the branch and handed to the caller with
the pin count carried across and dirty reset by FrameInfo::new. -/
theorem commitImpl_branch_unique {w : World} {fuel pid idx : Nat} {node : PhysNode}
    {fi : FrameInfo} {f l : Nat} (write : Option Nat) (pin cow0 : Bool)
    (hn : w.node pid = some node) (hbr : node.branch = true)
    (hhit : lookupA node.frames idx = some fi) (hst : fi.state = some (.unique f l)) :
    Phys.commitImpl w (fuel + 1) pid idx write pin cow0 =
      (w.eraseEntry pid idx, .ok (.uniqueC { FrameInfo.new f l with pin := fi.pin })) := by
  unfold Phys.commitImpl
  rw [hn]
  simp only
  rw [hhit]
  simp only
  rw [hbr]
  unfold FrameInfo.get FrameInfo.branch
  simp [hst]

/-- A write commit on a leaf that misses locally and receives a Unique
FrameInfo from its Phys parent: the FrameInfo is installed locally and
re-resolved through `leaf`. -/
theorem commit_parent_unique_write {w : World} {fuel pid idx e : Nat}
    {node node1 : PhysNode} {ppid start : Nat} {stop : Option Nat} {w1 : World}
    {pfi : FrameInfo} {nf L : Nat} (pin : Bool) (hn : w.node pid = some node)
    (hbr : node.branch = false) (hmiss : lookupA node.frames idx = none)
    (hpar : node.parent = some (.phys ppid start stop))
    (hwin : stop.elim true (fun s => decide (idx < s - start)) = true)
    (hrec : Phys.commitImpl w fuel ppid (start + idx) (some e) pin (node.cow || node.cow) =
      (w1, .ok (.uniqueC pfi)))
    (hst : pfi.state = some (.shared nf L)) (hn1 : w1.node pid = some node1) :
    Phys.commit w (fuel + 1) pid idx (some e) pin =
      (w1.setEntry pid idx
        { state := some (.shared nf (max L e)), dirty := true,
          pin := pfi.pin + (if pin then 1 else 0) },
      .ok (nf, max L e)) := by
  unfold Phys.commit
  rw [hn]
  simp only [hbr, Bool.false_eq_true, if_false]
  unfold Phys.commitImpl
  rw [hn]
  simp only
  rw [hmiss]
  simp only
  rw [hpar]
  simp only
  rw [hwin]
  simp only [if_pos rfl]
  rw [hrec]
  simp only
  rw [hbr, get_leaf_eval' _ _ _ pfi e pin (node.cow || node.cow) hst]
  rw [setEntry_setEntry hn1 idx]
  simp

/-- The read version of `commit_parent_unique_write`. -/
theorem commit_parent_unique_read {w : World} {fuel pid idx : Nat}
    {node node1 : PhysNode} {ppid start : Nat} {stop : Option Nat} {w1 : World}
    {pfi : FrameInfo} {nf L : Nat} (hn : w.node pid = some node)
    (hbr : node.branch = false) (hmiss : lookupA node.frames idx = none)
    (hpar : node.parent = some (.phys ppid start stop))
    (hwin : stop.elim true (fun s => decide (idx < s - start)) = true)
    (hrec : Phys.commitImpl w fuel ppid (start + idx) none false (node.cow || node.cow) =
      (w1, .ok (.uniqueC pfi)))
    (hst : pfi.state = some (.shared nf L)) (hn1 : w1.node pid = some node1) :
    Phys.commit w (fuel + 1) pid idx none false =
      (w1.setEntry pid idx
        { state := some (.shared nf L), dirty := pfi.dirty, pin := pfi.pin },
      .ok (nf, L)) := by
  unfold Phys.commit
  rw [hn]
  simp only [hbr, Bool.false_eq_true, if_false]
  unfold Phys.commitImpl
  rw [hn]
  simp only
  rw [hmiss]
  simp only
  rw [hpar]
  simp only
  rw [hwin]
  simp only [if_pos rfl]
  rw [hrec]
  simp only
  rw [hbr, get_leaf_eval_read _ _ _ pfi (node.cow || node.cow) hst]
  rw [setEntry_setEntry hn1 idx]
  simp

/-- A write commit that hits a local Shared entry of a leaf. -/
theorem commit_leaf_hit_write {w : World} {fuel pid idx e : Nat} {node : PhysNode}
    {fi : FrameInfo} {f l : Nat} (pin : Bool) (hn : w.node pid = some node)
    (hbr : node.branch = false) (hhit : lookupA node.frames idx = some fi)
    (hst : fi.state = some (.shared f l)) :
    Phys.commit w (fuel + 1) pid idx (some e) pin =
      (w.setEntry pid idx
        { state := some (.shared f (max l e)), dirty := true,
          pin := fi.pin + (if pin then 1 else 0) },
      .ok (f, max l e)) := by
  unfold Phys.commit
  rw [hn]
  simp only [hbr, Bool.false_eq_true, if_false]
  unfold Phys.commitImpl
  rw [hn]
  simp only
  rw [hhit]
  simp only
  rw [hbr, get_leaf_eval' _ _ _ fi e pin (node.cow || node.cow) hst]

/-- A read commit that hits a local Shared entry of a leaf. -/
theorem commit_leaf_hit_read {w : World} {fuel pid idx : Nat} {node : PhysNode}
    {fi : FrameInfo} {f l : Nat} (hn : w.node pid = some node)
    (hbr : node.branch = false) (hhit : lookupA node.frames idx = some fi)
    (hst : fi.state = some (.shared f l)) :
    Phys.commit w (fuel + 1) pid idx none false =
      (w.setEntry pid idx { state := some (.shared f l), dirty := fi.dirty, pin := fi.pin },
      .ok (f, l)) := by
  unfold Phys.commit
  rw [hn]
  simp only [hbr, Bool.false_eq_true, if_false]
  unfold Phys.commitImpl
  rw [hn]
  simp only
  rw [hhit]
  simp only
  rw [hbr, get_leaf_eval_read _ _ _ fi (node.cow || node.cow) hst]

set_option maxHeartbeats 1600000 in
/-- Phys::write_at of a single byte at offset 0, given the commit's
outcome. -/
theorem write_at_byte0 {w w1 : World} {fuel pid f l : Nat} (v : Nat)
    (hcommit : Phys.commit w fuel pid 0 (some 1) false = (w1, .ok (f, l))) :
    Phys.write_at w fuel pid 0 [v] = (w1.blit f [v] 0 1, .ok 1) := by
  unfold Phys.write_at
  rw [if_neg (by simp only [List.length_cons, List.length_nil]; omega)]
  rw [if_neg (by simp only [List.length_cons, List.length_nil]; omega)]
  have hoff : offsets 0 (0 + [v].length) = ((0, 0), (0, 1)) := by
    simp only [List.length_cons, List.length_nil]
    decide
  rw [hoff]
  simp only [if_pos rfl]
  rw [hcommit]
  simp only
  rw [copyToFrame_all f w1 [v] 0 1 (by simp) (by simp)]
  rfl

set_option maxHeartbeats 1600000 in
/-- Phys::read_at of a single byte at offset 0, given the outcome of the
underlying commit: it returns byte 0 of the resolved frame. -/
theorem read_at_byte0 {w : World} {fuel pid f l : Nat}
    (hcommit : (Phys.commit w fuel pid 0 none false).2 = .ok (f, l)) (hl : 1 ≤ l) :
    Phys.read_at w fuel pid 0 1 =
      ((Phys.commit w fuel pid 0 none false).1,
        .ok [(Phys.commit w fuel pid 0 none false).1.frames f 0]) := by
  unfold Phys.read_at
  rw [if_neg (by omega)]
  rw [if_neg (by omega)]
  have hoff : offsets 0 (0 + 1) = ((0, 0), (0, 1)) := by decide
  rw [hoff]
  simp only [if_pos rfl]
  rcases hc : Phys.commit w fuel pid 0 none false with ⟨w1, r⟩
  rw [hc] at hcommit
  simp only at hcommit
  subst hcommit
  simp only
  have hmin : min 1 l = 1 := by omega
  rw [hmin]
  rw [copyFromFrame_all w1 f 1 0 1 (by simp) (by simp)]
  rfl

/-- A stored parent link to `ppid` makes `Arc::strong_count` at least two
once the flush loop has cloned the link, so the `> 1` early-stop in
`Phys::flush`/`flush_all` always fires at the first Phys parent. -/
theorem linkCount_pos {w : World} {pid ppid start : Nat} {stop : Option Nat} {node : PhysNode}
    (h : w.node pid = some node) (hp : node.parent = some (.phys ppid start stop)) :
    1 ≤ linkCount w ppid := by
  have hm : (pid, node) ∈ w.physs.filter fun p =>
      match p.2.parent with
      | some (.phys q _ _) => q == ppid
      | _ => false := by
    refine List.mem_filter.2 ⟨lookupA_mem h, ?_⟩
    simp [hp]
  have : w.physs.filter (fun p =>
      match p.2.parent with
      | some (.phys q _ _) => q == ppid
      | _ => false) ≠ [] := List.ne_nil_of_mem hm
  have hlen := List.length_pos.2 this
  exact hlen

/-- The claim-C10 core: one unfolding of the flush loop when the entry is
present and `force_dirty = some false`. -/
theorem flushLoop_force_false {w : World} {pid index offset fuel : Nat} {node : PhysNode}
    {fi : FrameInfo} (h : w.node pid = some node) (he : lookupA node.frames index = some fi)
    (unpin : Bool) :
    Phys.flushLoop (fuel + 1) w pid index offset (some false) unpin =
      (w.setEntry pid index
        { fi with pin := fi.pin - (if unpin then 1 else 0), dirty := false }, .ok ()) := by
  unfold Phys.flushLoop
  simp only [h, he]
  set fi2 : FrameInfo := { fi with pin := fi.pin - (if unpin then 1 else 0), dirty := false }
  have hnode1 : (w.setEntry pid index fi2).node pid =
      some { node with frames := insertA node.frames index fi2 } := by
    simp [h]
  simp only [Option.getD, hnode1, Option.bind]
  cases hp : node.parent with
  | none => rfl
  | some par =>
    cases par with
    | backend => rfl
    | phys ppid pstart pstop =>
      have hpos : 1 ≤ linkCount (w.setEntry pid index fi2) ppid :=
        @linkCount_pos (w.setEntry pid index fi2) pid ppid pstart pstop _ hnode1 (by simp [hp])
      have hgt : linkCount (w.setEntry pid index fi2) ppid + 1 > 1 := by omega
      simp [hgt]

/-- C10: for a Phys with a flusher and an index present in its local page
table, `flush(index, Some(false), unpin)` clears that entry's dirty bit
without enqueueing anything, saturating-decrements the pin count when
`unpin` is set, and returns Ok(()).  Everything else is untouched. -/
theorem claim_C10_flush_force_false {w : World} {pid index offset fuel : Nat}
    {node : PhysNode} {fi : FrameInfo} (h : w.node pid = some node)
    (hf : node.flusher = some offset) (he : lookupA node.frames index = some fi)
    (unpin : Bool) :
    Phys.flush w (fuel + 1) pid index (some false) unpin =
      (w.setEntry pid index
        { fi with pin := fi.pin - (if unpin then 1 else 0), dirty := false }, .ok ()) ∧
    (w.setEntry pid index
        { fi with pin := fi.pin - (if unpin then 1 else 0), dirty := false }).flushQueue =
      w.flushQueue := by
  constructor
  · unfold Phys.flush
    simp only [h, hf]
    exact flushLoop_force_false h he unpin
  · simp

/-- C9: a Phys without a flusher (`new_anon`, `new(.., cow=false)`,
`clone_as(cow=false, ..)` all produce one) has `flush` and `flush_all` as
pure no-ops returning Ok(()). -/
theorem claim_C9_no_flusher_noop (w : World) (fuel pid index : Nat) (fd : Option Bool)
    (up : Bool) (node : PhysNode) (h : w.node pid = some node) (hf : node.flusher = none)
    (w2 : World) (cow : Bool) (pos : Nat) (pid2 : Nat) (node2 : PhysNode)
    (h2 : w2.node pid2 = some node2) (off : Nat) (fc : Option Nat) :
    Phys.flush w fuel pid index fd up = (w, .ok ()) ∧
    Phys.flush_all w fuel pid = (w, .ok ()) ∧
    ((Phys.new_anon w2 cow).1.node (Phys.new_anon w2 cow).2).map PhysNode.flusher =
      some none ∧
    ((Phys.new w2 pos false).1.node (Phys.new w2 pos false).2).map PhysNode.flusher =
      some none ∧
    ((Phys.clone_as w2 pid2 false off fc).1.node
        (Phys.clone_as w2 pid2 false off fc).2).map PhysNode.flusher =
      some none := by
  refine ⟨?_, ?_, ?_, ?_, ?_⟩
  · unfold Phys.flush
    simp [h, hf]
  · unfold Phys.flush_all
    simp [h, hf]
  · unfold Phys.new_anon
    simp [World.node, lookupA_insertA_self]
  · unfold Phys.new
    simp [World.node, lookupA_insertA_self]
  · unfold Phys.clone_as
    simp only [World.node] at h2 ⊢
    simp only [h2]
    simp only [World.node, lookupA_insertA_self, Option.map_some]
    cases node2.flusher <;> simp

/-- A successful FrameInfo::get with `branch = false` always produces
`Commit::Shared` (it goes through `leaf`). -/
theorem get_leaf_shared {w : World} {pid idx : Nat} {fi : FrameInfo} {write : Option Nat}
    {pin cow : Bool} {w' : World} {c : Commit}
    (h : FrameInfo.get w pid idx fi false write pin cow = (w', .ok c)) :
    ∃ f l, c = .sharedC f l := by
  unfold FrameInfo.get at h
  simp only [Bool.false_eq_true, if_false] at h
  rcases hleaf : FrameInfo.leaf w fi write pin with ⟨w1, fi', r⟩
  rw [hleaf] at h
  cases r with
  | error e => simp at h
  | ok fl =>
    obtain ⟨f, l⟩ := fl
    simp only [Prod.mk.injEq, Except.ok.injEq] at h
    exact ⟨f, l, h.2.symm⟩

set_option maxHeartbeats 1600000 in
/-- C6: for a non-branch (leaf) Phys a successful `commit_impl` never
yields the `Unique` variant, so the `unreachable!()` arm of the public
`commit` is never executed: `commit` succeeds with the Shared payload. -/
theorem claim_C6_leaf_commit_shared {w : World} {fuel pid idx : Nat} {wr : Option Nat}
    {pin : Bool} {node : PhysNode} {w' : World} {c : Commit}
    (hn : w.node pid = some node) (hb : node.branch = false)
    (h : Phys.commitImpl w fuel pid idx wr pin node.cow = (w', .ok c)) :
    (∃ f l, c = .sharedC f l) ∧
    (∃ f l, Phys.commit w fuel pid idx wr pin = (w', .ok (f, l))) := by
  have hshared : ∃ f l, c = .sharedC f l := by
    cases fuel with
    | zero => simp [Phys.commitImpl] at h
    | succ fuel =>
      unfold Phys.commitImpl at h
      rw [hn] at h
      simp only at h
      cases hloc : lookupA node.frames idx with
      | some fi =>
        rw [hloc] at h
        simp only at h
        rw [hb] at h
        exact get_leaf_shared h
      | none =>
        rw [hloc] at h
        simp only at h
        cases hpar : node.parent with
        | some par =>
          cases par with
          | phys ppid start stop =>
            rw [hpar] at h
            simp only at h
            by_cases hw : (stop.elim true fun s => decide (idx < s - start)) = true
            · rw [if_pos hw] at h
              rcases hrec : Phys.commitImpl w fuel ppid (start + idx) wr pin
                  (node.cow || node.cow) with ⟨w1, r1⟩
              rw [hrec] at h
              cases r1 with
              | error e => simp at h
              | ok c1 =>
                cases c1 with
                | sharedC f l =>
                  simp only [Prod.mk.injEq, Except.ok.injEq] at h
                  exact ⟨f, l, h.2.symm⟩
                | uniqueC fi =>
                  rw [hb] at h
                  exact get_leaf_shared h
            · rw [if_neg hw] at h
              cases wr with
              | none =>
                simp only [Prod.mk.injEq, Except.ok.injEq] at h
                exact ⟨0, 0, h.2.symm⟩
              | some newLen =>
                simp only at h
                cases hfn : frameNew w with
                | error e => rw [hfn] at h; simp at h
                | ok fw =>
                  obtain ⟨f, w1⟩ := fw
                  rw [hfn] at h
                  simp only at h
                  rw [hb] at h
                  exact get_leaf_shared h
          | backend =>
            rw [hpar] at h
            simp only at h
            cases hfn : frameNew w with
            | error e => rw [hfn] at h; simp at h
            | ok fw =>
              obtain ⟨f, w1⟩ := fw
              rw [hfn] at h
              simp only at h
              rcases hfill : backendFill w1 f (idx <<< PAGE_SHIFT) with ⟨w2, len⟩
              rw [hfill] at h
              simp only at h
              rw [hb] at h
              exact get_leaf_shared h
        | none =>
          rw [hpar] at h
          simp only at h
          cases wr with
          | none =>
            simp only [Prod.mk.injEq, Except.ok.injEq] at h
            exact ⟨0, 0, h.2.symm⟩
          | some newLen =>
            simp only at h
            cases hfn : frameNew w with
            | error e => rw [hfn] at h; simp at h
            | ok fw =>
              obtain ⟨f, w1⟩ := fw
              rw [hfn] at h
              simp only at h
              rw [hb] at h
              exact get_leaf_shared h
  refine ⟨hshared, ?_⟩
  obtain ⟨f, l, rfl⟩ := hshared
  refine ⟨f, l, ?_⟩
  unfold Phys.commit
  rw [hn]
  simp only
  rw [hb, h]
  simp

/-- C3: the failing input for commit atomicity.  A cow-fork ENOMEM inside
`FrameInfo::branch` (whose `mem::take` of the state is not undone on the
error path) empties the branch entry: before the failing `write_at` the
branch holds `Shared(frame 1, len 1)`, afterwards the same entry remains
with `state := None` (dirty and pin preserved), so the page table is not
left untouched and the page's data is lost. -/
theorem claim_C3_commit_error_empties_branch_entry :
    atomRes.2 = .error .ENOMEM ∧
    atomW2.entry 1 0 = some { state := some (.shared 1 1), dirty := true, pin := 0 } ∧
    atomRes.1.entry 1 0 = some { state := none, dirty := true, pin := 0 } := by
  refine ⟨by decide, by decide, by decide⟩

/-- C7 counterexample: a successful `write_at` that resolves in a branch
FrameInfo (non-cow Shared path) does not set that entry's dirty bit.  The
write lands in the branch entry's frame (byte 0 becomes 0x42) while the
entry keeps `dirty = false`, and no other page-table entry exists. -/
theorem claim_C7_counterexample :
    dirtyRes.2 = .ok 1 ∧
    dirtyRes.1.frames 1 0 = 66 ∧
    dirtyRes.1.entry 1 0 = some { state := some (.shared 1 1), dirty := false, pin := 0 } ∧
    dirtyRes.1.entry 0 0 = none := by
  refine ⟨by decide, by decide, by decide, by decide⟩

/-- C8 counterexample: after a successful `write_at(0, [1])` (high-water
mark 1), `seek(End(0))` returns 0, not the furthest write end, because
`write_at` never moves the cursor and the backend length is unchanged
before a flush. -/
theorem claim_C8_counterexample :
    seekRes1.2 = .ok 1 ∧ seekRes2.2 = .ok 0 ∧ seekRes2.2 ≠ .ok 1 := by
  refine ⟨by decide, by decide, by decide⟩

/-- C5 counterexample: on an anonymous Phys, a read of a never-written page
returns no bytes (valid_len 0 acts as EOF), not zero bytes; the S4 read
from offset 0 returns `[]` rather than three zero pages followed by the
0x55 page, while reading the written byte itself yields `[0x55]`. -/
theorem claim_C5_counterexample :
    anonReadRes.2 = .ok [] ∧
    anonReadRes.2 ≠ .ok [0] ∧
    s4Read.2 = .ok [] ∧
    s4Read.2 ≠
      .ok (List.replicate (3 * PAGE_SIZE + 7) 0 ++ 85 :: List.replicate (PAGE_SIZE - 8) 0) ∧
    s4ReadAt.2 = .ok [85] := by
  refine ⟨by decide, by decide, by decide, by decide, by decide⟩

/-- C7 (amended): the dirty bit is set by every write that resolves through
`FrameInfo::leaf` (the non-branch resolution); `FrameInfo::branch` never
changes its own entry's dirty bit, so branch-resolved writes leave it as it
was; and `flush` on a locally present entry always leaves that entry's
dirty bit cleared. -/
theorem claim_C7_amended :
    (∀ w fi n pin, ((FrameInfo.leaf w fi (some n) pin).2.1).dirty = true) ∧
    (∀ w fi write pin cow, ((FrameInfo.branch w fi write pin cow).2.1).dirty = fi.dirty) ∧
    (∀ w fuel pid index offset fd unpin node fi, w.node pid = some node →
      lookupA node.frames index = some fi →
      ((Phys.flushLoop (fuel + 1) w pid index offset fd unpin).1.entry pid index).map
          FrameInfo.dirty = some false) := by
  refine ⟨?_, ?_, ?_⟩
  · intro w fi n pin
    unfold FrameInfo.leaf
    cases hs : fi.state with
    | some s => simp [hs]
    | none =>
      simp only [hs]
      cases hfn : frameNew w with
      | error e => simp [hfn]
      | ok fw => obtain ⟨f, w1⟩ := fw; simp [hfn]
  · intro w fi write pin cow
    unfold FrameInfo.branch
    cases hs : fi.state with
    | none => simp
    | some s =>
      cases s with
      | shared f l =>
        cases write with
        | none => simp
        | some n =>
          by_cases hc : cow
          · simp only [hc, if_true]
            cases hcp : frameCopy w f (max l n) with
            | error e => simp [hcp]
            | ok fw => obtain ⟨nf, w1⟩ := fw; simp [hcp]
          · simp [hc]
      | unique f l => simp
  · intro w fuel pid index offset fd unpin node fi hn he
    have hent : ∀ fi' : FrameInfo, (w.setEntry pid index fi').entry pid index = some fi' :=
      fun fi' => entry_setEntry_self index fi' hn
    have hnode1 : ∀ fi' : FrameInfo, (w.setEntry pid index fi').node pid =
        some { node with frames := insertA node.frames index fi' } := by
      intro fi'
      simp [hn]
    have hgt : ∀ fi' ppid pstart pstop, node.parent = some (.phys ppid pstart pstop) →
        linkCount (w.setEntry pid index fi') ppid + 1 > 1 := by
      intro fi' ppid pstart pstop hp
      have := @linkCount_pos (w.setEntry pid index fi') pid ppid pstart pstop _ (hnode1 fi')
        (by simp [hp])
      omega
    unfold Phys.flushLoop
    simp only [hn, he]
    cases hst : fi.state with
    | some s =>
      by_cases hd : (fd.getD fi.dirty) = true
      · simp [hst, hd, hent]
      · cases hp : node.parent with
        | none => simp [hst, hd, hnode1, hent, hp]
        | some par =>
          cases par with
          | backend => simp [hst, hd, hnode1, hent, hp]
          | phys ppid pstart pstop =>
            simp [hst, hd, hnode1, hent, hp, hgt _ ppid pstart pstop hp]
    | none =>
      by_cases hd : (fd.getD fi.dirty) = true <;>
      · cases hp : node.parent with
        | none => simp [hst, hd, hnode1, hent, hp]
        | some par =>
          cases par with
          | backend => simp [hst, hd, hnode1, hent, hp]
          | phys ppid pstart pstop =>
            simp [hst, hd, hnode1, hent, hp, hgt _ ppid pstart pstop hp]

/-- Witness for C7 at concrete inputs. -/
theorem claim_C7_witness :
    ((FrameInfo.leaf testW (FrameInfo.new 1 0) (some 1) false).2.1).dirty = true ∧
    ((FrameInfo.branch testW (FrameInfo.new 1 1) (some 1) false false).2.1).dirty =
      (FrameInfo.new 1 1).dirty ∧
    ((Phys.flushLoop 4 flushW 0 0 0 none true).1.entry 0 0).map FrameInfo.dirty =
      some false :=
  ⟨claim_C7_amended.1 testW (FrameInfo.new 1 0) 1 false,
   claim_C7_amended.2.1 testW (FrameInfo.new 1 1) (some 1) false false,
   claim_C7_amended.2.2 flushW 3 0 0 0 none true
     { branch := false, parent := some .backend,
       frames := [(0, { state := some (.shared 1 1), dirty := true, pin := 0 })],
       position := 0, cow := true, flusher := some 0 }
     { state := some (.shared 1 1), dirty := true, pin := 0 } (by rfl) (by rfl)⟩

/-- C8 (amended): `seek(End(0))` resolves the length as `max(local cursor,
parent length)`; for a backend parent that is the backend's current length,
which `write_at` does not advance, so the result is not the high-water mark
of writes. -/
theorem claim_C8_amended {w : World} {fuel pid : Nat} {node : PhysNode}
    (hn : w.node pid = some node) (hp : node.parent = some .backend)
    (hlen : max node.position w.backendLen < 2 ^ 63) :
    Phys.seek w fuel pid (.fromEnd 0) =
      ({ w with
          physs :=
            insertA w.physs pid { node with position := max node.position w.backendLen } },
        .ok (max node.position w.backendLen)) := by
  have h1 : ¬ ((2 : Int) ^ 63 - 1 < ((max node.position w.backendLen : Nat) : Int)) := by
    push_cast
    omega
  have h2 : ¬ (((0 : Int) + ((max node.position w.backendLen : Nat) : Int)) <
        -((2 : Int) ^ 63) ∨
      (2 : Int) ^ 63 - 1 < (0 : Int) + ((max node.position w.backendLen : Nat) : Int)) := by
    push_cast
    omega
  have h3 : ¬ (((0 : Int) + ((max node.position w.backendLen : Nat) : Int)) < 0) := by
    push_cast
    omega
  have hres : seekResolve 0 (max node.position w.backendLen) =
      .ok (max node.position w.backendLen) := by
    unfold seekResolve
    rw [if_neg h1]
    simp only
    rw [if_neg h2, if_neg h3, Int.zero_add, Int.toNat_natCast]
  unfold Phys.seek
  rw [hn]
  simp only
  rw [hp]
  have hsl : Parent.streamLen fuel w .backend = .ok w.backendLen := rfl
  simp only [hsl, hres]

/-- Witness for C8 at a concrete input: cursor 3, backend length 5. -/
theorem claim_C8_witness :
    Phys.seek (Phys.new (World.init (fun _ => 7) 5 (fun _ => false)) 3 false).1 2 0
        (.fromEnd 0) =
      ({ (Phys.new (World.init (fun _ => 7) 5 (fun _ => false)) 3 false).1 with
          physs :=
            insertA (Phys.new (World.init (fun _ => 7) 5 (fun _ => false)) 3 false).1.physs 0 { branch := false, parent := some .backend, frames := [], position := max 3 5, cow := false, flusher := none } },
        .ok (max 3 5)) :=
  @claim_C8_amended (Phys.new (World.init (fun _ => 7) 5 (fun _ => false)) 3 false).1 2 0
    { branch := false, parent := some .backend, frames := [], position := 3, cow := false,
      flusher := none } (by rfl) rfl (by decide)

theorem offsets_aligned_fst (a e : Nat) : (offsets (a * PAGE_SIZE) e).1 = (a, 0) := by
  unfold offsets PAGE_SIZE PAGE_SHIFT
  simp only [Nat.shiftRight_eq_div_pow, Nat.shiftLeft_eq, Prod.mk.injEq]
  norm_num

/-- A read commit on a fresh anonymous Phys resolves to the canonical ZERO
frame with valid length 0 and leaves the world unchanged. -/
theorem commit_fresh_anon_read {w : World} {fuel pid k : Nat} {node : PhysNode}
    (hn : w.node pid = some node) (hpar : node.parent = none) (hfr : node.frames = [])
    (hbr : node.branch = false) :
    Phys.commit w (fuel + 1) pid k none false = (w, .ok (0, 0)) := by
  unfold Phys.commit
  rw [hn]
  simp only [hbr, Bool.false_eq_true, if_false]
  unfold Phys.commitImpl
  rw [hn]
  simp only
  rw [hfr]
  simp only [lookupA_nil]
  rw [hpar]

theorem copyFromFrame_nil (w : World) (f cap s : Nat) :
    copyFromFrame w f cap s s = .ok ([], cap) := by
  unfold copyFromFrame copyFromFrameLoop
  simp

/-- C5 (amended): reads of never-written regions of an anonymous Phys
return no bytes.  On a fresh `new_anon` Phys, `read_at(o, n)` at a
page-aligned offset returns Ok with an empty result (valid length 0 acts as
end of file); concretely, after writing 0x55 at offset 3·PAGE_SIZE + 7, a
read from offset 0 still returns no bytes while reading the written byte
itself yields `[0x55]`. -/
theorem claim_C5_amended :
    (∀ w fuel pid a n node, w.node pid = some node → node.parent = none →
      node.frames = [] → node.branch = false → a * PAGE_SIZE + n < 2 ^ 64 →
      Phys.read_at w (fuel + 1) pid (a * PAGE_SIZE) n = (w, .ok [])) ∧
    s4Read.2 = .ok [] ∧ s4ReadAt.2 = .ok [85] := by
  refine ⟨?_, by decide, by decide⟩
  intro w fuel pid a n node hn hpar hfr hbr hlt
  unfold Phys.read_at
  rw [if_neg (by omega)]
  by_cases hz : n = 0
  · rw [if_pos hz]
  · rw [if_neg hz]
    have hoff1 := offsets_aligned_fst a (a * PAGE_SIZE + n)
    rcases hoff : offsets (a * PAGE_SIZE) (a * PAGE_SIZE + n) with ⟨⟨sp, so⟩, ep, eo⟩
    rw [hoff] at hoff1
    simp only [Prod.mk.injEq] at hoff1
    obtain ⟨hsp, hso⟩ := hoff1
    subst hsp
    subst hso
    simp only [hoff]
    have hcommit := @commit_fresh_anon_read w fuel pid sp node hn hpar hfr hbr
    by_cases hpe : sp = ep
    · rw [if_pos hpe, hcommit]
      simp only [Nat.min_zero]
      rw [copyFromFrame_nil]
    · rw [if_neg hpe, hcommit]
      simp only
      rw [copyFromFrame_nil]
      simp only
      have : (0 : Nat) < PAGE_SIZE ∨ n = 0 := Or.inl (by decide)
      simp [PAGE_SIZE, PAGE_SHIFT]

/-- Witness for C5 at a concrete input: a five-byte read at page 2 of a
fresh anonymous Phys. -/
theorem claim_C5_witness :
    Phys.read_at anonW 3 0 (2 * PAGE_SIZE) 5 = (anonW, .ok []) ∧
    s4Read.2 = .ok [] ∧ s4ReadAt.2 = .ok [85] :=
  ⟨claim_C5_amended.1 anonW 2 0 2 5
      { branch := false, parent := none, frames := [], position := 0, cow := true,
        flusher := none } rfl rfl rfl rfl (by decide),
   claim_C5_amended.2.1, claim_C5_amended.2.2⟩

set_option maxHeartbeats 1600000 in
theorem c2_step2 (b : Nat → Nat) (n : Nat) : c2Write1 b n = (c2X2 b n, .ok 1) := by
  have hc1 := @commit_backend_leaf_miss (c2W1 b n) 4 0 0 1
    { branch := false, parent := some .backend, frames := [], position := 0, cow := true,
      flusher := some 0 } false rfl rfl rfl rfl rfl
  have hw1 := write_at_byte0 170 hc1
  show Phys.write_at (c2W1 b n) 5 0 0 [170] = _
  rw [hw1]
  rfl

set_option maxHeartbeats 1600000 in
theorem c2_step3 (b : Nat → Nat) (n : Nat) : c2W3 b n = c2X3 b n := by
  show (Phys.clone_as (c2Write1 b n).1 0 true 0 none).1 = _
  rw [c2_step2 b n]
  rfl

set_option maxHeartbeats 1600000 in
theorem c2_step4 (b : Nat → Nat) (n : Nat) : c2Write2 b n = (c2X4 b n, .ok 1) := by
  show Phys.write_at (c2W3 b n) 5 2 0 [187] = _
  rw [c2_step3 b n]
  rfl

set_option maxHeartbeats 1600000 in
theorem c2_step5 (b : Nat → Nat) (n : Nat) : c2ReadP b n = (c2X5 b n, .ok [170]) := by
  have hc : Phys.commit (c2X4 b n) 5 0 0 none false = (c2X5 b n, .ok (1, c2L2 n)) := rfl
  have hl : 1 ≤ c2L2 n := by simp only [c2L2]; omega
  have hr := @read_at_byte0 (c2X4 b n) 5 0 1 (c2L2 n) (by rw [hc]) hl
  show Phys.read_at (c2Write2 b n).1 5 0 0 1 = _
  rw [c2_step4 b n]
  show Phys.read_at (c2X4 b n) 5 0 0 1 = _
  rw [hr, hc]
  rfl

set_option maxHeartbeats 1600000 in
theorem c2_step6 (b : Nat → Nat) (n : Nat) : c2Write3 b n = (c2X6 b n, .ok 1) := by
  show Phys.write_at (c2ReadP b n).1 5 0 0 [204] = _
  rw [c2_step5 b n]
  rfl

set_option maxHeartbeats 1600000 in
theorem c2_step7 (b : Nat → Nat) (n : Nat) : c2ReadQ b n = (c2X6 b n, .ok [187]) := by
  have hc : Phys.commit (c2X6 b n) 5 2 0 none false = (c2X6 b n, .ok (2, c2L3 n)) := rfl
  have hl : 1 ≤ c2L3 n := by simp only [c2L3]; omega
  have hr := @read_at_byte0 (c2X6 b n) 5 2 2 (c2L3 n) (by rw [hc]) hl
  show Phys.read_at (c2Write3 b n).1 5 2 0 1 = _
  rw [c2_step6 b n]
  show Phys.read_at (c2X6 b n) 5 2 0 1 = _
  rw [hr, hc]
  rfl

/-- C2: cow isolation.  Over an arbitrary backend, P = `new(backend, 0,
cow=true)`; writing 0xAA at offset 0 to P, cloning Q =
`P.clone_as(cow=true, 0, None)` and writing 0xBB at offset 0 to Q leaves
P's byte readable as 0xAA, and a later 0xCC write to P leaves Q's byte
readable as 0xBB. -/
theorem claim_C2_cow_isolation (b : Nat → Nat) (n : Nat) :
    (c2Write1 b n).2 = .ok 1 ∧ (c2Write2 b n).2 = .ok 1 ∧
    (c2ReadP b n).2 = .ok [170] ∧ (c2Write3 b n).2 = .ok 1 ∧
    (c2ReadQ b n).2 = .ok [187] := by
  refine ⟨?_, ?_, ?_, ?_, ?_⟩
  · rw [c2_step2]
  · rw [c2_step4]
  · rw [c2_step5]
  · rw [c2_step6]
  · rw [c2_step7]

/-- Witness for C6 at a concrete input (a write commit on an anonymous cow
Phys). -/
theorem claim_C6_witness :
    (∃ f l, (Commit.sharedC 1 1) = Commit.sharedC f l) ∧
    (∃ f l, Phys.commit anonW 1 0 0 (some 1) false =
      ((Phys.commitImpl anonW 1 0 0 (some 1) false true).1, .ok (f, l))) :=
  @claim_C6_leaf_commit_shared anonW 1 0 0 (some 1) false
    { branch := false, parent := none, frames := [], position := 0, cow := true,
      flusher := none }
    (Phys.commitImpl anonW 1 0 0 (some 1) false true).1 (.sharedC 1 1)
    (by rfl) rfl (by rfl)

/-- Witness for C9 at a concrete input (an anonymous cow Phys). -/
theorem claim_C9_witness :
    Phys.flush anonW 3 0 0 none true = (anonW, .ok ()) ∧
    Phys.flush_all anonW 3 0 = (anonW, .ok ()) ∧
    ((Phys.new_anon anonW false).1.node (Phys.new_anon anonW false).2).map PhysNode.flusher =
      some none ∧
    ((Phys.new anonW 7 false).1.node (Phys.new anonW 7 false).2).map PhysNode.flusher =
      some none ∧
    ((Phys.clone_as anonW 0 false 3 (some 2)).1.node
        (Phys.clone_as anonW 0 false 3 (some 2)).2).map PhysNode.flusher =
      some none :=
  claim_C9_no_flusher_noop anonW 3 0 0 none true
    { branch := false, parent := none, frames := [], position := 0, cow := true,
      flusher := none } rfl rfl anonW false 7 0
    { branch := false, parent := none, frames := [], position := 0, cow := true,
      flusher := none } rfl 3 (some 2)

/-- Witness for C10 at a concrete input (the dirty page of `flushW`). -/
theorem claim_C10_witness :
    Phys.flush flushW 4 0 0 (some false) true =
      (flushW.setEntry 0 0 { state := some (.shared 1 1), dirty := false, pin := 0 },
        .ok ()) ∧
    (flushW.setEntry 0 0
        { state := some (.shared 1 1), dirty := false, pin := 0 }).flushQueue =
      flushW.flushQueue :=
  @claim_C10_flush_force_false flushW 0 0 0 3
    { branch := false, parent := some .backend,
      frames := [(0, { state := some (.shared 1 1), dirty := true, pin := 0 })],
      position := 0, cow := true, flusher := some 0 }
    { state := some (.shared 1 1), dirty := true, pin := 0 }
    (by rfl) (by rfl) (by rfl) true

/-! Basic facts about `ancOff`. -/

theorem ancOff_self (w : World) (p : Nat) (fuel : Nat) :
    ancOff (fuel + 1) w p p = some 0 := by
  unfold ancOff
  simp

theorem ancOff_step {fuel : Nat} {w : World} {p q : Nat} (h : ¬ p = q) {n : PhysNode}
    (hn : w.node p = some n) :
    ancOff (fuel + 1) w p q =
      match n.parent with
      | some (.phys pp s _) => (ancOff fuel w pp q).map (· + s)
      | _ => none := by
  conv_lhs => unfold ancOff
  rw [if_neg h, hn]

theorem ancOff_node_none {fuel : Nat} {w : World} {p q : Nat} (h : ¬ p = q)
    (hn : w.node p = none) : ancOff (fuel + 1) w p q = none := by
  unfold ancOff
  rw [if_neg h, hn]

theorem ancOff_mono : ∀ {fuel : Nat} (fuel' : Nat) {w : World} {p q d : Nat},
    ancOff fuel w p q = some d → fuel ≤ fuel' → ancOff fuel' w p q = some d := by
  intro fuel
  induction fuel with
  | zero => intro fuel' w p q d h; simp [ancOff] at h
  | succ m ih =>
    intro fuel' w p q d h hle
    obtain ⟨k, rfl⟩ : ∃ k, fuel' = k + 1 := ⟨fuel' - 1, by omega⟩
    by_cases hpq : p = q
    · subst hpq
      rw [ancOff_self] at h ⊢
      exact h
    · cases hn : w.node p with
      | none => rw [ancOff_node_none hpq hn] at h; exact absurd h (by simp)
      | some n =>
        rw [ancOff_step hpq hn] at h
        rw [ancOff_step hpq hn]
        cases hp : n.parent with
        | none => rw [hp] at h; simp at h
        | some par =>
          cases par with
          | phys pp s t =>
            rw [hp] at h
            simp only [Option.map_eq_some'] at h ⊢
            obtain ⟨d0, hd0, rfl⟩ := h
            exact ⟨d0, ih k hd0 (by omega), rfl⟩
          | backend => rw [hp] at h; simp at h

theorem ancOff_det : ∀ {fuel fuel' : Nat} {w : World} {p q d d' : Nat},
    ancOff fuel w p q = some d → ancOff fuel' w p q = some d' → d = d' := by
  intro fuel
  induction fuel with
  | zero => intro fuel' w p q d d' h; simp [ancOff] at h
  | succ m ih =>
    intro fuel' w p q d d' h h'
    obtain ⟨k, rfl⟩ : ∃ k, fuel' = k + 1 := by
      cases fuel' with
      | zero => simp [ancOff] at h'
      | succ k => exact ⟨k, rfl⟩
    by_cases hpq : p = q
    · subst hpq
      rw [ancOff_self] at h h'
      simp only [Option.some.injEq] at h h'
      omega
    · cases hn : w.node p with
      | none => rw [ancOff_node_none hpq hn] at h; exact absurd h (by simp)
      | some n =>
        rw [ancOff_step hpq hn] at h
        rw [ancOff_step hpq hn] at h'
        cases hp : n.parent with
        | none => rw [hp] at h; simp at h
        | some par =>
          cases par with
          | phys pp s t =>
            rw [hp] at h h'
            simp only [Option.map_eq_some'] at h h'
            obtain ⟨d0, hd0, rfl⟩ := h
            obtain ⟨d1, hd1, rfl⟩ := h'
            have := ih hd0 hd1
            omega
          | backend => rw [hp] at h; simp at h

/-- Under well-formedness the rank of an ancestor is at most the rank of
the descendant. -/
theorem ancOff_rank_le {rank : Nat → Nat} : ∀ {fuel : Nat} {w : World} {p q d : Nat},
    Wf rank w → ancOff fuel w p q = some d → rank q ≤ rank p := by
  intro fuel
  induction fuel with
  | zero => intro w p q d _ h; simp [ancOff] at h
  | succ m ih =>
    intro w p q d hwf h
    by_cases hpq : p = q
    · subst hpq; exact Nat.le_refl _
    · cases hn : w.node p with
      | none => rw [ancOff_node_none hpq hn] at h; exact absurd h (by simp)
      | some n =>
        rw [ancOff_step hpq hn] at h
        cases hp : n.parent with
        | none => rw [hp] at h; simp at h
        | some par =>
          cases par with
          | phys pp s t =>
            rw [hp] at h
            simp only [Option.map_eq_some'] at h
            obtain ⟨d0, hd0, rfl⟩ := h
            exact Nat.le_trans (ih hwf hd0)
              (Nat.le_of_lt (hwf.parentRank p n pp s t hn hp))
          | backend => rw [hp] at h; simp at h

/-- `ancOff` only depends on the skeleton of the heap. -/
theorem ancOff_skel_congr : ∀ {fuel : Nat} {w v : World},
    (∀ p, skelOf v p = skelOf w p) → ∀ p q, ancOff fuel v p q = ancOff fuel w p q := by
  intro fuel
  induction fuel with
  | zero => intro w v _ p q; rfl
  | succ m ih =>
    intro w v hskel p q
    by_cases hpq : p = q
    · subst hpq; rw [ancOff_self, ancOff_self]
    · have hs := hskel p
      unfold skelOf at hs
      cases hn : w.node p with
      | none =>
        have hv : v.node p = none := by
          cases hv : v.node p with
          | none => rfl
          | some nv => rw [hn, hv] at hs; simp at hs
        rw [ancOff_node_none hpq hn, ancOff_node_none hpq hv]
      | some n =>
        cases hv : v.node p with
        | none => rw [hn, hv] at hs; simp at hs
        | some nv =>
          rw [hn, hv] at hs
          simp only [Option.map_some', Option.some.injEq] at hs
          have hpar : nv.parent = n.parent := congrArg (fun x => x.2.1) hs
          rw [ancOff_step hpq hv, ancOff_step hpq hn, hpar]
          cases hp : n.parent with
          | none => rfl
          | some par =>
            cases par with
            | phys pp s t =>
              simp only []
              rw [ih hskel pp q]
            | backend => rfl


/-! Entry-level characterisations of the world updates. -/

theorem lookupA_insertA {α : Type} (l : List (Nat × α)) (k k' : Nat) (v : α) :
    lookupA (insertA l k v) k' = if k = k' then some v else lookupA l k' := by
  by_cases h : k = k'
  · subst h; simp
  · simp [lookupA_insertA_ne _ _ _ _ h, h]

theorem mem_map_fst_insertA {α : Type} (l : List (Nat × α)) (k k' : Nat) (v : α) :
    k' ∈ (insertA l k v).map Prod.fst ↔ k' = k ∨ k' ∈ l.map Prod.fst := by
  induction l with
  | nil => simp [insertA]
  | cons hd t ih =>
    obtain ⟨k0, v0⟩ := hd
    by_cases hk : k0 = k
    · subst hk
      simp [insertA]
    · simp only [insertA, if_neg hk, List.map_cons, List.mem_cons, ih]
      tauto

theorem mem_map_fst_eraseA {α : Type} (l : List (Nat × α)) (k k' : Nat)
    (h : k' ∈ (eraseA l k).map Prod.fst) : k' ∈ l.map Prod.fst := by
  induction l with
  | nil => simpa [eraseA] using h
  | cons hd t ih =>
    obtain ⟨k0, v0⟩ := hd
    by_cases hk : k0 = k
    · simp only [eraseA, if_pos hk] at h
      simp only [List.map_cons, List.mem_cons]
      exact Or.inr h
    · simp only [eraseA, if_neg hk, List.map_cons, List.mem_cons] at h ⊢
      tauto

theorem nodup_insertA {α : Type} {l : List (Nat × α)} (k : Nat) (v : α)
    (h : (l.map Prod.fst).Nodup) : ((insertA l k v).map Prod.fst).Nodup := by
  induction l with
  | nil => simp [insertA]
  | cons hd t ih =>
    obtain ⟨k0, v0⟩ := hd
    simp only [List.map_cons, List.nodup_cons] at h
    by_cases hk : k0 = k
    · subst hk
      simp only [insertA, eq_self_iff_true, if_true, List.map_cons, List.nodup_cons]
      exact h
    · simp only [insertA, if_neg hk, List.map_cons, List.nodup_cons]
      refine ⟨?_, ih h.2⟩
      rw [mem_map_fst_insertA]
      push_neg
      exact ⟨hk, h.1⟩

theorem nodup_eraseA {α : Type} {l : List (Nat × α)} (k : Nat)
    (h : (l.map Prod.fst).Nodup) : ((eraseA l k).map Prod.fst).Nodup := by
  induction l with
  | nil => simp [eraseA]
  | cons hd t ih =>
    obtain ⟨k0, v0⟩ := hd
    simp only [List.map_cons, List.nodup_cons] at h
    by_cases hk : k0 = k
    · simp only [eraseA, if_pos hk]
      exact h.2
    · simp only [eraseA, if_neg hk, List.map_cons, List.nodup_cons]
      exact ⟨fun hm => h.1 (mem_map_fst_eraseA t k k0 hm), ih h.2⟩

theorem lookupA_eraseA {α : Type} (l : List (Nat × α)) (k k' : Nat)
    (h : (l.map Prod.fst).Nodup) :
    lookupA (eraseA l k) k' = if k = k' then none else lookupA l k' := by
  by_cases hk : k = k'
  · subst hk
    rw [if_pos rfl]
    exact lookupA_eraseA_self l k h
  · rw [if_neg hk, lookupA_eraseA_ne l k k' hk]

theorem entry_ext {w : World} {pid : Nat} {n : PhysNode} (h : w.node pid = some n)
    (idx : Nat) : w.entry pid idx = lookupA n.frames idx := by
  unfold World.entry
  rw [h]
  rfl

theorem entry_setEntry {w : World} {pid : Nat} {n : PhysNode} (h : w.node pid = some n)
    (idx : Nat) (fi : FrameInfo) (p i : Nat) :
    (w.setEntry pid idx fi).entry p i =
      if pid = p ∧ idx = i then some fi else w.entry p i := by
  by_cases hp : pid = p
  · subst hp
    by_cases hi : idx = i
    · subst hi
      simp [World.entry, h, lookupA_insertA]
    · simp [World.entry, h, lookupA_insertA, hi]
  · simp [World.entry, h, hp]

theorem entry_eraseEntry {w : World} {pid : Nat} {n : PhysNode} (h : w.node pid = some n)
    (hnd : (n.frames.map Prod.fst).Nodup) (idx : Nat) (p i : Nat) :
    (w.eraseEntry pid idx).entry p i =
      if pid = p ∧ idx = i then none else w.entry p i := by
  by_cases hp : pid = p
  · subst hp
    by_cases hi : idx = i
    · subst hi
      simp [World.entry, h, lookupA_eraseA _ _ _ hnd]
    · simp [World.entry, h, lookupA_eraseA _ _ _ hnd, hi]
  · simp [World.entry, h, hp]

/-! Skeleton invariance of the world updates. -/

@[simp] theorem skelOf_setEntry (w : World) (pid idx : Nat) (fi : FrameInfo) (p : Nat) :
    skelOf (w.setEntry pid idx fi) p = skelOf w p := by
  unfold skelOf
  cases h : w.node pid with
  | none => rw [node_setEntry, h]
  | some n =>
    by_cases hp : pid = p
    · subst hp
      rw [node_setEntry, h]
      simp [h, PhysNode.skel]
    · rw [node_setEntry, h]
      simp [hp]

@[simp] theorem skelOf_eraseEntry (w : World) (pid idx : Nat) (p : Nat) :
    skelOf (w.eraseEntry pid idx) p = skelOf w p := by
  unfold skelOf
  cases h : w.node pid with
  | none => rw [node_eraseEntry, h]
  | some n =>
    by_cases hp : pid = p
    · subst hp
      rw [node_eraseEntry, h]
      simp [h, PhysNode.skel]
    · rw [node_eraseEntry, h]
      simp [hp]

@[simp] theorem skelOf_allocFrame (w : World) (d : Nat → Nat) (p : Nat) :
    skelOf (w.allocFrame d) p = skelOf w p := rfl

@[simp] theorem skelOf_blit (w : World) (f : Nat) (buf : List Nat) (start len p : Nat) :
    skelOf (w.blit f buf start len) p = skelOf w p := rfl

@[simp] theorem entry_allocFrame (w : World) (d : Nat → Nat) (p i : Nat) :
    (w.allocFrame d).entry p i = w.entry p i := rfl

@[simp] theorem entry_blit (w : World) (f : Nat) (buf : List Nat) (start len p i : Nat) :
    (w.blit f buf start len).entry p i = w.entry p i := rfl

/-- The skeleton determines node membership and all structural fields. -/
theorem node_of_skel {w v : World} (h : ∀ p, skelOf v p = skelOf w p) {p : Nat}
    {n : PhysNode} (hn : w.node p = some n) :
    ∃ m : PhysNode, v.node p = some m ∧ m.branch = n.branch ∧ m.parent = n.parent ∧
      m.cow = n.cow ∧ m.position = n.position ∧ m.flusher = n.flusher := by
  have hs := h p
  unfold skelOf at hs
  rw [hn] at hs
  cases hv : v.node p with
  | none => rw [hv] at hs; simp at hs
  | some m =>
    rw [hv] at hs
    simp only [Option.map_some', Option.some.injEq] at hs
    unfold PhysNode.skel at hs
    exact ⟨m, rfl,
      congrArg (fun x => x.1) hs,
      congrArg (fun x => x.2.1) hs,
      congrArg (fun x => x.2.2.1) hs,
      congrArg (fun x => x.2.2.2.1) hs,
      congrArg (fun x => x.2.2.2.2) hs⟩


/-! Well-formedness surgery: how `Wf` survives the world updates that
`commit_impl` performs. -/

theorem entryFree_of_le {rank : Nat → Nat} {w : World} (hwf : Wf rank w) {f : Nat}
    (h : w.nextFrame ≤ f) : entryFree w f := by
  intro p n i fi s hn hl hs
  have := hwf.fidLt p n i fi s hn hl hs
  omega

theorem node_setEntry_cases {w : World} {pid : Nat} {n : PhysNode}
    (h : w.node pid = some n) (idx : Nat) (fi : FrameInfo) (p : Nat) :
    (w.setEntry pid idx fi).node p =
      if pid = p then some { n with frames := insertA n.frames idx fi } else w.node p := by
  rw [node_setEntry, h]

theorem node_eraseEntry_cases {w : World} {pid : Nat} {n : PhysNode}
    (h : w.node pid = some n) (idx : Nat) (p : Nat) :
    (w.eraseEntry pid idx).node p =
      if pid = p then some { n with frames := eraseA n.frames idx } else w.node p := by
  rw [node_eraseEntry, h]

theorem lookup_in_setEntry {w : World} {pid : Nat} {n : PhysNode}
    (h : w.node pid = some n) {idx : Nat} {fi : FrameInfo} {p : Nat} {np : PhysNode}
    {i : Nat} {fi' : FrameInfo} (hp : (w.setEntry pid idx fi).node p = some np)
    (hl : lookupA np.frames i = some fi') :
    (pid = p ∧ idx = i ∧ fi = fi') ∨
      (∃ n0, w.node p = some n0 ∧ lookupA n0.frames i = some fi') := by
  rw [node_setEntry_cases h] at hp
  by_cases hpp : pid = p
  · rw [if_pos hpp] at hp
    obtain rfl : { n with frames := insertA n.frames idx fi } = np := by
      simpa using hp
    rw [lookupA_insertA] at hl
    by_cases hi : idx = i
    · rw [if_pos hi] at hl
      exact Or.inl ⟨hpp, hi, by simpa using hl⟩
    · rw [if_neg hi] at hl
      exact Or.inr ⟨n, by rw [← hpp]; exact h, hl⟩
  · rw [if_neg hpp] at hp
    exact Or.inr ⟨np, hp, hl⟩

theorem lookup_in_eraseEntry {w : World} {pid : Nat} {n : PhysNode}
    (h : w.node pid = some n) (hnd : (n.frames.map Prod.fst).Nodup) {idx : Nat} {p : Nat}
    {np : PhysNode} {i : Nat} {fi' : FrameInfo}
    (hp : (w.eraseEntry pid idx).node p = some np)
    (hl : lookupA np.frames i = some fi') :
    ¬(p = pid ∧ i = idx) ∧ ∃ n0, w.node p = some n0 ∧ lookupA n0.frames i = some fi' := by
  rw [node_eraseEntry_cases h] at hp
  by_cases hpp : pid = p
  · rw [if_pos hpp] at hp
    obtain rfl : { n with frames := eraseA n.frames idx } = np := by
      simpa using hp
    rw [lookupA_eraseA _ _ _ hnd] at hl
    by_cases hi : idx = i
    · rw [if_pos hi] at hl
      exact absurd hl (by simp)
    · rw [if_neg hi] at hl
      exact ⟨fun hc => hi (hc.2.symm), n, by rw [← hpp]; exact h, hl⟩
  · rw [if_neg hpp] at hp
    exact ⟨fun hc => hpp (hc.1.symm), np, hp, hl⟩

theorem wf_setEntry {rank : Nat → Nat} {w : World} {pid : Nat} {n : PhysNode}
    (hwf : Wf rank w) (h : w.node pid = some n) (idx : Nat) (fi : FrameInfo)
    (hfi : ∀ s, fi.state = some s → s.fid < w.nextFrame ∧ s.len ≤ PAGE_SIZE ∧
      ((∃ fi0 s0, lookupA n.frames idx = some fi0 ∧ fi0.state = some s0 ∧ s0.fid = s.fid) ∨
        entryFree w s.fid)) :
    Wf rank (w.setEntry pid idx fi) := by
  constructor
  · intro p np hp
    rw [node_setEntry_cases h] at hp
    by_cases hpp : pid = p
    · rw [if_pos hpp] at hp
      obtain rfl : { n with frames := insertA n.frames idx fi } = np := by simpa using hp
      exact nodup_insertA idx fi (hwf.keysF pid n h)
    · rw [if_neg hpp] at hp
      exact hwf.keysF p np hp
  · intro p np pp s t hp hpar
    rw [node_setEntry_cases h] at hp
    by_cases hpp : pid = p
    · rw [if_pos hpp] at hp
      obtain rfl : { n with frames := insertA n.frames idx fi } = np := by simpa using hp
      exact hpp ▸ hwf.parentRank pid n pp s t h hpar
    · rw [if_neg hpp] at hp
      exact hwf.parentRank p np pp s t hp hpar
  · intro p np i fi' s' hp hl hs
    rw [nextFrame_setEntry]
    rcases lookup_in_setEntry h hp hl with ⟨rfl, rfl, rfl⟩ | ⟨n0, hn0, hl0⟩
    · exact (hfi s' hs).1
    · exact hwf.fidLt p n0 i fi' s' hn0 hl0 hs
  · intro p np i fi' s' hp hl hs
    rcases lookup_in_setEntry h hp hl with ⟨rfl, rfl, rfl⟩ | ⟨n0, hn0, hl0⟩
    · exact (hfi s' hs).2.1
    · exact hwf.lenLe p n0 i fi' s' hn0 hl0 hs
  · intro p1 n1 i1 fi1 s1 p2 n2 i2 fi2 s2 h1 hl1 hs1 h2 hl2 hs2 hne
    rcases lookup_in_setEntry h h1 hl1 with ⟨rfl, rfl, rfl⟩ | ⟨m1, hm1, hml1⟩ <;>
      rcases lookup_in_setEntry h h2 hl2 with ⟨he2, hi2, hf2⟩ | ⟨m2, hm2, hml2⟩
    · exact absurd ⟨he2, hi2⟩ hne
    · rcases (hfi s1 hs1).2.2 with ⟨fi0, s0, hl0, hs0, hfid⟩ | hfree
      · rw [← hfid]
        exact hwf.inj pid n idx fi0 s0 p2 m2 i2 fi2 s2 h hl0 hs0 hm2 hml2 hs2 hne
      · exact fun hc => hfree p2 m2 i2 fi2 s2 hm2 hml2 hs2 (hc.symm)
    · subst he2
      subst hi2
      subst hf2
      rcases (hfi s2 hs2).2.2 with ⟨fi0, s0, hl0, hs0, hfid⟩ | hfree
      · rw [← hfid]
        exact hwf.inj p1 m1 i1 fi1 s1 pid n idx fi0 s0 hm1 hml1 hs1 h hl0 hs0 hne
      · exact hfree p1 m1 i1 fi1 s1 hm1 hml1 hs1
    · exact hwf.inj p1 m1 i1 fi1 s1 p2 m2 i2 fi2 s2 hm1 hml1 hs1 hm2 hml2 hs2 hne

theorem wf_eraseEntry {rank : Nat → Nat} {w : World} {pid : Nat} {n : PhysNode}
    (hwf : Wf rank w) (h : w.node pid = some n) (idx : Nat) :
    Wf rank (w.eraseEntry pid idx) := by
  have hnd := hwf.keysF pid n h
  constructor
  · intro p np hp
    rw [node_eraseEntry_cases h] at hp
    by_cases hpp : pid = p
    · rw [if_pos hpp] at hp
      obtain rfl : { n with frames := eraseA n.frames idx } = np := by simpa using hp
      exact nodup_eraseA idx hnd
    · rw [if_neg hpp] at hp
      exact hwf.keysF p np hp
  · intro p np pp s t hp hpar
    rw [node_eraseEntry_cases h] at hp
    by_cases hpp : pid = p
    · rw [if_pos hpp] at hp
      obtain rfl : { n with frames := eraseA n.frames idx } = np := by simpa using hp
      exact hpp ▸ hwf.parentRank pid n pp s t h hpar
    · rw [if_neg hpp] at hp
      exact hwf.parentRank p np pp s t hp hpar
  · intro p np i fi' s' hp hl hs
    rw [nextFrame_eraseEntry]
    obtain ⟨-, n0, hn0, hl0⟩ := lookup_in_eraseEntry h hnd hp hl
    exact hwf.fidLt p n0 i fi' s' hn0 hl0 hs
  · intro p np i fi' s' hp hl hs
    obtain ⟨-, n0, hn0, hl0⟩ := lookup_in_eraseEntry h hnd hp hl
    exact hwf.lenLe p n0 i fi' s' hn0 hl0 hs
  · intro p1 n1 i1 fi1 s1 p2 n2 i2 fi2 s2 h1 hl1 hs1 h2 hl2 hs2 hne
    obtain ⟨-, m1, hm1, hml1⟩ := lookup_in_eraseEntry h hnd h1 hl1
    obtain ⟨-, m2, hm2, hml2⟩ := lookup_in_eraseEntry h hnd h2 hl2
    exact hwf.inj p1 m1 i1 fi1 s1 p2 m2 i2 fi2 s2 hm1 hml1 hs1 hm2 hml2 hs2 hne

/-- After an erase the erased entry frame (unique in the world by `inj`)
is free. -/
theorem entryFree_after_erase {rank : Nat → Nat} {w : World} {pid : Nat} {n : PhysNode}
    {idx : Nat} {fi : FrameInfo} {s : FrameState} (hwf : Wf rank w)
    (h : w.node pid = some n) (hl : lookupA n.frames idx = some fi)
    (hs : fi.state = some s) :
    entryFree (w.eraseEntry pid idx) s.fid := by
  have hnd := hwf.keysF pid n h
  intro p np i fi' s' hp hl' hs'
  obtain ⟨hne, n0, hn0, hl0⟩ := lookup_in_eraseEntry h hnd hp hl'
  exact (hwf.inj p n0 i fi' s' pid n idx fi s hn0 hl0 hs' h hl hs hne)

theorem wf_of_node_eq {rank : Nat → Nat} {w v : World}
    (hnode : ∀ p, v.node p = w.node p) (hnf : v.nextFrame = w.nextFrame)
    (hwf : Wf rank w) : Wf rank v := by
  constructor
  · intro p np hp
    exact hwf.keysF p np (by rw [← hnode]; exact hp)
  · intro p np pp s t hp hpar
    exact hwf.parentRank p np pp s t (by rw [← hnode]; exact hp) hpar
  · intro p np i fi s hp hl hs
    rw [hnf]
    exact hwf.fidLt p np i fi s (by rw [← hnode]; exact hp) hl hs
  · intro p np i fi s hp hl hs
    exact hwf.lenLe p np i fi s (by rw [← hnode]; exact hp) hl hs
  · intro p1 n1 i1 fi1 s1 p2 n2 i2 fi2 s2 h1 hl1 hs1 h2 hl2 hs2 hne
    exact hwf.inj p1 n1 i1 fi1 s1 p2 n2 i2 fi2 s2 (by rw [← hnode]; exact h1) hl1 hs1
      (by rw [← hnode]; exact h2) hl2 hs2 hne

theorem wf_allocFrame {rank : Nat → Nat} {w : World} (hwf : Wf rank w) (d : Nat → Nat) :
    Wf rank (w.allocFrame d) := by
  constructor
  · intro p np hp
    exact hwf.keysF p np hp
  · intro p np pp s t hp hpar
    exact hwf.parentRank p np pp s t hp hpar
  · intro p np i fi s hp hl hs
    rw [nextFrame_allocFrame]
    have := hwf.fidLt p np i fi s hp hl hs
    omega
  · intro p np i fi s hp hl hs
    exact hwf.lenLe p np i fi s hp hl hs
  · intro p1 n1 i1 fi1 s1 p2 n2 i2 fi2 s2 h1 hl1 hs1 h2 hl2 hs2 hne
    exact hwf.inj p1 n1 i1 fi1 s1 p2 n2 i2 fi2 s2 h1 hl1 hs1 h2 hl2 hs2 hne

theorem wf_blit {rank : Nat → Nat} {w : World} (hwf : Wf rank w) (f : Nat)
    (buf : List Nat) (start len : Nat) : Wf rank (w.blit f buf start len) :=
  wf_of_node_eq (fun p => node_blit w f buf start len p) rfl hwf

theorem insertA_self {α : Type} : ∀ {l : List (Nat × α)} {k : Nat} {v : α},
    lookupA l k = some v → insertA l k v = l := by
  intro l
  induction l with
  | nil => intro k v h; simp [lookupA] at h
  | cons hd t ih =>
    intro k v h
    obtain ⟨k0, v0⟩ := hd
    by_cases hk : k0 = k
    · subst hk
      simp only [lookupA, eq_self_iff_true, if_true, Option.some.injEq] at h
      simp [insertA, h]
    · simp only [lookupA, if_neg hk] at h
      simp [insertA, hk, ih h]

theorem setEntry_self {w : World} {pid : Nat} {n : PhysNode} {idx : Nat} {fi : FrameInfo}
    (h : w.node pid = some n) (hl : lookupA n.frames idx = some fi) :
    w.setEntry pid idx fi = w := by
  unfold World.setEntry
  unfold World.node at h
  rw [h]
  simp only []
  rw [insertA_self hl]
  have he : { n with frames := n.frames } = n := rfl
  rw [he, insertA_self h]


/-! Facts about the recorded-resolution predicate. -/

theorem RecF_mono : ∀ {F : Nat} (F' : Nat) {w : World} {pid idx f l : Nat},
    RecF F w pid idx f l → F ≤ F' → RecF F' w pid idx f l := by
  intro F
  induction F with
  | zero => intro F' w pid idx f l h; exact absurd h (by simp [RecF])
  | succ m ih =>
    intro F' w pid idx f l h hle
    obtain ⟨k, rfl⟩ : ∃ k, F' = k + 1 := ⟨F' - 1, by omega⟩
    unfold RecF at h ⊢
    rcases h with hhit | ⟨hnone, n, pp, s, t, hn, hpar, hwin, hrec⟩
    · exact Or.inl hhit
    · exact Or.inr ⟨hnone, n, pp, s, t, hn, hpar, hwin, ih k hrec (by omega)⟩

/-- A recorded resolution names an actual page-table entry at an ancestor. -/
theorem RecF_rec_entry {rank : Nat → Nat} : ∀ {F : Nat} {w : World} {pid idx f l : Nat},
    Wf rank w → RecF F w pid idx f l →
    ∃ p d n fi s, ancOff F w pid p = some d ∧ w.node p = some n ∧
      lookupA n.frames (d + idx) = some fi ∧ fi.state = some s ∧ s.fid = f ∧ s.len = l := by
  intro F
  induction F with
  | zero => intro w pid idx f l _ h; exact absurd h (by simp [RecF])
  | succ m ih =>
    intro w pid idx f l hwf h
    unfold RecF at h
    rcases h with ⟨n, fi, s, hn, hl, hs, hf, hlen, -⟩ |
      ⟨hnone, n, pp, s, t, hn, hpar, hwin, hrec⟩
    · refine ⟨pid, 0, n, fi, s, ancOff_self w pid m, hn, ?_, hs, hf, hlen⟩
      rw [Nat.zero_add]
      exact hl
    · obtain ⟨p, d, np, fip, sp, hanc, hnp, hlp, hsp, hfp, hlenp⟩ := ih hwf hrec
      have hne : ¬ pid = p := by
        intro he
        subst he
        have h1 := ancOff_rank_le hwf hanc
        have h2 := hwf.parentRank pid n pp s t hn hpar
        omega
      refine ⟨p, d + s, np, fip, sp, ?_, hnp, ?_, hsp, hfp, hlenp⟩
      · rw [ancOff_step hne hn, hpar]
        simp only [Option.map_eq_some']
        exact ⟨d, hanc, rfl⟩
      · have : d + s + idx = d + (s + idx) := by omega
        rw [this]
        exact hlp

/-- Two recorded resolutions of distinct indices use distinct frames. -/
theorem RecF_fid_ne {rank : Nat → Nat} {F F' : Nat} {w : World} {pid i j f1 l1 f2 l2 : Nat}
    (hwf : Wf rank w) (h1 : RecF F w pid i f1 l1) (h2 : RecF F' w pid j f2 l2)
    (hij : ¬ i = j) : ¬ f1 = f2 := by
  obtain ⟨p1, d1, n1, fi1, s1, ha1, hn1, hl1, hs1, hf1, -⟩ := RecF_rec_entry hwf h1
  obtain ⟨p2, d2, n2, fi2, s2, ha2, hn2, hl2, hs2, hf2, -⟩ := RecF_rec_entry hwf h2
  rw [← hf1, ← hf2]
  refine hwf.inj p1 n1 (d1 + i) fi1 s1 p2 n2 (d2 + j) fi2 s2 hn1 hl1 hs1 hn2 hl2 hs2 ?_
  rintro ⟨rfl, hkey⟩
  have hd := ancOff_det ha1 ha2
  omega

/-- A recorded resolution survives any world change whose entry updates
avoid the index's key on every ancestor (and keep the skeleton). -/
theorem RecF_persist {rank : Nat → Nat} : ∀ {F : Nat} {w v : World} {pid idx f l : Nat},
    Wf rank w → RecF F w pid idx f l →
    (∀ p, skelOf v p = skelOf w p) →
    (∀ p d, ancOff F w pid p = some d → v.entry p (d + idx) = w.entry p (d + idx)) →
    RecF F v pid idx f l := by
  intro F
  induction F with
  | zero => intro w v pid idx f l _ h; exact absurd h (by simp [RecF])
  | succ m ih =>
    intro w v pid idx f l hwf h hskel hent
    unfold RecF at h ⊢
    rcases h with ⟨n, fi, s, hn, hl, hs, hf, hlen, hbr⟩ |
      ⟨hnone, n, pp, s, t, hn, hpar, hwin, hrec⟩
    · left
      have hev : v.entry pid idx = w.entry pid idx := by
        have := hent pid 0 (ancOff_self w pid m)
        rwa [Nat.zero_add] at this
      obtain ⟨nv, hnv, hbrv, hparv, -, -, -⟩ := node_of_skel hskel hn
      refine ⟨nv, fi, s, hnv, ?_, hs, hf, hlen, ?_⟩
      · have hwv : w.entry pid idx = some fi := by
          rw [entry_ext hn]
          exact hl
        rw [entry_ext hnv] at hev
        rw [hev, hwv]
      · rw [hbrv]
        exact hbr
    · right
      have hev : v.entry pid idx = w.entry pid idx := by
        have := hent pid 0 (ancOff_self w pid m)
        rwa [Nat.zero_add] at this
      obtain ⟨nv, hnv, hbrv, hparv, -, -, -⟩ := node_of_skel hskel hn
      refine ⟨by rw [hev]; exact hnone, nv, pp, s, t, hnv, by rw [hparv]; exact hpar,
        hwin, ?_⟩
      refine ih hwf hrec hskel ?_
      intro p d hanc
      have hne : ¬ pid = p := by
        intro he
        subst he
        have h1 := ancOff_rank_le hwf hanc
        have h2 := hwf.parentRank pid n pp s t hn hpar
        omega
      have : ancOff (m + 1) w pid p = some (d + s) := by
        rw [ancOff_step hne hn, hpar]
        simp only [Option.map_eq_some']
        exact ⟨d, hanc, rfl⟩
      have := hent p (d + s) this
      have heq : d + s + idx = d + (s + idx) := by omega
      rwa [heq] at this

/-! The read side: a commit with `write = None` on a recorded resolution
returns it and leaves the world exactly as it was. -/

theorem FrameState.frame_none (s : FrameState) : s.frame none = (s, s.fid, s.len) := by
  cases s <;> rfl

theorem get_leaf_read_any (w : World) (pid idx : Nat) (fi : FrameInfo) {s : FrameState}
    (cow : Bool) (hst : fi.state = some s) :
    FrameInfo.get w pid idx fi false none false cow =
      (w.setEntry pid idx { state := some s, dirty := fi.dirty, pin := fi.pin },
        .ok (.sharedC s.fid s.len)) := by
  unfold FrameInfo.get FrameInfo.leaf
  simp only [hst, FrameState.frame_none, Option.isSome_none, Bool.or_false]
  rw [if_neg Bool.false_ne_true]
  simp

theorem get_branch_read (w : World) (pid idx : Nat) (fi : FrameInfo) {f l : Nat}
    (cow : Bool) (hst : fi.state = some (.shared f l)) :
    FrameInfo.get w pid idx fi true none false cow =
      (w.setEntry pid idx { state := some (.shared f l), dirty := fi.dirty, pin := fi.pin },
        .ok (.sharedC f l)) := by
  unfold FrameInfo.get FrameInfo.branch
  simp only [hst]
  simp

theorem commitImpl_read_rec : ∀ {F : Nat} {w : World} {pid idx f l : Nat} (cow0 : Bool),
    RecF F w pid idx f l →
    Phys.commitImpl w F pid idx none false cow0 = (w, .ok (.sharedC f l)) := by
  intro F
  induction F with
  | zero => intro w pid idx f l cow0 h; exact absurd h (by simp [RecF])
  | succ m ih =>
    intro w pid idx f l cow0 h
    unfold RecF at h
    rcases h with ⟨n, fi, s, hn, hl, hs, hf, hlen, hbr⟩ |
      ⟨hnone, n, pp, s, t, hn, hpar, hwin, hrec⟩
    · unfold Phys.commitImpl
      rw [hn]
      simp only
      rw [hl]
      simp only
      cases hbth : n.branch with
      | true =>
        have hsh : s = .shared f l := by
          rcases hbr with hb | hb
          · rw [hbth] at hb; exact absurd hb (by simp)
          · exact hb
        subst hsh
        rw [get_branch_read w pid idx fi (n.cow || cow0) hs]
        have hfi : ({ state := some (FrameState.shared f l), dirty := fi.dirty, pin := fi.pin } : FrameInfo) = fi := by
          rw [← hs]
        rw [hfi, setEntry_self hn hl]
      | false =>
        rw [get_leaf_read_any w pid idx fi (n.cow || cow0) hs]
        have hfi : ({ state := some s, dirty := fi.dirty, pin := fi.pin } : FrameInfo) = fi := by
          rw [← hs]
        rw [hfi, setEntry_self hn hl, hf, hlen]
    · unfold Phys.commitImpl
      rw [hn]
      simp only
      have hlk : lookupA n.frames idx = none := by
        rw [← entry_ext hn idx]
        exact hnone
      rw [hlk]
      simp only
      rw [hpar]
      simp only
      have hwinb : (t.elim true fun st => decide (idx < st - s)) = true := by
        cases t with
        | none => rfl
        | some st =>
          simp only [Option.elim] at hwin ⊢
          exact decide_eq_true hwin
      rw [hwinb]
      simp only [if_true]
      rw [ih (n.cow || cow0) hrec]

theorem commit_read_rec {F : Nat} {w : World} {pid idx f l : Nat} {node : PhysNode}
    (hn : w.node pid = some node) (hbr : node.branch = false)
    (hrec : RecF F w pid idx f l) :
    Phys.commit w F pid idx none false = (w, .ok (f, l)) := by
  unfold Phys.commit
  rw [hn]
  simp only [hbr, Bool.false_eq_true, if_false]
  rw [commitImpl_read_rec node.cow hrec]


/-! `FrameInfo.get` case evaluations for the write paths. -/

theorem get_leaf_unique_write (w : World) (pid idx : Nat) (fi : FrameInfo) {f R : Nat}
    (e : Nat) (pin cow : Bool) (hst : fi.state = some (.unique f R)) :
    FrameInfo.get w pid idx fi false (some e) pin cow =
      (w.setEntry pid idx
        { state := some (.unique f (max R e)), dirty := true,
          pin := fi.pin + (if pin then 1 else 0) },
      .ok (.sharedC f (max R e))) := by
  unfold FrameInfo.get FrameInfo.leaf
  simp only [hst, FrameState.frame, Option.isSome_some, Bool.or_true]
  rw [if_neg Bool.false_ne_true]

theorem get_leaf_none_write (w : World) (pid idx : Nat) (fi : FrameInfo) (e : Nat)
    (pin cow : Bool) (hst : fi.state = none) (hal : w.allocFail w.nextFrame = false) :
    FrameInfo.get w pid idx fi false (some e) pin cow =
      ((w.allocFrame fun _ => 0).setEntry pid idx
        { state := some (.shared w.nextFrame e), dirty := true,
          pin := fi.pin + (if pin then 1 else 0) },
      .ok (.sharedC w.nextFrame e)) := by
  unfold FrameInfo.get FrameInfo.leaf
  simp only [hst]
  unfold frameNew
  rw [hal]
  simp only [Bool.false_eq_true, if_false]
  simp only [Option.isSome_some, Bool.or_true]
  rfl

theorem get_branch_fork (w : World) (pid idx : Nat) (fi : FrameInfo) {f R : Nat}
    (e : Nat) (pin : Bool) (hst : fi.state = some (.shared f R))
    (hal : w.allocFail w.nextFrame = false) :
    FrameInfo.get w pid idx fi true (some e) pin true =
      ((w.allocFrame fun k => if k < max R e then w.frames f k else 0).setEntry pid idx
        { fi with state := some (.unique f (max R e)) },
      .ok (.uniqueC (FrameInfo.new w.nextFrame (max R e)))) := by
  unfold FrameInfo.get FrameInfo.branch
  simp only [hst, if_true]
  rw [frameCopy_spec w f (max R e) hal]
  simp

theorem get_branch_dispatch (w : World) (pid idx : Nat) (fi : FrameInfo) {f R : Nat}
    (e : Nat) (pin : Bool) (hst : fi.state = some (.shared f R)) :
    FrameInfo.get w pid idx fi true (some e) pin false =
      (w.setEntry pid idx
        { fi with state := some (.shared f (max R e)),
                  pin := fi.pin + (if pin then 1 else 0) },
      .ok (.sharedC f (max R e))) := by
  unfold FrameInfo.get FrameInfo.branch
  simp only [hst, Bool.false_eq_true, if_false]
  simp

theorem get_branch_takeover (w : World) (pid idx : Nat) (fi : FrameInfo) {f R : Nat}
    (write : Option Nat) (pin cow : Bool) (hst : fi.state = some (.unique f R)) :
    FrameInfo.get w pid idx fi true write pin cow =
      (w.eraseEntry pid idx,
        .ok (.uniqueC { FrameInfo.new f R with pin := fi.pin })) := by
  unfold FrameInfo.get FrameInfo.branch
  simp only [hst]
  simp

theorem get_branch_stateNone (w : World) (pid idx : Nat) (fi : FrameInfo)
    (write : Option Nat) (pin cow : Bool) (hst : fi.state = none) :
    (FrameInfo.get w pid idx fi true write pin cow).2 = .error .ENOENT := by
  unfold FrameInfo.get FrameInfo.branch
  simp only [hst]
  simp

/-! `entryFree` preservation. -/

theorem entryFree_allocFrame {w : World} {g : Nat} (h : entryFree w g) (d : Nat → Nat) :
    entryFree (w.allocFrame d) g := by
  intro p n i fi s hp hl hs
  exact h p n i fi s hp hl hs

theorem entryFree_setEntry {w : World} {pid : Nat} {n : PhysNode} {g : Nat}
    (hfree : entryFree w g) (hn : w.node pid = some n) (idx : Nat) {fi : FrameInfo}
    (hfi : ∀ s, fi.state = some s → ¬ s.fid = g) :
    entryFree (w.setEntry pid idx fi) g := by
  intro p np i fi' s hp hl hs
  rcases lookup_in_setEntry hn hp hl with ⟨rfl, rfl, rfl⟩ | ⟨n0, hn0, hl0⟩
  · exact hfi s hs
  · exact hfree p n0 i fi' s hn0 hl0 hs


/-! The per-commit bundle: world-shape outputs and result payloads of a
write commit. -/

theorem StepOut.of_wf {rank : Nat → Nat} {w : World} (hwf : Wf rank w) :
    StepOut rank w w :=
  ⟨hwf, fun _ => rfl, Nat.le_refl _, fun _ _ _ => rfl, rfl, rfl, rfl⟩

theorem StepOut.stepTrans {rank : Nat → Nat} {w1 w2 w3 : World}
    (h1 : StepOut rank w1 w2) (h2 : StepOut rank w2 w3) : StepOut rank w1 w3 := by
  refine ⟨h2.wf, fun p => (h2.skel p).trans (h1.skel p), Nat.le_trans h1.nfMono h2.nfMono,
    ?_, h2.backend.trans h1.backend, h2.backendLen.trans h1.backendLen,
    h2.allocFail.trans h1.allocFail⟩
  intro g k hg
  rw [h2.framesLt g k (Nat.lt_of_lt_of_le hg h1.nfMono), h1.framesLt g k hg]

theorem RecF_hit_setEntry {w : World} {pid : Nat} {n : PhysNode} (hn : w.node pid = some n)
    (idx : Nat) (fi : FrameInfo) {s : FrameState} (hs : fi.state = some s) {f l : Nat}
    (hf : s.fid = f) (hl : s.len = l) (hbr : n.branch = false ∨ s = .shared f l) (F : Nat) :
    RecF (F + 1) (w.setEntry pid idx fi) pid idx f l := by
  unfold RecF
  left
  refine ⟨{ n with frames := insertA n.frames idx fi }, fi, s, ?_, ?_, hs, hf, hl, ?_⟩
  · rw [node_setEntry_cases hn, if_pos rfl]
  · rw [lookupA_insertA, if_pos rfl]
  · rcases hbr with hb | hb
    · exact Or.inl hb
    · exact Or.inr hb

theorem get_branch_fork_enomem (w : World) (pid idx : Nat) (fi : FrameInfo) {f R : Nat}
    (e : Nat) (pin : Bool) (hst : fi.state = some (.shared f R))
    (hal : w.allocFail w.nextFrame = true) :
    (FrameInfo.get w pid idx fi true (some e) pin true).2 = .error .ENOMEM := by
  unfold FrameInfo.get FrameInfo.branch frameCopy frameNew
  simp only [hst, if_true]
  rw [hal]
  simp

set_option maxHeartbeats 1000000 in
/-- One `FrameInfo.get` on a present Shared entry with a write request:
the three successful outcomes (leaf raise, branch fork, branch dispatch)
all preserve well-formedness, touch only the entry itself, and produce a
recorded or installable resolution. -/
theorem get_shared_bundle {rank : Nat → Nat} {w : World} {pid idx : Nat} {n : PhysNode}
    {fi : FrameInfo} {f R e : Nat} {pin cow : Bool} {w' : World} {c : Commit}
    (hwf : Wf rank w) (hn : w.node pid = some n) (hl : lookupA n.frames idx = some fi)
    (hst : fi.state = some (.shared f R)) (hRP : R ≤ PAGE_SIZE) (heP : e ≤ PAGE_SIZE)
    (hflt : f < w.nextFrame)
    (hget : FrameInfo.get w pid idx fi n.branch (some e) pin cow = (w', .ok c)) :
    StepOut rank w w' ∧
    (∀ p i, ¬ w'.entry p i = w.entry p i → p = pid ∧ i = idx) ∧
    WriteOut w' 1 pid idx e c := by
  have hmaxP : max R e ≤ PAGE_SIZE := by omega
  cases hbr : n.branch with
  | false =>
    rw [hbr, get_leaf_eval' w pid idx fi e pin cow hst] at hget
    have hw' : w' = w.setEntry pid idx
        { state := some (.shared f (max R e)), dirty := true,
          pin := fi.pin + (if pin then 1 else 0) } := (congrArg Prod.fst hget).symm
    have hcc : c = .sharedC f (max R e) := by
      have := congrArg Prod.snd hget
      simpa using this.symm
    subst hw'
    subst hcc
    refine ⟨⟨?_, ?_, ?_, ?_, ?_, ?_, ?_⟩, ?_, ?_⟩
    · refine wf_setEntry hwf hn idx _ ?_
      intro s hs
      simp only [Option.some.injEq] at hs
      subst hs
      exact ⟨hflt, hmaxP, Or.inl ⟨fi, .shared f R, hl, hst, rfl⟩⟩
    · intro p; exact skelOf_setEntry w pid idx _ p
    · rw [nextFrame_setEntry]
    · intro g k hg; rw [frames_setEntry]
    · rw [backend_setEntry]
    · rw [backendLen_setEntry]
    · rw [allocFail_setEntry]
    · intro p i hne
      rw [entry_setEntry hn] at hne
      by_cases hc : pid = p ∧ idx = i
      · exact ⟨hc.1.symm, hc.2.symm⟩
      · rw [if_neg hc] at hne
        exact absurd rfl hne
    · refine ⟨by omega, hmaxP, ?_, ?_⟩
      · rw [nextFrame_setEntry]; exact hflt
      · apply RecF_hit_setEntry hn idx
        · rfl
        · rfl
        · rfl
        · exact Or.inl hbr
  | true =>
    rw [hbr] at hget
    cases hcw : cow with
    | true =>
      rw [hcw] at hget
      cases hal : w.allocFail w.nextFrame with
      | true =>
        have := get_branch_fork_enomem w pid idx fi e pin hst hal
        rw [hget] at this
        simp at this
      | false =>
        rw [get_branch_fork w pid idx fi e pin hst hal] at hget
        have hw' : w' = (w.allocFrame fun k => if k < max R e then w.frames f k else 0).setEntry
            pid idx { fi with state := some (.unique f (max R e)) } :=
          (congrArg Prod.fst hget).symm
        have hcc : c = .uniqueC (FrameInfo.new w.nextFrame (max R e)) := by
          have := congrArg Prod.snd hget
          simpa using this.symm
        subst hw'
        subst hcc
        have hna : (w.allocFrame fun k => if k < max R e then w.frames f k else 0).node pid =
            some n := by rw [node_allocFrame]; exact hn
        refine ⟨⟨?_, ?_, ?_, ?_, ?_, ?_, ?_⟩, ?_, ?_⟩
        · refine wf_setEntry (wf_allocFrame hwf _) hna idx _ ?_
          intro s hs
          simp only [Option.some.injEq] at hs
          subst hs
          refine ⟨by simp only [FrameState.fid]; rw [nextFrame_allocFrame]; omega, hmaxP,
            Or.inl ⟨fi, .shared f R, hl, hst, rfl⟩⟩
        · intro p
          rw [skelOf_setEntry, skelOf_allocFrame]
        · rw [nextFrame_setEntry, nextFrame_allocFrame]; omega
        · intro g k hg
          rw [frames_setEntry, frames_allocFrame]
          rw [if_neg (show ¬ g = w.nextFrame by omega)]
        · rw [backend_setEntry, backend_allocFrame]
        · rw [backendLen_setEntry, backendLen_allocFrame]
        · rw [allocFail_setEntry, allocFail_allocFrame]
        · intro p i hne
          rw [entry_setEntry hna, entry_allocFrame] at hne
          by_cases hc : pid = p ∧ idx = i
          · exact ⟨hc.1.symm, hc.2.symm⟩
          · rw [if_neg hc] at hne
            exact absurd rfl hne
        · refine ⟨w.nextFrame, max R e, rfl, hmaxP, ?_, ?_⟩
          · rw [nextFrame_setEntry, nextFrame_allocFrame]; omega
          · refine entryFree_setEntry ?_ hna idx ?_
            · exact entryFree_allocFrame (entryFree_of_le hwf (Nat.le_refl _)) _
            · intro s hs
              simp only [Option.some.injEq] at hs
              subst hs
              simp only [FrameState.fid]
              omega
    | false =>
      rw [hcw, get_branch_dispatch w pid idx fi e pin hst] at hget
      have hw' : w' = w.setEntry pid idx
          { fi with state := some (.shared f (max R e)),
                    pin := fi.pin + (if pin then 1 else 0) } := (congrArg Prod.fst hget).symm
      have hcc : c = .sharedC f (max R e) := by
        have := congrArg Prod.snd hget
        simpa using this.symm
      subst hw'
      subst hcc
      refine ⟨⟨?_, ?_, ?_, ?_, ?_, ?_, ?_⟩, ?_, ?_⟩
      · refine wf_setEntry hwf hn idx _ ?_
        intro s hs
        simp only [Option.some.injEq] at hs
        subst hs
        exact ⟨hflt, hmaxP, Or.inl ⟨fi, .shared f R, hl, hst, rfl⟩⟩
      · intro p; exact skelOf_setEntry w pid idx _ p
      · rw [nextFrame_setEntry]
      · intro g k hg; rw [frames_setEntry]
      · rw [backend_setEntry]
      · rw [backendLen_setEntry]
      · rw [allocFail_setEntry]
      · intro p i hne
        rw [entry_setEntry hn] at hne
        by_cases hc : pid = p ∧ idx = i
        · exact ⟨hc.1.symm, hc.2.symm⟩
        · rw [if_neg hc] at hne
          exact absurd rfl hne
      · refine ⟨by omega, hmaxP, ?_, ?_⟩
        · rw [nextFrame_setEntry]; exact hflt
        · apply RecF_hit_setEntry hn idx
          · rfl
          · rfl
          · rfl
          · exact Or.inr rfl


theorem WriteOut_mono {w' : World} {F F' pid idx e : Nat} {c : Commit}
    (h : WriteOut w' F pid idx e c) (hle : F ≤ F') : WriteOut w' F' pid idx e c := by
  cases c with
  | sharedC f l =>
    obtain ⟨h1, h2, h3, h4⟩ := h
    exact ⟨h1, h2, h3, RecF_mono F' h4 hle⟩
  | uniqueC fi => exact h

theorem StepOut_allocFrame {rank : Nat → Nat} {w : World} (hwf : Wf rank w) (d : Nat → Nat) :
    StepOut rank w (w.allocFrame d) := by
  refine ⟨wf_allocFrame hwf d, fun p => skelOf_allocFrame w d p, ?_, ?_, rfl, rfl, rfl⟩
  · rw [nextFrame_allocFrame]; omega
  · intro g k hg
    rw [frames_allocFrame]
    rw [if_neg (show ¬ g = w.nextFrame by omega)]

theorem StepOut_setEntry {rank : Nat → Nat} {w : World} {pid idx : Nat} {fi : FrameInfo}
    (hwf' : Wf rank (w.setEntry pid idx fi)) : StepOut rank w (w.setEntry pid idx fi) := by
  refine ⟨hwf', fun p => skelOf_setEntry w pid idx fi p, ?_, ?_, ?_, ?_, ?_⟩
  · rw [nextFrame_setEntry]
  · intro g k hg; rw [frames_setEntry]
  · rw [backend_setEntry]
  · rw [backendLen_setEntry]
  · rw [allocFail_setEntry]

set_option maxHeartbeats 1000000 in
/-- Installing a fresh Shared FrameInfo handed up by the parent and
re-dispatching `FrameInfo.get` on it. -/
theorem install_get_bundle {rank : Nat → Nat} {w1 : World} {pid idx e : Nat}
    {pin cow : Bool} {w' : World} {c : Commit} {f2 l2 : Nat} {fi' : FrameInfo}
    {n1 : PhysNode} (hwf1 : Wf rank w1) (hn1 : w1.node pid = some n1)
    (hstQ : fi'.state = some (.shared f2 l2)) (hl2P : l2 ≤ PAGE_SIZE) (heP : e ≤ PAGE_SIZE)
    (hf2 : f2 < w1.nextFrame) (hfree : entryFree w1 f2)
    (hget : FrameInfo.get (w1.setEntry pid idx fi') pid idx fi' n1.branch (some e) pin cow =
      (w', .ok c)) :
    StepOut rank w1 w' ∧ (∀ p i, ¬ w'.entry p i = w1.entry p i → p = pid ∧ i = idx) ∧
    WriteOut w' 1 pid idx e c := by
  have hwf2 : Wf rank (w1.setEntry pid idx fi') := by
    refine wf_setEntry hwf1 hn1 idx fi' ?_
    intro s hs
    rw [hstQ] at hs
    simp only [Option.some.injEq] at hs
    subst hs
    exact ⟨hf2, hl2P, Or.inr hfree⟩
  have hn2 : (w1.setEntry pid idx fi').node pid =
      some { n1 with frames := insertA n1.frames idx fi' } := by
    rw [node_setEntry_cases hn1, if_pos rfl]
  have hl2 : lookupA (insertA n1.frames idx fi') idx = some fi' := by
    rw [lookupA_insertA, if_pos rfl]
  have hf2' : f2 < (w1.setEntry pid idx fi').nextFrame := by
    rw [nextFrame_setEntry]; exact hf2
  obtain ⟨hstepB, hmodB, hwoB⟩ := get_shared_bundle hwf2 hn2 hl2 hstQ hl2P heP hf2' hget
  refine ⟨(StepOut_setEntry hwf2).stepTrans hstepB, ?_, hwoB⟩
  intro p i hne
  by_cases hmid : w'.entry p i = (w1.setEntry pid idx fi').entry p i
  · rw [hmid] at hne
    rw [entry_setEntry hn1] at hne
    by_cases hcnd : pid = p ∧ idx = i
    · exact ⟨hcnd.1.symm, hcnd.2.symm⟩
    · rw [if_neg hcnd] at hne
      exact absurd rfl hne
  · exact hmodB p i hmid


theorem get_leaf_none_enomem (w : World) (pid idx : Nat) (fi : FrameInfo) (e : Nat)
    (pin cow : Bool) (hst : fi.state = none) (hal : w.allocFail w.nextFrame = true) :
    (FrameInfo.get w pid idx fi false (some e) pin cow).2 = .error .ENOMEM := by
  unfold FrameInfo.get FrameInfo.leaf frameNew
  simp only [hst]
  rw [hal]
  simp

set_option maxHeartbeats 1000000 in
theorem get_unique_leaf_bundle {rank : Nat → Nat} {w : World} {pid idx : Nat} {n : PhysNode}
    {fi : FrameInfo} {f R e : Nat} {pin cow : Bool} {w' : World} {c : Commit}
    (hwf : Wf rank w) (hn : w.node pid = some n) (hl : lookupA n.frames idx = some fi)
    (hst : fi.state = some (.unique f R)) (hbr : n.branch = false)
    (hRP : R ≤ PAGE_SIZE) (heP : e ≤ PAGE_SIZE) (hflt : f < w.nextFrame)
    (hget : FrameInfo.get w pid idx fi n.branch (some e) pin cow = (w', .ok c)) :
    StepOut rank w w' ∧
    (∀ p i, ¬ w'.entry p i = w.entry p i → p = pid ∧ i = idx) ∧
    WriteOut w' 1 pid idx e c := by
  have hmaxP : max R e ≤ PAGE_SIZE := by omega
  rw [hbr, get_leaf_unique_write w pid idx fi e pin cow hst] at hget
  have hw' : w' = w.setEntry pid idx
      { state := some (.unique f (max R e)), dirty := true,
        pin := fi.pin + (if pin then 1 else 0) } := (congrArg Prod.fst hget).symm
  have hcc : c = .sharedC f (max R e) := by
    have := congrArg Prod.snd hget
    simpa using this.symm
  subst hw'
  subst hcc
  have hwf' : Wf rank (w.setEntry pid idx
      { state := some (.unique f (max R e)), dirty := true,
        pin := fi.pin + (if pin then 1 else 0) }) := by
    refine wf_setEntry hwf hn idx _ ?_
    intro s hs
    simp only [Option.some.injEq] at hs
    subst hs
    exact ⟨hflt, hmaxP, Or.inl ⟨fi, .unique f R, hl, hst, rfl⟩⟩
  refine ⟨StepOut_setEntry hwf', ?_, ?_⟩
  · intro p i hne
    rw [entry_setEntry hn] at hne
    by_cases hcnd : pid = p ∧ idx = i
    · exact ⟨hcnd.1.symm, hcnd.2.symm⟩
    · rw [if_neg hcnd] at hne
      exact absurd rfl hne
  · refine ⟨by omega, hmaxP, ?_, ?_⟩
    · rw [nextFrame_setEntry]; exact hflt
    · apply RecF_hit_setEntry hn idx
      · rfl
      · rfl
      · rfl
      · exact Or.inl hbr

set_option maxHeartbeats 1000000 in
theorem get_none_leaf_bundle {rank : Nat → Nat} {w : World} {pid idx : Nat} {n : PhysNode}
    {fi : FrameInfo} {e : Nat} {pin cow : Bool} {w' : World} {c : Commit}
    (hwf : Wf rank w) (hn : w.node pid = some n) (hst : fi.state = none)
    (hbr : n.branch = false) (heP : e ≤ PAGE_SIZE) (hal : w.allocFail w.nextFrame = false)
    (hget : FrameInfo.get w pid idx fi n.branch (some e) pin cow = (w', .ok c)) :
    StepOut rank w w' ∧
    (∀ p i, ¬ w'.entry p i = w.entry p i → p = pid ∧ i = idx) ∧
    WriteOut w' 1 pid idx e c := by
  rw [hbr, get_leaf_none_write w pid idx fi e pin cow hst hal] at hget
  have hw' : w' = (w.allocFrame fun _ => 0).setEntry pid idx
      { state := some (.shared w.nextFrame e), dirty := true,
        pin := fi.pin + (if pin then 1 else 0) } := (congrArg Prod.fst hget).symm
  have hcc : c = .sharedC w.nextFrame e := by
    have := congrArg Prod.snd hget
    simpa using this.symm
  subst hw'
  subst hcc
  have hna : (w.allocFrame fun _ => 0).node pid = some n := by
    rw [node_allocFrame]; exact hn
  have hwf' : Wf rank ((w.allocFrame fun _ => 0).setEntry pid idx
      { state := some (.shared w.nextFrame e), dirty := true,
        pin := fi.pin + (if pin then 1 else 0) }) := by
    refine wf_setEntry (wf_allocFrame hwf _) hna idx _ ?_
    intro s hs
    simp only [Option.some.injEq] at hs
    subst hs
    refine ⟨by simp only [FrameState.fid]; rw [nextFrame_allocFrame]; omega, heP, Or.inr ?_⟩
    exact entryFree_allocFrame (entryFree_of_le hwf (Nat.le_refl _)) _
  refine ⟨(StepOut_allocFrame hwf _).stepTrans (StepOut_setEntry hwf'), ?_, ?_⟩
  · intro p i hne
    rw [entry_setEntry hna, entry_allocFrame] at hne
    by_cases hcnd : pid = p ∧ idx = i
    · exact ⟨hcnd.1.symm, hcnd.2.symm⟩
    · rw [if_neg hcnd] at hne
      exact absurd rfl hne
  · refine ⟨Nat.le_refl _, heP, ?_, ?_⟩
    · rw [nextFrame_setEntry, nextFrame_allocFrame]; omega
    · apply RecF_hit_setEntry hna idx
      · rfl
      · rfl
      · rfl
      · exact Or.inl hbr

set_option maxHeartbeats 1000000 in
theorem get_takeover_bundle {rank : Nat → Nat} {w : World} {pid idx : Nat} {n : PhysNode}
    {fi : FrameInfo} {f R : Nat} {e : Nat} {pin cow : Bool} {w' : World} {c : Commit}
    (hwf : Wf rank w) (hn : w.node pid = some n) (hl : lookupA n.frames idx = some fi)
    (hst : fi.state = some (.unique f R)) (hbr : n.branch = true)
    (hRP : R ≤ PAGE_SIZE) (hflt : f < w.nextFrame)
    (hget : FrameInfo.get w pid idx fi n.branch (some e) pin cow = (w', .ok c)) :
    StepOut rank w w' ∧
    (∀ p i, ¬ w'.entry p i = w.entry p i → p = pid ∧ i = idx) ∧
    WriteOut w' 1 pid idx e c := by
  rw [hbr, get_branch_takeover w pid idx fi (some e) pin cow hst] at hget
  have hw' : w' = w.eraseEntry pid idx := (congrArg Prod.fst hget).symm
  have hcc : c = .uniqueC { FrameInfo.new f R with pin := fi.pin } := by
    have := congrArg Prod.snd hget
    simpa using this.symm
  subst hw'
  subst hcc
  have hwf' : Wf rank (w.eraseEntry pid idx) := wf_eraseEntry hwf hn idx
  refine ⟨⟨hwf', fun p => skelOf_eraseEntry w pid idx p, ?_, ?_, ?_, ?_, ?_⟩, ?_, ?_⟩
  · rw [nextFrame_eraseEntry]
  · intro g k hg; rw [frames_eraseEntry]
  · unfold World.eraseEntry
    cases lookupA w.physs pid <;> rfl
  · unfold World.eraseEntry
    cases lookupA w.physs pid <;> rfl
  · rw [allocFail_eraseEntry]
  · intro p i hne
    rw [entry_eraseEntry hn (hwf.keysF pid n hn)] at hne
    by_cases hcnd : pid = p ∧ idx = i
    · exact ⟨hcnd.1.symm, hcnd.2.symm⟩
    · rw [if_neg hcnd] at hne
      exact absurd rfl hne
  · refine ⟨f, R, rfl, hRP, ?_, ?_⟩
    · rw [nextFrame_eraseEntry]; exact hflt
    · have := entryFree_after_erase hwf hn hl hst
      simpa using this


theorem mod_lift {rank : Nat → Nat} {w : World} {m pid : Nat} {node : PhysNode}
    {pp s : Nat} {t : Option Nat} (hwf : Wf rank w) (hn : w.node pid = some node)
    (hpar : node.parent = some (.phys pp s t)) {p d : Nat}
    (hanc : ancOff m w pp p = some d) : ancOff (m + 1) w pid p = some (d + s) := by
  have hne : ¬ pid = p := by
    intro he
    subst he
    have h1 := ancOff_rank_le hwf hanc
    have h2 := hwf.parentRank pid node pp s t hn hpar
    omega
  rw [ancOff_step hne hn, hpar]
  simp only [Option.map_eq_some']
  exact ⟨d, hanc, rfl⟩

set_option maxHeartbeats 3200000 in
/-- The write-commit bundle: a successful `commit_impl` with a write
request preserves well-formedness and the heap skeleton, allocates only
fresh frames, modifies page tables only along the index's ancestor path,
and delivers a bounded, recorded (or installable) resolution. -/
theorem commit_write_bundle {rank : Nat → Nat} : ∀ {F : Nat} {w : World} {pid idx e : Nat}
    {pin cow0 : Bool} {w' : World} {c : Commit},
    Wf rank w → e ≤ PAGE_SIZE →
    Phys.commitImpl w F pid idx (some e) pin cow0 = (w', .ok c) →
    (StepOut rank w w' ∧
      (∀ p i, ¬ w'.entry p i = w.entry p i →
        ∃ d, ancOff F w pid p = some d ∧ i = d + idx)) ∧
    WriteOut w' F pid idx e c := by
  intro F
  induction F with
  | zero =>
    intro w pid idx e pin cow0 w' c hwf heP hc
    unfold Phys.commitImpl at hc
    exact absurd (congrArg Prod.snd hc) (by simp)
  | succ m ih =>
    intro w pid idx e pin cow0 w' c hwf heP hc
    unfold Phys.commitImpl at hc
    cases hn : w.node pid with
    | none =>
      rw [hn] at hc
      simp only at hc
      exact absurd (congrArg Prod.snd hc) (by simp)
    | some node =>
      rw [hn] at hc
      simp only at hc
      cases hl : lookupA node.frames idx with
      | some fi =>
        rw [hl] at hc
        simp only at hc
        have hlift : (StepOut rank w w' ∧
              (∀ p i, ¬ w'.entry p i = w.entry p i → p = pid ∧ i = idx)) ∧
            WriteOut w' 1 pid idx e c →
            (StepOut rank w w' ∧
              (∀ p i, ¬ w'.entry p i = w.entry p i →
                ∃ d, ancOff (m + 1) w pid p = some d ∧ i = d + idx)) ∧
            WriteOut w' (m + 1) pid idx e c := by
          rintro ⟨⟨hstep, hmod⟩, hwo⟩
          refine ⟨⟨hstep, ?_⟩, WriteOut_mono hwo (by omega)⟩
          intro p i hne
          obtain ⟨rfl, rfl⟩ := hmod p i hne
          exact ⟨0, ancOff_self w p m, by omega⟩
        cases hst : fi.state with
        | none =>
          cases hbr2 : node.branch with
          | true =>
            rw [hbr2] at hc
            have herr := get_branch_stateNone w pid idx fi (some e) pin
              (node.cow || cow0) hst
            rw [hc] at herr
            simp at herr
          | false =>
            cases hal : w.allocFail w.nextFrame with
            | true =>
              rw [hbr2] at hc
              have herr := get_leaf_none_enomem w pid idx fi e pin
                (node.cow || cow0) hst hal
              rw [hc] at herr
              simp at herr
            | false =>
              obtain ⟨hstep, hmod, hwo⟩ := get_none_leaf_bundle hwf hn hst hbr2 heP hal hc
              exact hlift ⟨⟨hstep, hmod⟩, hwo⟩
        | some st =>
          cases st with
          | shared f R =>
            have hRP : R ≤ PAGE_SIZE := hwf.lenLe pid node idx fi _ hn hl hst
            have hflt : f < w.nextFrame := hwf.fidLt pid node idx fi _ hn hl hst
            obtain ⟨hstep, hmod, hwo⟩ := get_shared_bundle hwf hn hl hst hRP heP hflt hc
            exact hlift ⟨⟨hstep, hmod⟩, hwo⟩
          | unique f R =>
            have hRP : R ≤ PAGE_SIZE := hwf.lenLe pid node idx fi _ hn hl hst
            have hflt : f < w.nextFrame := hwf.fidLt pid node idx fi _ hn hl hst
            cases hbr2 : node.branch with
            | false =>
              obtain ⟨hstep, hmod, hwo⟩ :=
                get_unique_leaf_bundle hwf hn hl hst hbr2 hRP heP hflt hc
              exact hlift ⟨⟨hstep, hmod⟩, hwo⟩
            | true =>
              obtain ⟨hstep, hmod, hwo⟩ :=
                get_takeover_bundle hwf hn hl hst hbr2 hRP hflt hc
              exact hlift ⟨⟨hstep, hmod⟩, hwo⟩
      | none =>
        rw [hl] at hc
        simp only at hc
        have hlift0 : ∀ v : World,
            (StepOut rank (w.allocFrame fun _ => 0) v ∧
              (∀ p i, ¬ v.entry p i = (w.allocFrame fun _ => 0).entry p i →
                p = pid ∧ i = idx) ∧
            WriteOut v 1 pid idx e c) →
            v = w' →
            (StepOut rank w w' ∧
              (∀ p i, ¬ w'.entry p i = w.entry p i →
                ∃ d, ancOff (m + 1) w pid p = some d ∧ i = d + idx)) ∧
            WriteOut w' (m + 1) pid idx e c := by
          intro v hv heq
          obtain ⟨hstep, hmod, hwo⟩ := hv
          subst heq
          refine ⟨⟨(StepOut_allocFrame hwf _).stepTrans hstep, ?_⟩,
            WriteOut_mono hwo (by omega)⟩
          intro p i hne
          have hne2 : ¬ v.entry p i = (w.allocFrame fun _ => 0).entry p i := by
            rw [entry_allocFrame]
            exact hne
          obtain ⟨rfl, rfl⟩ := hmod p i hne2
          exact ⟨0, ancOff_self w p m, by omega⟩
        cases hpar : node.parent with
        | none =>
          rw [hpar] at hc
          simp only at hc
          cases hal : w.allocFail w.nextFrame with
          | true =>
            have hfn : frameNew w = .error .ENOMEM := by
              unfold frameNew
              rw [hal]
              rfl
            rw [hfn] at hc
            simp only at hc
            exact absurd (congrArg Prod.snd hc) (by simp)
          | false =>
            have hfn : frameNew w = .ok (w.nextFrame, w.allocFrame fun _ => 0) := by
              unfold frameNew World.allocFrame
              rw [hal]
              rfl
            rw [hfn] at hc
            simp only at hc
            have hna : (w.allocFrame fun _ => 0).node pid = some node := by
              rw [node_allocFrame]; exact hn
            refine hlift0 _ ?_ rfl
            refine install_get_bundle (wf_allocFrame hwf _) hna rfl heP heP ?_ ?_ hc
            · rw [nextFrame_allocFrame]; omega
            · exact entryFree_allocFrame (entryFree_of_le hwf (Nat.le_refl _)) _
        | some par =>
          cases par with
          | backend =>
            rw [hpar] at hc
            simp only at hc
            cases hal : w.allocFail w.nextFrame with
            | true =>
              have hfn : frameNew w = .error .ENOMEM := by
                unfold frameNew
                rw [hal]
                rfl
              rw [hfn] at hc
              simp only at hc
              exact absurd (congrArg Prod.snd hc) (by simp)
            | false =>
              have hfn : frameNew w = .ok (w.nextFrame,
                  { w with
                    frames := fun g => if g = w.nextFrame then (fun _ => 0) else w.frames g,
                    nextFrame := w.nextFrame + 1 }) := by
                unfold frameNew
                rw [hal]
                rfl
              rw [hfn] at hc
              simp only at hc
              rw [backendFill_after_new] at hc
              simp only at hc
              have hna : (w.allocFrame fun k =>
                  if k < min PAGE_SIZE (w.backendLen - (idx <<< PAGE_SHIFT)) then
                    w.backend ((idx <<< PAGE_SHIFT) + k)
                  else 0).node pid = some node := by
                rw [node_allocFrame]; exact hn
              have hlen0 : min PAGE_SIZE (w.backendLen - (idx <<< PAGE_SHIFT)) ≤ PAGE_SIZE := by
                omega
              obtain ⟨hstep, hmod, hwo⟩ :=
                install_get_bundle (wf_allocFrame hwf _) hna rfl hlen0 heP
                  (by rw [nextFrame_allocFrame]; omega)
                  (entryFree_allocFrame (entryFree_of_le hwf (Nat.le_refl _)) _) hc
              refine ⟨⟨(StepOut_allocFrame hwf _).stepTrans hstep, ?_⟩,
                WriteOut_mono hwo (by omega)⟩
              intro p i hne
              have hne2 : ¬ w'.entry p i = (w.allocFrame fun k =>
                  if k < min PAGE_SIZE (w.backendLen - (idx <<< PAGE_SHIFT)) then
                    w.backend ((idx <<< PAGE_SHIFT) + k)
                  else 0).entry p i := by
                rw [entry_allocFrame]
                exact hne
              obtain ⟨rfl, rfl⟩ := hmod p i hne2
              exact ⟨0, ancOff_self w p m, by omega⟩
          | phys pp s t =>
            rw [hpar] at hc
            simp only at hc
            cases hwin : (t.elim true fun st => decide (idx < st - s)) with
            | false =>
              rw [hwin] at hc
              simp only [Bool.false_eq_true, if_false] at hc
              cases hal : w.allocFail w.nextFrame with
              | true =>
                have hfn : frameNew w = .error .ENOMEM := by
                  unfold frameNew
                  rw [hal]
                  rfl
                rw [hfn] at hc
                simp only at hc
                exact absurd (congrArg Prod.snd hc) (by simp)
              | false =>
                have hfn : frameNew w = .ok (w.nextFrame, w.allocFrame fun _ => 0) := by
                  unfold frameNew World.allocFrame
                  rw [hal]
                  rfl
                rw [hfn] at hc
                simp only at hc
                have hna : (w.allocFrame fun _ => 0).node pid = some node := by
                  rw [node_allocFrame]; exact hn
                refine hlift0 _ ?_ rfl
                refine install_get_bundle (wf_allocFrame hwf _) hna rfl heP heP ?_ ?_ hc
                · rw [nextFrame_allocFrame]; omega
                · exact entryFree_allocFrame (entryFree_of_le hwf (Nat.le_refl _)) _
            | true =>
              rw [hwin] at hc
              simp only [if_true] at hc
              rcases hq : Phys.commitImpl w m pp (s + idx) (some e) pin
                (node.cow || cow0) with ⟨w1, r⟩
              rw [hq] at hc
              cases r with
              | error er =>
                simp only at hc
                exact absurd (congrArg Prod.snd hc) (by simp)
              | ok c1 =>
                obtain ⟨⟨hstep1, hmod1⟩, hwo1⟩ := ih hwf heP hq
                have hmodL : ∀ p i, ¬ w1.entry p i = w.entry p i →
                    ∃ d, ancOff (m + 1) w pid p = some d ∧ i = d + idx := by
                  intro p i hne
                  obtain ⟨d, hanc, hi⟩ := hmod1 p i hne
                  exact ⟨d + s, mod_lift hwf hn hpar hanc, by omega⟩
                cases c1 with
                | sharedC f l =>
                  simp only at hc
                  have hw1 : w1 = w' := congrArg Prod.fst hc
                  have hcc : c = .sharedC f l := by
                    have := congrArg Prod.snd hc
                    simpa using this.symm
                  subst hw1
                  subst hcc
                  obtain ⟨hle, hlP, hflt, hrec⟩ := hwo1
                  refine ⟨⟨hstep1, hmodL⟩, hle, hlP, hflt, ?_⟩
                  have hnone1 : w1.entry pid idx = none := by
                    by_cases hch : w1.entry pid idx = w.entry pid idx
                    · rw [hch, entry_ext hn]
                      exact hl
                    · obtain ⟨d, hanc, hi⟩ := hmod1 pid idx hch
                      have h1 := ancOff_rank_le hwf hanc
                      have h2 := hwf.parentRank pid node pp s t hn hpar
                      omega
                  obtain ⟨n1, hn1, hbr1, hpar1, -, -, -⟩ := node_of_skel hstep1.skel hn
                  unfold RecF
                  right
                  refine ⟨hnone1, n1, pp, s, t, hn1, by rw [hpar1]; exact hpar, ?_, hrec⟩
                  cases t with
                  | none => exact trivial
                  | some st =>
                    simp only [Option.elim] at hwin ⊢
                    exact of_decide_eq_true hwin
                | uniqueC fi' =>
                  simp only at hc
                  obtain ⟨f2, l2, hstQ, hl2P, hf2, hfree⟩ := hwo1
                  obtain ⟨n1, hn1, hbr1, hpar1, -, -, -⟩ := node_of_skel hstep1.skel hn
                  rw [show node.branch = n1.branch from hbr1.symm] at hc
                  obtain ⟨hstep2, hmod2, hwo2⟩ :=
                    install_get_bundle hstep1.wf hn1 hstQ hl2P heP hf2 hfree hc
                  refine ⟨⟨hstep1.stepTrans hstep2, ?_⟩, WriteOut_mono hwo2 (by omega)⟩
                  intro p i hne
                  by_cases hch : w'.entry p i = w1.entry p i
                  · rw [hch] at hne
                    exact hmodL p i hne
                  · obtain ⟨rfl, rfl⟩ := hmod2 p i hch
                    exact ⟨0, ancOff_self w p m, by omega⟩


/-! The `Phys.commit` wrapper on the write path, and phase-level world
invariants (`StepOut` without the frame-content clause, which page blits
do not respect). -/

theorem commit_write_ok {rank : Nat → Nat} {F : Nat} {w : World} {pid idx e : Nat}
    {pin : Bool} {w' : World} {f l : Nat} (hwf : Wf rank w) (heP : e ≤ PAGE_SIZE)
    (hc : Phys.commit w F pid idx (some e) pin = (w', .ok (f, l))) :
    StepOut rank w w' ∧
    (∀ p i, ¬ w'.entry p i = w.entry p i → ∃ d, ancOff F w pid p = some d ∧ i = d + idx) ∧
    e ≤ l ∧ l ≤ PAGE_SIZE ∧ f < w'.nextFrame ∧ RecF F w' pid idx f l ∧
    (∃ node, w.node pid = some node ∧ node.branch = false) := by
  unfold Phys.commit at hc
  cases hn : w.node pid with
  | none =>
    rw [hn] at hc
    exact absurd (congrArg Prod.snd hc) (by simp)
  | some node =>
    rw [hn] at hc
    simp only at hc
    cases hbr : node.branch with
    | true =>
      rw [hbr] at hc
      simp only [if_true] at hc
      exact absurd (congrArg Prod.snd hc) (by simp)
    | false =>
      rw [hbr] at hc
      simp only [Bool.false_eq_true, if_false] at hc
      rcases hq : Phys.commitImpl w F pid idx (some e) pin node.cow with ⟨w1, r⟩
      rw [hq] at hc
      cases r with
      | error er =>
        simp only at hc
        exact absurd (congrArg Prod.snd hc) (by simp)
      | ok c1 =>
        cases c1 with
        | uniqueC fi' =>
          simp only at hc
          exact absurd (congrArg Prod.snd hc) (by simp)
        | sharedC f0 l0 =>
          simp only at hc
          have hw1 : w1 = w' := congrArg Prod.fst hc
          have hfl : f0 = f ∧ l0 = l := by
            have := congrArg Prod.snd hc
            simpa using this
          obtain ⟨rfl, rfl⟩ := hfl
          subst hw1
          obtain ⟨⟨hstep, hmod⟩, hwo⟩ := commit_write_bundle hwf heP hq
          obtain ⟨h1, h2, h3, h4⟩ := hwo
          exact ⟨hstep, hmod, h1, h2, h3, h4, ⟨node, rfl, hbr⟩⟩

theorem StepOut.phase {rank : Nat → Nat} {w w' : World} (h : StepOut rank w w') :
    PhaseOut rank w w' :=
  ⟨h.wf, h.skel, h.nfMono, h.backend, h.backendLen, h.allocFail⟩

theorem PhaseOut.phaseTrans {rank : Nat → Nat} {w1 w2 w3 : World}
    (h1 : PhaseOut rank w1 w2) (h2 : PhaseOut rank w2 w3) : PhaseOut rank w1 w3 :=
  ⟨h2.wf, fun p => (h2.skel p).trans (h1.skel p), Nat.le_trans h1.nfMono h2.nfMono,
    h2.backend.trans h1.backend, h2.backendLen.trans h1.backendLen,
    h2.allocFail.trans h1.allocFail⟩

theorem PhaseOut_blit {rank : Nat → Nat} {w : World} (hwf : Wf rank w) (f : Nat)
    (buf : List Nat) (start len : Nat) : PhaseOut rank w (w.blit f buf start len) :=
  ⟨wf_blit hwf f buf start len, fun p => rfl, Nat.le_refl _, rfl, rfl, rfl⟩

/-- `RecF` only depends on the node heap. -/
theorem RecF_node_eq : ∀ {F : Nat} {w v : World} {pid idx f l : Nat},
    (∀ p, v.node p = w.node p) → RecF F w pid idx f l → RecF F v pid idx f l := by
  intro F
  induction F with
  | zero => intro w v pid idx f l _ h; exact absurd h (by simp [RecF])
  | succ m ih =>
    intro w v pid idx f l hnode h
    unfold RecF at h ⊢
    rcases h with ⟨n, fi, s, hn, hl, hs, hf, hlen, hbr⟩ |
      ⟨hnone, n, pp, s, t, hn, hpar, hwin, hrec⟩
    · exact Or.inl ⟨n, fi, s, by rw [hnode]; exact hn, hl, hs, hf, hlen, hbr⟩
    · refine Or.inr ⟨?_, n, pp, s, t, by rw [hnode]; exact hn, hpar, hwin, ih hnode hrec⟩
      unfold World.entry at hnone ⊢
      rw [hnode]
      exact hnone

theorem RecF_blit {F : Nat} {w : World} {pid idx f l : Nat} (g : Nat) (buf : List Nat)
    (start len : Nat) (h : RecF F w pid idx f l) :
    RecF F (w.blit g buf start len) pid idx f l :=
  RecF_node_eq (fun p => node_blit w g buf start len p) h

theorem listGetD_drop (l : List Nat) (a b : Nat) :
    (l.drop a).getD b 0 = l.getD (a + b) 0 := by
  unfold List.getD
  rw [List.get?_drop]


theorem PAGE_SIZE_pos : 0 < PAGE_SIZE := by decide

set_option maxHeartbeats 3200000 in
/-- The tail loop of `Phys::write_at`: each page is committed with a write
request and blitted; the bundle tracks phase invariants, the modified
key range, the returned count, untouched frame contents, and the
per-page recorded resolutions with their blitted bytes. -/
theorem writeRest_bundle {rank : Nat → Nat} : ∀ (cnt : Nat) {F : Nat} {w : World}
    {pid idx eo : Nat} {buf : List Nat} {acc : Nat} {w' : World} {res : Nat},
    Wf rank w →
    Phys.writeRest F pid eo w idx cnt buf acc = (w', .ok res) →
    buf.length = cnt * PAGE_SIZE + eo → 0 < eo → eo ≤ PAGE_SIZE →
    PhaseOut rank w w' ∧
    (∀ p i, ¬ w'.entry p i = w.entry p i →
      ∃ d j, ancOff F w pid p = some d ∧ idx ≤ j ∧ j ≤ idx + cnt ∧ i = d + j) ∧
    res = acc + buf.length ∧
    (∀ g k, g < w.nextFrame →
      (∀ j f0 l0, idx ≤ j → j ≤ idx + cnt → RecF F w' pid j f0 l0 → ¬ g = f0) →
      w'.frames g k = w.frames g k) ∧
    (∀ j, j ≤ cnt → ∃ f l, RecF F w' pid (idx + j) f l ∧
      (if j < cnt then l = PAGE_SIZE else eo ≤ l) ∧
      (∀ k, k < (if j < cnt then PAGE_SIZE else eo) →
        w'.frames f k = buf.getD (j * PAGE_SIZE + k) 0)) := by
  intro cnt
  induction cnt with
  | zero =>
    intro F w pid idx eo buf acc w' res hwf hwr hlen heo heoP
    unfold Phys.writeRest at hwr
    rcases hq : Phys.commit w F pid idx (some eo) false with ⟨w1, r⟩
    rw [hq] at hwr
    cases r with
    | error er =>
      simp only at hwr
      exact absurd (congrArg Prod.snd hwr) (by simp)
    | ok fl =>
      obtain ⟨f, l⟩ := fl
      simp only at hwr
      obtain ⟨hstep, hmod, hle, hlP, hflt, hrec, node0, hn0, hbr0⟩ :=
        commit_write_ok hwf heoP hq
      have hlen0 : buf.length = eo := by omega
      have hbufne : buf ≠ [] := by
        intro h
        rw [h] at hlen0
        simp at hlen0
        omega
      have hcp := copyToFrame_all f w1 buf 0 eo hbufne (by omega)
      rw [hcp] at hwr
      simp only at hwr
      have hw' : w1.blit f buf 0 buf.length = w' := congrArg Prod.fst hwr
      have hres : res = acc + buf.length := by
        have := congrArg Prod.snd hwr
        simpa using this.symm
      subst hw'
      refine ⟨hstep.phase.phaseTrans (PhaseOut_blit hstep.wf f buf 0 buf.length),
        ?_, hres, ?_, ?_⟩
      · intro p i hne
        rw [entry_blit] at hne
        obtain ⟨d, hanc, hi⟩ := hmod p i hne
        exact ⟨d, idx, hanc, Nat.le_refl _, by omega, hi⟩
      · intro g k hg havoid
        have hgne : ¬ g = f :=
          havoid idx f l (Nat.le_refl _) (by omega)
            (RecF_blit f buf 0 buf.length hrec)
        rw [frames_blit, if_neg (fun hc => hgne hc.1)]
        exact hstep.framesLt g k hg
      · intro j hj
        obtain rfl : j = 0 := by omega
        refine ⟨f, l, RecF_blit f buf 0 buf.length hrec, ?_, ?_⟩
        · simp only [Nat.lt_irrefl, if_false]
          exact hle
        · intro k hk
          simp only [Nat.lt_irrefl, if_false] at hk
          rw [frames_blit, if_pos ⟨rfl, by omega, by omega⟩]
          have he : k - 0 = 0 * PAGE_SIZE + k := by omega
          rw [he]
  | succ cn ih =>
    intro F w pid idx eo buf acc w' res hwf hwr hlen heo heoP
    rw [Nat.succ_mul] at hlen
    unfold Phys.writeRest at hwr
    rcases hq : Phys.commit w F pid idx (some PAGE_SIZE) false with ⟨w1, r⟩
    rw [hq] at hwr
    cases r with
    | error er =>
      simp only at hwr
      exact absurd (congrArg Prod.snd hwr) (by simp)
    | ok fl =>
      obtain ⟨f, l⟩ := fl
      simp only at hwr
      obtain ⟨hstep, hmod, hlePS, hlP, hflt, hrec, node0, hn0, hbr0⟩ :=
        commit_write_ok hwf (Nat.le_refl _) hq
      have hlPS : l = PAGE_SIZE := by omega
      have hP0 := PAGE_SIZE_pos
      have hcp := copyToFrame_fill f w1 buf 0 PAGE_SIZE (by omega) (by omega)
      rw [hcp] at hwr
      simp only [Nat.sub_zero] at hwr
      have hlen2 : (buf.drop PAGE_SIZE).length = cn * PAGE_SIZE + eo := by
        rw [List.length_drop]
        omega
      have hne2 : (buf.drop PAGE_SIZE).isEmpty = false := by
        cases hdd : buf.drop PAGE_SIZE with
        | nil =>
          rw [hdd] at hlen2
          simp at hlen2
          omega
        | cons a t => rfl
      rw [hne2] at hwr
      simp only [Bool.false_eq_true, if_false] at hwr
      have hwf2 : Wf rank (w1.blit f buf 0 PAGE_SIZE) :=
        wf_blit hstep.wf f buf 0 PAGE_SIZE
      obtain ⟨hphase2, hmod2, hres2, hexc2, hpp2⟩ :=
        ih hwf2 hwr hlen2 heo heoP
      have hskel2 : ∀ p, skelOf (w1.blit f buf 0 PAGE_SIZE) p = skelOf w p := by
        intro p
        rw [skelOf_blit]
        exact hstep.skel p
      have hanc2 : ∀ p q, ancOff F (w1.blit f buf 0 PAGE_SIZE) p q = ancOff F w p q :=
        fun p q => ancOff_skel_congr hskel2 p q
      -- the head page resolution survives the tail writes
      have hrec2 : RecF F (w1.blit f buf 0 PAGE_SIZE) pid idx f l :=
        RecF_blit f buf 0 PAGE_SIZE hrec
      have hrecW : RecF F w' pid idx f l := by
        refine RecF_persist hwf2 hrec2 hphase2.skel ?_
        intro p d hanc
        by_cases hch : w'.entry p (d + idx) = (w1.blit f buf 0 PAGE_SIZE).entry p (d + idx)
        · exact hch
        · obtain ⟨d2, j, hanc2', hj1, hj2, hi⟩ := hmod2 p (d + idx) hch
          have hdd := ancOff_det hanc2' hanc
          omega
      refine ⟨(hstep.phase.phaseTrans (PhaseOut_blit hstep.wf f buf 0 PAGE_SIZE)).phaseTrans hphase2,
        ?_, ?_, ?_, ?_⟩
      · intro p i hne
        by_cases hch : w'.entry p i = (w1.blit f buf 0 PAGE_SIZE).entry p i
        · rw [hch, entry_blit] at hne
          obtain ⟨d, hanc, hi⟩ := hmod p i hne
          exact ⟨d, idx, hanc, Nat.le_refl _, by omega, hi⟩
        · obtain ⟨d, j, hanc, hj1, hj2, hi⟩ := hmod2 p i hch
          rw [hanc2] at hanc
          exact ⟨d, j, hanc, by omega, by omega, hi⟩
      · rw [hres2, List.length_drop]
        omega
      · intro g k hg havoid
        have hgf : g < (w1.blit f buf 0 PAGE_SIZE).nextFrame := by
          rw [nextFrame_blit]
          exact Nat.lt_of_lt_of_le hg hstep.nfMono
        have htail : w'.frames g k = (w1.blit f buf 0 PAGE_SIZE).frames g k := by
          refine hexc2 g k hgf ?_
          intro j f0 l0 hj1 hj2 hr0
          exact havoid j f0 l0 (by omega) (by omega) hr0
        have hgne : ¬ g = f :=
          havoid idx f l (Nat.le_refl _) (by omega) hrecW
        rw [htail, frames_blit, if_neg (fun hc => hgne hc.1)]
        exact hstep.framesLt g k hg
      · intro j hj
        cases j with
        | zero =>
          refine ⟨f, l, hrecW, ?_, ?_⟩
          · rw [if_pos (by omega)]
            exact hlPS
          · intro k hk
            rw [if_pos (by omega)] at hk
            have hfr : w'.frames f k = (w1.blit f buf 0 PAGE_SIZE).frames f k := by
              refine hexc2 f k ?_ ?_
              · rw [nextFrame_blit]
                exact hflt
              · intro j2 f0 l0 hj1 hj2 hr0
                exact (RecF_fid_ne hphase2.wf hrecW hr0 (by omega))
            rw [hfr, frames_blit, if_pos ⟨rfl, by omega, by omega⟩]
            have he : k - 0 = 0 * PAGE_SIZE + k := by omega
            rw [he]
        | succ j' =>
          obtain ⟨f2, l2, hr2, hlif2, hcont2⟩ := hpp2 j' (by omega)
          have hidx : idx + 1 + j' = idx + (j' + 1) := by omega
          rw [hidx] at hr2
          refine ⟨f2, l2, hr2, ?_, ?_⟩
          · by_cases hjc : j' + 1 < cn + 1
            · rw [if_pos hjc]
              rw [if_pos (by omega)] at hlif2
              exact hlif2
            · rw [if_neg hjc]
              rw [if_neg (by omega)] at hlif2
              exact hlif2
          · intro k hk
            have hk2 : k < if j' < cn then PAGE_SIZE else eo := by
              by_cases hjc : j' < cn
              · rw [if_pos hjc]
                rw [if_pos (by omega)] at hk
                exact hk
              · rw [if_neg hjc]
                rw [if_neg (by omega)] at hk
                exact hk
            have := hcont2 k hk2
            rw [this, listGetD_drop]
            have he : PAGE_SIZE + (j' * PAGE_SIZE + k) = (j' + 1) * PAGE_SIZE + k := by
              rw [Nat.succ_mul]
              omega
            rw [he]


theorem range_map_getD (l : List Nat) :
    (List.range l.length).map (fun k => l.getD k 0) = l := by
  apply List.ext_getElem
  · simp
  · intro i h1 h2
    simp only [List.getElem_map, List.getElem_range]
    exact l.getD_eq_getElem 0 h2

theorem range_add_map (a b : Nat) (f : Nat → Nat) :
    (List.range (a + b)).map f =
      (List.range a).map f ++ (List.range b).map (fun m => f (a + m)) := by
  rw [List.range_add, List.map_append, List.map_map]
  rfl

/-- `offsets` in division/remainder form. -/
theorem offsets_eq (start e : Nat) :
    offsets start e =
      ((start / 2 ^ 12, start % 2 ^ 12),
        if e % 2 ^ 12 = 0 then (e / 2 ^ 12 - 1, PAGE_SIZE)
        else (e / 2 ^ 12, e % 2 ^ 12)) := by
  unfold offsets
  simp only [PAGE_SHIFT, Nat.shiftRight_eq_div_pow, Nat.shiftLeft_eq]
  have h1 : start - start / 2 ^ 12 * 2 ^ 12 = start % 2 ^ 12 := by omega
  have h2 : e - e / 2 ^ 12 * 2 ^ 12 = e % 2 ^ 12 := by omega
  rw [h1, h2]

set_option maxHeartbeats 1600000 in
/-- The tail loop of `Phys::read_at` over a world whose pages `idx..idx+cnt`
all carry recorded resolutions with known frame contents: the world is
untouched and the expected bytes are appended. -/
theorem readRest_spec : ∀ (cnt : Nat) {F : Nat} {w : World} {pid idx eo cap : Nat}
    {acc : List Nat} {vals : Nat → Nat} {node : PhysNode},
    w.node pid = some node → node.branch = false →
    cap = cnt * PAGE_SIZE + eo → 0 < eo → eo ≤ PAGE_SIZE →
    (∀ j : Nat, j ≤ cnt → ∃ f l, RecF F w pid (idx + j) f l ∧
      (if j < cnt then l = PAGE_SIZE else eo ≤ l) ∧
      (∀ k, k < (if j < cnt then PAGE_SIZE else eo) →
        w.frames f k = vals (j * PAGE_SIZE + k))) →
    Phys.readRest F pid eo w idx cnt cap acc =
      (w, .ok (acc ++ (List.range cap).map vals)) := by
  intro cnt
  induction cnt with
  | zero =>
    intro F w pid idx eo cap acc vals node hn hbr hcap heo heoP hpages
    obtain ⟨f, l, hrec, hl, hcont⟩ := hpages 0 (Nat.le_refl 0)
    rw [if_neg (Nat.lt_irrefl 0)] at hl
    rw [Nat.zero_mul] at hcap
    unfold Phys.readRest
    rw [Nat.add_zero] at hrec
    rw [commit_read_rec hn hbr hrec]
    simp only
    have hmin : min eo l = eo := by omega
    rw [hmin]
    rw [copyFromFrame_all w f cap 0 eo (by omega) (by omega)]
    simp only
    have hmap : (List.range cap).map (fun k => w.frames f (0 + k)) =
        (List.range cap).map vals := by
      apply List.map_congr_left
      intro k hk
      rw [List.mem_range] at hk
      rw [Nat.zero_add]
      have := hcont k (by rw [if_neg (Nat.lt_irrefl 0)]; omega)
      rw [Nat.zero_mul, Nat.zero_add] at this
      exact this
    rw [hmap]
  | succ cn ih =>
    intro F w pid idx eo cap acc vals node hn hbr hcap heo heoP hpages
    rw [Nat.succ_mul] at hcap
    obtain ⟨f, l, hrec0, hl0, hcont0⟩ := hpages 0 (by omega)
    rw [if_pos (Nat.succ_pos cn)] at hl0
    subst hl0
    unfold Phys.readRest
    rw [Nat.add_zero] at hrec0
    rw [commit_read_rec hn hbr hrec0]
    simp only
    have hP0 := PAGE_SIZE_pos
    rw [copyFromFrame_fill w f cap 0 PAGE_SIZE (by omega) (by omega)]
    simp only
    rw [if_neg (by omega)]
    have hcap2 : cap - (PAGE_SIZE - 0) = cn * PAGE_SIZE + eo := by omega
    have hpages2 : ∀ j : Nat, j ≤ cn → ∃ f2 l2,
        RecF F w pid (idx + 1 + j) f2 l2 ∧
        (if j < cn then l2 = PAGE_SIZE else eo ≤ l2) ∧
        (∀ k, k < (if j < cn then PAGE_SIZE else eo) →
          w.frames f2 k = (fun m => vals (PAGE_SIZE + m)) (j * PAGE_SIZE + k)) := by
      intro j hj
      obtain ⟨f2, l2, hr2, hlif, hcont⟩ := hpages (j + 1) (by omega)
      have he : idx + (j + 1) = idx + 1 + j := by omega
      rw [he] at hr2
      refine ⟨f2, l2, hr2, ?_, ?_⟩
      · by_cases hjc : j < cn
        · rw [if_pos hjc]
          rw [if_pos (by omega)] at hlif
          exact hlif
        · rw [if_neg hjc]
          rw [if_neg (by omega)] at hlif
          exact hlif
      · intro k hk
        have hk2 : k < if j + 1 < cn + 1 then PAGE_SIZE else eo := by
          by_cases hjc : j < cn
          · rw [if_pos (by omega)]
            rw [if_pos hjc] at hk
            exact hk
          · rw [if_neg (by omega)]
            rw [if_neg hjc] at hk
            exact hk
        rw [hcont k hk2]
        show vals ((j + 1) * PAGE_SIZE + k) = vals (PAGE_SIZE + (j * PAGE_SIZE + k))
        have he2 : (j + 1) * PAGE_SIZE + k = PAGE_SIZE + (j * PAGE_SIZE + k) := by
          rw [Nat.succ_mul]
          omega
        rw [he2]
    rw [@ih _ _ _ _ _ _ _ (fun m => vals (PAGE_SIZE + m)) _ hn hbr hcap2 heo heoP hpages2]
    have hbs : (List.range (PAGE_SIZE - 0)).map (fun k => w.frames f (0 + k)) =
        (List.range PAGE_SIZE).map vals := by
      rw [Nat.sub_zero]
      apply List.map_congr_left
      intro k hk
      rw [List.mem_range] at hk
      rw [Nat.zero_add]
      have := hcont0 k (by rw [if_pos (Nat.succ_pos cn)]; exact hk)
      rw [Nat.zero_mul, Nat.zero_add] at this
      exact this
    have hsplit : (List.range cap).map vals =
        (List.range PAGE_SIZE).map vals
          ++ (List.range (cap - (PAGE_SIZE - 0))).map (fun m => vals (PAGE_SIZE + m)) := by
      have hc : cap = PAGE_SIZE + (cap - (PAGE_SIZE - 0)) := by omega
      conv_lhs => rw [hc]
      exact range_add_map _ _ _
    rw [hbs, hsplit, List.append_assoc]


set_option maxHeartbeats 3200000 in
/-- C1: write-then-read round trip. For every Phys in a well-formed world,
every offset and byte list, a successful `write_at(o, bytes)` is followed by
`read_at(o, bytes.len())` returning exactly `bytes` (and leaving the world
unchanged). -/
theorem claim_C1_write_then_read {rank : Nat → Nat} {F : Nat} {w : World} {pid o : Nat}
    {bytes : List Nat} {w' : World} {n : Nat} (hwf : Wf rank w)
    (hw : Phys.write_at w F pid o bytes = (w', .ok n)) :
    Phys.read_at w' F pid o bytes.length = (w', .ok bytes) := by
  have hPS : PAGE_SIZE = 2 ^ 12 := rfl
  have hP0 := PAGE_SIZE_pos
  unfold Phys.write_at at hw
  by_cases hov : 2 ^ 64 ≤ o + bytes.length
  · rw [if_pos hov] at hw
    exact absurd (congrArg Prod.snd hw) (by simp)
  rw [if_neg hov] at hw
  by_cases h0 : bytes.length = 0
  · rw [if_pos h0] at hw
    have hb : bytes = [] := List.length_eq_zero.mp h0
    unfold Phys.read_at
    rw [if_neg (by omega), if_pos h0, hb]
  rw [if_neg h0, offsets_eq] at hw
  obtain ⟨ep, eo, hpair, heo0, heoP, hEsum, hsple⟩ :
      ∃ ep eo, (if (o + bytes.length) % 2 ^ 12 = 0
          then ((o + bytes.length) / 2 ^ 12 - 1, PAGE_SIZE)
          else ((o + bytes.length) / 2 ^ 12, (o + bytes.length) % 2 ^ 12)) = (ep, eo) ∧
        0 < eo ∧ eo ≤ 2 ^ 12 ∧ o + bytes.length = ep * 2 ^ 12 + eo ∧
        o / 2 ^ 12 ≤ ep := by
    by_cases hE : (o + bytes.length) % 2 ^ 12 = 0
    · exact ⟨_, _, if_pos hE, by omega, Nat.le_refl _, by omega, by omega⟩
    · exact ⟨_, _, if_neg hE, by omega, by omega, by omega, by omega⟩
  rw [hpair] at hw
  simp only at hw
  by_cases hsp : o / 2 ^ 12 = ep
  · -- single-page write and read
    rw [if_pos hsp] at hw
    rw [← hsp] at hEsum
    have hLlen : bytes.length = eo - o % 2 ^ 12 := by omega
    rcases hq : Phys.commit w F pid (o / 2 ^ 12) (some eo) false with ⟨w1, r⟩
    rw [hq] at hw
    cases r with
    | error er =>
      simp only at hw
      exact absurd (congrArg Prod.snd hw) (by simp)
    | ok fl =>
      obtain ⟨f, l⟩ := fl
      simp only at hw
      obtain ⟨hstep, hmod, hle, hlP, hflt, hrec, node0, hn0, hbr0⟩ :=
        commit_write_ok hwf heoP hq
      have hne : bytes ≠ [] := by
        intro hh
        rw [hh] at h0
        exact h0 rfl
      rw [copyToFrame_all f w1 bytes (o % 2 ^ 12) eo hne (by omega)] at hw
      simp only at hw
      have hw'eq : w1.blit f bytes (o % 2 ^ 12) bytes.length = w' :=
        congrArg Prod.fst hw
      subst hw'eq
      unfold Phys.read_at
      rw [if_neg hov, if_neg h0, offsets_eq, hpair]
      simp only
      rw [if_pos hsp]
      have hskelW : ∀ p, skelOf (w1.blit f bytes (o % 2 ^ 12) bytes.length) p =
          skelOf w p := by
        intro p
        rw [skelOf_blit]
        exact hstep.skel p
      obtain ⟨nodeW, hnW, hbrW, -, -, -, -⟩ := node_of_skel hskelW hn0
      rw [hbr0] at hbrW
      rw [commit_read_rec hnW hbrW (RecF_blit f bytes (o % 2 ^ 12) bytes.length hrec)]
      simp only
      have hmin : min eo l = eo := by omega
      rw [hmin]
      rw [copyFromFrame_all _ f bytes.length (o % 2 ^ 12) eo (by omega) (by omega)]
      simp only
      have hmap : (List.range bytes.length).map
          (fun k => (w1.blit f bytes (o % 2 ^ 12) bytes.length).frames f (o % 2 ^ 12 + k)) =
          bytes := by
        conv_rhs => rw [← range_map_getD bytes]
        apply List.map_congr_left
        intro k hk
        rw [List.mem_range] at hk
        rw [frames_blit, if_pos ⟨rfl, by omega, by omega⟩]
        congr 1
        omega
      rw [hmap]
  · -- multi-page write and read
    rw [if_neg hsp] at hw
    have hsplt : o / 2 ^ 12 < ep := by omega
    obtain ⟨cnt, hcnt⟩ := Nat.exists_eq_add_of_lt hsplt
    have hcnt2 : ep - (o / 2 ^ 12 + 1) = cnt := by omega
    rw [hcnt2] at hw
    rw [hcnt] at hEsum
    rcases hq : Phys.commit w F pid (o / 2 ^ 12) (some PAGE_SIZE) false with ⟨w1, r⟩
    rw [hq] at hw
    cases r with
    | error er =>
      simp only at hw
      exact absurd (congrArg Prod.snd hw) (by simp)
    | ok fl =>
      obtain ⟨f, l⟩ := fl
      simp only at hw
      obtain ⟨hstep, hmod, hle, hlP, hflt, hrec, node0, hn0, hbr0⟩ :=
        commit_write_ok hwf (Nat.le_refl _) hq
      have hl : l = PAGE_SIZE := by omega
      subst hl
      rw [copyToFrame_fill f w1 bytes (o % 2 ^ 12) PAGE_SIZE (by omega) (by omega)] at hw
      simp only at hw
      have hne2 : (bytes.drop (PAGE_SIZE - o % 2 ^ 12)).isEmpty = false := by
        cases hdd : bytes.drop (PAGE_SIZE - o % 2 ^ 12) with
        | nil =>
          have hdl := congrArg List.length hdd
          rw [List.length_drop] at hdl
          simp at hdl
          omega
        | cons a t => rfl
      rw [hne2] at hw
      simp only [Bool.false_eq_true, if_false] at hw
      have hwf2 : Wf rank (w1.blit f bytes (o % 2 ^ 12) (PAGE_SIZE - o % 2 ^ 12)) :=
        wf_blit hstep.wf f bytes (o % 2 ^ 12) (PAGE_SIZE - o % 2 ^ 12)
      have hlen2 : (bytes.drop (PAGE_SIZE - o % 2 ^ 12)).length =
          cnt * PAGE_SIZE + eo := by
        rw [List.length_drop, hPS]
        omega
      obtain ⟨hphase2, hmod2, hres2, hexc2, hpp2⟩ :=
        writeRest_bundle cnt hwf2 hw hlen2 heo0 heoP
      -- the head page resolution survives the tail writes
      have hrecW : RecF F w' pid (o / 2 ^ 12) f PAGE_SIZE := by
        refine RecF_persist hwf2
          (RecF_blit f bytes (o % 2 ^ 12) (PAGE_SIZE - o % 2 ^ 12) hrec)
          hphase2.skel ?_
        intro p d hanc
        by_cases hch : w'.entry p (d + o / 2 ^ 12) =
            (w1.blit f bytes (o % 2 ^ 12) (PAGE_SIZE - o % 2 ^ 12)).entry p (d + o / 2 ^ 12)
        · exact hch
        · obtain ⟨d2, j, hanc2, hj1, hj2, hi⟩ := hmod2 p _ hch
          have hdd := ancOff_det hanc2 hanc
          omega
      have hwfW : Wf rank w' := hphase2.wf
      have hheadcont : ∀ k, o % 2 ^ 12 ≤ k → k < PAGE_SIZE →
          w'.frames f k = bytes.getD (k - o % 2 ^ 12) 0 := by
        intro k hk1 hk2
        have hfr : w'.frames f k =
            (w1.blit f bytes (o % 2 ^ 12) (PAGE_SIZE - o % 2 ^ 12)).frames f k := by
          refine hexc2 f k ?_ ?_
          · rw [nextFrame_blit]
            exact hflt
          · intro j f0 l0 hj1 hj2 hr0
            exact RecF_fid_ne hwfW hrecW hr0 (by omega)
        rw [hfr, frames_blit, if_pos ⟨rfl, hk1, by omega⟩]
      have hskelW : ∀ p, skelOf w' p = skelOf w p := by
        intro p
        rw [hphase2.skel p, skelOf_blit]
        exact hstep.skel p
      obtain ⟨nodeW, hnW, hbrW, -, -, -, -⟩ := node_of_skel hskelW hn0
      rw [hbr0] at hbrW
      have hcap2 : bytes.length - (PAGE_SIZE - o % 2 ^ 12) = cnt * PAGE_SIZE + eo := by
        rw [hPS]
        omega
      have hpages : ∀ j : Nat, j ≤ cnt → ∃ f2 l2,
          RecF F w' pid (o / 2 ^ 12 + 1 + j) f2 l2 ∧
          (if j < cnt then l2 = PAGE_SIZE else eo ≤ l2) ∧
          (∀ k, k < (if j < cnt then PAGE_SIZE else eo) →
            w'.frames f2 k =
              (fun m => bytes.getD ((PAGE_SIZE - o % 2 ^ 12) + m) 0)
                (j * PAGE_SIZE + k)) := by
        intro j hj
        obtain ⟨f2, l2, hr2, hlif, hcont⟩ := hpp2 j hj
        refine ⟨f2, l2, hr2, hlif, ?_⟩
        intro k hk
        rw [hcont k hk]
        show (bytes.drop (PAGE_SIZE - o % 2 ^ 12)).getD (j * PAGE_SIZE + k) 0 = _
        rw [listGetD_drop]
      unfold Phys.read_at
      rw [if_neg hov, if_neg h0, offsets_eq, hpair]
      simp only
      rw [if_neg hsp, hcnt2]
      rw [commit_read_rec hnW hbrW hrecW]
      simp only
      rw [copyFromFrame_fill w' f bytes.length (o % 2 ^ 12) PAGE_SIZE (by omega) (by omega)]
      simp only
      rw [if_neg (by omega)]
      rw [@readRest_spec cnt F w' pid (o / 2 ^ 12 + 1) eo _ _
        (fun m => bytes.getD ((PAGE_SIZE - o % 2 ^ 12) + m) 0) _
        hnW hbrW hcap2 heo0 heoP hpages]
      have hbseq : (List.range (PAGE_SIZE - o % 2 ^ 12)).map
          (fun k => w'.frames f (o % 2 ^ 12 + k)) =
          (List.range (PAGE_SIZE - o % 2 ^ 12)).map (fun k => bytes.getD k 0) := by
        apply List.map_congr_left
        intro k hk
        rw [List.mem_range] at hk
        rw [hheadcont (o % 2 ^ 12 + k) (by omega) (by omega)]
        congr 1
        omega
      have hfull : bytes =
          (List.range (PAGE_SIZE - o % 2 ^ 12)).map (fun k => bytes.getD k 0)
            ++ (List.range (bytes.length - (PAGE_SIZE - o % 2 ^ 12))).map
              (fun m => bytes.getD ((PAGE_SIZE - o % 2 ^ 12) + m) 0) := by
        conv_lhs => rw [← range_map_getD bytes]
        have hc : bytes.length =
            (PAGE_SIZE - o % 2 ^ 12) + (bytes.length - (PAGE_SIZE - o % 2 ^ 12)) := by
          omega
        conv_lhs => rw [hc]
        exact range_add_map _ _ _
      rw [hbseq, ← hfull]


theorem anonW_node (p : Nat) (n : PhysNode) (hn : anonW.node p = some n) :
    n.frames = [] ∧ n.parent = none := by
  have hform : anonW.node p =
      if 0 = p then
        some { branch := false, parent := none, frames := [], position := 0,
               cow := true, flusher := none }
      else none := rfl
  rw [hform] at hn
  by_cases hp : 0 = p
  · rw [if_pos hp] at hn
    cases hn
    exact ⟨rfl, rfl⟩
  · rw [if_neg hp] at hn
    exact absurd hn (by simp)

/-- The anonymous one-node world is well-formed (under the constant rank). -/
theorem wf_anonW : Wf (fun _ => 0) anonW := by
  refine ⟨?_, ?_, ?_, ?_, ?_⟩
  · intro p n hn
    rw [(anonW_node p n hn).1]
    simp
  · intro p n pp s t hn hpar
    rw [(anonW_node p n hn).2] at hpar
    exact absurd hpar (by simp)
  · intro p n i fi s hn hl hs
    rw [(anonW_node p n hn).1] at hl
    exact absurd hl (by simp [lookupA])
  · intro p n i fi s hn hl hs
    rw [(anonW_node p n hn).1] at hl
    exact absurd hl (by simp [lookupA])
  · intro p1 n1 i1 fi1 s1 p2 n2 i2 fi2 s2 hn1 hl1 hs1 hn2 hl2 hs2 hne
    rw [(anonW_node p1 n1 hn1).1] at hl1
    exact absurd hl1 (by simp [lookupA])

set_option maxHeartbeats 1600000 in
theorem claim_C1_witness :
    Phys.read_at (Phys.write_at anonW 5 0 0 [17, 34]).1 5 0 0 2 =
      ((Phys.write_at anonW 5 0 0 [17, 34]).1, .ok [17, 34]) := by
  have hw : Phys.write_at anonW 5 0 0 [17, 34] =
      ((Phys.write_at anonW 5 0 0 [17, 34]).1, .ok 2) := rfl
  exact @claim_C1_write_then_read (fun _ => 0) 5 anonW 0 0 [17, 34]
    (Phys.write_at anonW 5 0 0 [17, 34]).1 2 wf_anonW hw

end Umi
